import Mathlib

/-!
# Limit order book: embedding of `Orderbook.cpp` and its contracts

The book of `src/orderbook/Orderbook.cpp` is embedded as pure functions over an
explicit state.  The two `std::map`s are association lists kept in key order
(`bids_` by descending price, `asks_` by ascending price), each `std::list` of
order pointers is a `List Order`, and the `std::unordered_map` registry is an
association list keyed by order id.  Operations that can throw (`map::at`,
`Order::Fill`) or read through a dangling handle (`list::front` of an empty
list, `list::erase` of an iterator that is not in the list) return a `Fault`.
A fault ends the run: the state a throwing call leaves behind is not modelled.
The two `while` loops of `MatchOrders` take a step budget; `MatchOrders` passes
a budget computed from the book, and the budget never runs out, on any book
(`matchLevel_sound`, `matchLoop_total`).
The feed handler of `src/marketdata/MarketDataFeedHandler.cpp`, which
translates a fetched response into `AddOrder` calls, is embedded at the end of
the definitions.
Prices are integers and ids and quantities natural numbers.  Matching and
cancelling only compare and subtract them; the one addition of quantities, the
running sum of `GetOrderInfos`, is reduced modulo the width of the type, and so
are the conversions of the feed handler from JSON numbers.
-/

namespace Wagewise

/-! ## Data model -/

/-- Side of an order (`Side::Buy`, `Side::Sell`). -/
inductive Side where
  | Buy
  | Sell
deriving DecidableEq, Repr

/-- Order type (`OrderType::GoodTillCancel`, `OrderType::FillAndKill`). -/
inductive OrderType where
  | GoodTillCancel
  | FillAndKill
deriving DecidableEq, Repr

/-- Ways in which an operation of the book can fail to return normally. -/
inductive Fault where
  /-- `Order::Fill` asked to remove more than the remaining quantity. -/
  | overFill
  /-- `std::map::at` on a price that is not a key. -/
  | outOfRange
  /-- `std::list::front` on an empty list. -/
  | emptyFront
  /-- `std::list::erase` through a stored position whose order is not in the list. -/
  | staleIterator
  /-- Step budget of a loop exhausted (shown unreachable for `MatchOrders`). -/
  | fuel
deriving DecidableEq, Repr

/-- Modelled from the spec: `Order.h` is not among the sources.  An order
carries its type, id, side, price, initial quantity and remaining quantity; the
getters `GetOrderType`, `GetOrderId`, `GetSide`, `GetPrice`,
`GetInitialQuantity`, `GetRemainingQuantity` read the fields. -/
structure Order where
  orderType : OrderType
  orderId : Nat
  side : Side
  price : Int
  initialQuantity : Nat
  remainingQuantity : Nat
deriving DecidableEq, Repr

/-- Modelled from the spec: the constructor `Order(type, id, side, price,
quantity)` used by every caller; the remaining quantity starts at the initial
quantity. -/
def Order.new (orderType : OrderType) (orderId : Nat) (side : Side)
    (price : Int) (quantity : Nat) : Order :=
  { orderType := orderType, orderId := orderId, side := side, price := price,
    initialQuantity := quantity, remainingQuantity := quantity }

/-- Modelled from the spec: `Order::IsFilled`, an order whose remaining
quantity is zero is filled. -/
def Order.IsFilled (o : Order) : Bool := o.remainingQuantity == 0

/-- Modelled from the spec: `Order::Fill` decrements the remaining quantity and
fails when asked to remove more than remains. -/
def Order.Fill (o : Order) (quantity : Nat) : Except Fault Order :=
  if quantity > o.remainingQuantity then .error .overFill
  else .ok { o with remainingQuantity := o.remainingQuantity - quantity }

/-- Modelled from the spec: `OrderModify.h` is not among the sources.  A modify
request carries an order id and the new side, price and quantity. -/
structure OrderModify where
  orderId : Nat
  side : Side
  price : Int
  quantity : Nat
deriving DecidableEq, Repr

/-- Modelled from the spec: `OrderModify::ToOrderPointer` builds a new order
with the requested side, price and quantity and the given type. -/
def OrderModify.ToOrderPointer (m : OrderModify) (orderType : OrderType) : Order :=
  Order.new orderType m.orderId m.side m.price m.quantity

/-- Modelled from the spec: `Trade.h` is not among the sources.  One leg of a
trade: order id, price and quantity. -/
structure TradeInfo where
  orderId : Nat
  price : Int
  quantity : Nat
deriving DecidableEq, Repr

/-- Modelled from the spec: `Trade.h` is not among the sources.  A trade is the
pair of its buy leg and its sell leg. -/
structure Trade where
  bidTrade : TradeInfo
  askTrade : TradeInfo
deriving DecidableEq, Repr

abbrev Trades := List Trade

/-- The `std::list` of order pointers of one price level, front first. -/
abbrev OrderPointers := List Order

/-- One side of the book: the entries of the `std::map`, in iteration order. -/
abbrev Levels := List (Int × OrderPointers)

/-- Registry entry (`Orderbook::OrderEntry`).  In the source the entry holds a
pointer to the very order object that sits in the queue, and the position of
that object in its level.  The book reads only the side, the price and the type
through the pointer, none of which ever changes, so the entry records those; the
stored position designates the queue node of the order with the entry's id. -/
structure OrderEntry where
  side : Side
  price : Int
  orderType : OrderType
deriving DecidableEq, Repr

/-- The registry `orders_`: the entries of the `std::unordered_map`. -/
abbrev Registry := List (Nat × OrderEntry)

/-- State of the book (`class Orderbook`): `bids_`, `asks_` and `orders_`.
The member `data_` is never read or written by any operation. -/
structure Orderbook where
  bids_ : Levels
  asks_ : Levels
  orders_ : Registry
deriving DecidableEq, Repr

/-- The book built by the constructor `Orderbook::Orderbook()`. -/
def Orderbook.empty : Orderbook := { bids_ := [], asks_ := [], orders_ := [] }

/-! ## Container operations -/

/-- Registry lookup: `orders_.contains(id)`. -/
def Registry.contains (orders : Registry) (orderId : Nat) : Bool :=
  (orders.lookup orderId).isSome

/-- Registry removal: `orders_.erase(id)` removes the entry of the key. -/
def Registry.erase (orders : Registry) (orderId : Nat) : Registry :=
  orders.filter (fun e => e.1 != orderId)

/-- Removal of a price level: `map.erase(price)`. -/
def eraseLevel (price : Int) (levels : Levels) : Levels :=
  levels.filter (fun l => l.1 != price)

/-- Replace the queue stored under `price` (writing through the reference
returned by `map::at`). -/
def setLevel (price : Int) (orders : OrderPointers) : Levels → Levels
  | [] => []
  | (p, q) :: rest =>
    if p = price then (p, orders) :: rest else (p, q) :: setLevel price orders rest

/-- The statements `auto& orders = side[order->GetPrice()]; orders.push_back(order)`:
find the level of the order's price, creating it at its place in key order when
absent, and append the order.  `before a b` is the comparator of the map
(`std::greater` for bids, `std::less` for asks). -/
def pushOrder (before : Int → Int → Bool) (order : Order) : Levels → Levels
  | [] => [(order.price, [order])]
  | (p, q) :: rest =>
    if p = order.price then (p, q ++ [order]) :: rest
    else if before order.price p then (order.price, [order]) :: (p, q) :: rest
    else (p, q) :: pushOrder before order rest

/-- Comparator of `bids_` (`std::greater<Price>`). -/
def bidBefore (a b : Int) : Bool := decide (a > b)

/-- Comparator of `asks_` (`std::less<Price>`). -/
def askBefore (a b : Int) : Bool := decide (a < b)

/-! ## Operations of the book -/

/-- `Orderbook::CanMatch`. -/
def CanMatch (b : Orderbook) (side : Side) (price : Int) : Bool :=
  match side with
  | .Buy =>
    match b.asks_ with
    | [] => false
    | (bestAsk, _) :: _ => decide (price ≥ bestAsk)
  | .Sell =>
    match b.bids_ with
    | [] => false
    | (bestBid, _) :: _ => decide (price ≤ bestBid)

/-- The body of either branch of `CancelOrder`: `side.at(price)`, removal of the
order at the stored position from that queue, then removal of the level when
its queue has become empty.  The stored position is the queue node of the order
with the cancelled id; ids within a level are distinct in every reachable book
(`Reachable.inv`), so that node is the first of that id. -/
def cancelInLevels (orderId : Nat) (price : Int) (levels : Levels) :
    Except Fault Levels :=
  match levels.lookup price with
  | none => .error .outOfRange
  | some orders =>
    if orders.any (fun o => o.orderId == orderId) then
      let orders1 := orders.eraseP (fun o => o.orderId == orderId)
      if orders1.isEmpty then .ok (eraseLevel price levels)
      else .ok (setLevel price orders1 levels)
    else .error .staleIterator

/-- `Orderbook::CancelOrder`. -/
def CancelOrder (b : Orderbook) (orderId : Nat) : Except Fault Orderbook :=
  match b.orders_.lookup orderId with
  | none => .ok b
  | some entry =>
    let orders1 := b.orders_.erase orderId
    if entry.side = Side.Sell then
      match cancelInLevels orderId entry.price b.asks_ with
      | .error e => .error e
      | .ok asks1 => .ok { b with asks_ := asks1, orders_ := orders1 }
    else
      match cancelInLevels orderId entry.price b.bids_ with
      | .error e => .error e
      | .ok bids1 => .ok { b with bids_ := bids1, orders_ := orders1 }

/-- Result of the inner loop of `MatchOrders`: the two queues, the registry and
the trades. -/
structure LevelMatch where
  bids : OrderPointers
  asks : OrderPointers
  orders : Registry
  trades : Trades
deriving DecidableEq, Repr

/-- The inner loop of `MatchOrders` (`while (!bids.empty() && !asks.empty())`)
on the queues of the best bid level and the best ask level. -/
def matchLevel : Nat → OrderPointers → OrderPointers → Registry → Trades →
    Except Fault LevelMatch
  | _, [], asks, orders, trades => .ok ⟨[], asks, orders, trades⟩
  | _, bid :: bids, [], orders, trades => .ok ⟨bid :: bids, [], orders, trades⟩
  | 0, _ :: _, _ :: _, _, _ => .error .fuel
  | fuel + 1, bid :: bids, ask :: asks, orders, trades =>
    let quantity := min bid.remainingQuantity ask.remainingQuantity
    match bid.Fill quantity with
    | .error e => .error e
    | .ok bid1 =>
      match ask.Fill quantity with
      | .error e => .error e
      | .ok ask1 =>
        let bids1 := if bid1.IsFilled then bids else bid1 :: bids
        let orders1 := if bid1.IsFilled then orders.erase bid1.orderId else orders
        let asks1 := if ask1.IsFilled then asks else ask1 :: asks
        let orders2 := if ask1.IsFilled then orders1.erase ask1.orderId else orders1
        matchLevel fuel bids1 asks1 orders2
          (trades ++ [⟨⟨bid1.orderId, bid1.price, quantity⟩,
                       ⟨ask1.orderId, ask1.price, quantity⟩⟩])

/-- The outer loop of `MatchOrders` (`while (!bids_.empty() && !asks_.empty())`). -/
def matchLoop : Nat → Orderbook → Trades → Except Fault (Trades × Orderbook)
  | fuel, b, trades =>
    match b.bids_, b.asks_ with
    | (bidPrice, bids) :: restBids, (askPrice, asks) :: restAsks =>
      if bidPrice < askPrice then .ok (trades, b)
      else
        match fuel with
        | 0 => .error .fuel
        | fuel + 1 =>
          match matchLevel (bids.length + asks.length) bids asks b.orders_ trades with
          | .error e => .error e
          | .ok r =>
            let bids1 := (bidPrice, r.bids) :: restBids
            let asks1 := (askPrice, r.asks) :: restAsks
            let bids2 := if r.bids.isEmpty then eraseLevel bidPrice bids1 else bids1
            let asks2 := if r.asks.isEmpty then eraseLevel askPrice asks1 else asks1
            matchLoop fuel { bids_ := bids2, asks_ := asks2, orders_ := r.orders } r.trades
    | _, _ => .ok (trades, b)

/-- The statements after the loops of `MatchOrders`, for one side: when the
side is non-empty, read the front order of its best level and cancel it when it
is a FillAndKill order. -/
def sweepFront (b : Orderbook) (levels : Levels) : Except Fault Orderbook :=
  match levels with
  | [] => .ok b
  | (_, []) :: _ => .error .emptyFront
  | (_, order :: _) :: _ =>
    if order.orderType = OrderType.FillAndKill then CancelOrder b order.orderId
    else .ok b

/-- `Orderbook::MatchOrders`. -/
def MatchOrders (b : Orderbook) : Except Fault (Trades × Orderbook) :=
  match matchLoop (b.bids_.length + b.asks_.length) b [] with
  | .error e => .error e
  | .ok (trades, b1) =>
    match sweepFront b1 b1.bids_ with
    | .error e => .error e
    | .ok b2 =>
      match sweepFront b2 b2.asks_ with
      | .error e => .error e
      | .ok b3 => .ok (trades, b3)

/-- The insertion performed by `AddOrder` before matching: push the order to
the back of its level and register it. -/
def insertOrder (b : Orderbook) (order : Order) : Orderbook :=
  let entry : OrderEntry := ⟨order.side, order.price, order.orderType⟩
  match order.side with
  | .Buy =>
    { b with bids_ := pushOrder bidBefore order b.bids_,
             orders_ := (order.orderId, entry) :: b.orders_ }
  | .Sell =>
    { b with asks_ := pushOrder askBefore order b.asks_,
             orders_ := (order.orderId, entry) :: b.orders_ }

/-- `Orderbook::AddOrder`. -/
def AddOrder (b : Orderbook) (order : Order) : Except Fault (Trades × Orderbook) :=
  if b.orders_.contains order.orderId then .ok ([], b)
  else if order.orderType = OrderType.FillAndKill ∧ ¬ CanMatch b order.side order.price then
    .ok ([], b)
  else MatchOrders (insertOrder b order)

/-- `Orderbook::MatchOrder` (modify). -/
def MatchOrder (b : Orderbook) (order : OrderModify) : Except Fault (Trades × Orderbook) :=
  match b.orders_.lookup order.orderId with
  | none => .ok ([], b)
  | some entry =>
    match CancelOrder b order.orderId with
    | .error e => .error e
    | .ok b1 => AddOrder b1 (order.ToOrderPointer entry.orderType)

/-- `Orderbook::Size`. -/
def Size (b : Orderbook) : Nat := b.orders_.length

/-! ## Vocabulary of the contracts -/

/-- All orders of one side in priority order: best level first, front of each
queue first. -/
def queued : Levels → List Order
  | [] => []
  | l :: rest => l.2 ++ queued rest

/-- The prices that are keys of one side, in iteration order. -/
def levelKeys (levels : Levels) : List Int := levels.map Prod.fst

/-- The queue stored at a price, empty when the price is not a key. -/
def queueAt (levels : Levels) (price : Int) : OrderPointers :=
  (levels.lookup price).getD []

/-- All resting orders of the book. -/
def Orderbook.resting (b : Orderbook) : List Order := queued b.bids_ ++ queued b.asks_

/-- The registry entry that `AddOrder` records for an order. -/
def entryOf (o : Order) : OrderEntry := ⟨o.side, o.price, o.orderType⟩

/-- The order after a fill of `quantity` that does not exceed what remains. -/
def Order.reduce (o : Order) (quantity : Nat) : Order :=
  { o with remainingQuantity := o.remainingQuantity - quantity }

/-- The trade recorded when `bid` and `ask` are matched. -/
def tradeOf (bid ask : Order) : Trade :=
  let quantity := min bid.remainingQuantity ask.remainingQuantity
  ⟨⟨bid.orderId, bid.price, quantity⟩, ⟨ask.orderId, ask.price, quantity⟩⟩

/-- The elementary effects of which a run of the matching loops is composed:
one match of the two front orders, the removal of a filled front order, and the
removal of an emptied best level. -/
inductive Micro : Orderbook × Trades → Orderbook × Trades → Prop
  | trade (bp ap : Int) (bid ask : Order) (bq aq : OrderPointers) (rb ra : Levels)
      (orders : Registry) (ts : Trades) (hcross : ap ≤ bp) :
      Micro (⟨(bp, bid :: bq) :: rb, (ap, ask :: aq) :: ra, orders⟩, ts)
        (⟨(bp, bid.reduce (min bid.remainingQuantity ask.remainingQuantity) :: bq) :: rb,
          (ap, ask.reduce (min bid.remainingQuantity ask.remainingQuantity) :: aq) :: ra,
          orders⟩, ts ++ [tradeOf bid ask])
  | popBid (bp : Int) (bid : Order) (bq : OrderPointers) (rb asks : Levels)
      (orders : Registry) (ts : Trades) (hfilled : bid.remainingQuantity = 0) :
      Micro (⟨(bp, bid :: bq) :: rb, asks, orders⟩, ts)
        (⟨(bp, bq) :: rb, asks, orders.erase bid.orderId⟩, ts)
  | popAsk (ap : Int) (ask : Order) (aq : OrderPointers) (bids ra : Levels)
      (orders : Registry) (ts : Trades) (hfilled : ask.remainingQuantity = 0) :
      Micro (⟨bids, (ap, ask :: aq) :: ra, orders⟩, ts)
        (⟨bids, (ap, aq) :: ra, orders.erase ask.orderId⟩, ts)
  | dropBid (bp : Int) (rb asks : Levels) (orders : Registry) (ts : Trades) :
      Micro (⟨(bp, []) :: rb, asks, orders⟩, ts) (⟨rb, asks, orders⟩, ts)
  | dropAsk (ap : Int) (bids ra : Levels) (orders : Registry) (ts : Trades) :
      Micro (⟨bids, (ap, []) :: ra, orders⟩, ts) (⟨bids, ra, orders⟩, ts)

/-- A run of elementary effects. -/
abbrev Run := Relation.ReflTransGen Micro

/-- Every price is a key of a side at most once. -/
def KeysNodup (b : Orderbook) : Prop :=
  (levelKeys b.bids_).Nodup ∧ (levelKeys b.asks_).Nodup

/-- No price level of the book has an empty queue. -/
def NoEmptyLevel (b : Orderbook) : Prop :=
  (∀ l ∈ b.bids_, l.2 ≠ []) ∧ (∀ l ∈ b.asks_, l.2 ≠ [])

/-- The loop `while (!bids_.empty() && !asks_.empty())` has reached its exit:
a side is empty or the best bid is below the best ask. -/
def NoCross (b : Orderbook) : Prop :=
  ∀ bl ∈ b.bids_.head?, ∀ al ∈ b.asks_.head?, bl.1 < al.1

/-- The part of a state that priority, accounting and the registry depend on:
both sides in priority order, the registry and the trades so far. -/
structure View where
  bidQ : List Order
  askQ : List Order
  orders : Registry
  trades : Trades

/-- The view of a state of the matching loops. -/
def view (s : Orderbook × Trades) : View :=
  ⟨queued s.1.bids_, queued s.1.asks_, s.1.orders_, s.2⟩

/-- The elementary effects as seen on the view. -/
inductive FlatStep : View → View → Prop
  | trade (bid ask : Order) (bt at_ : List Order) (orders : Registry) (ts : Trades) :
      FlatStep ⟨bid :: bt, ask :: at_, orders, ts⟩
        ⟨bid.reduce (min bid.remainingQuantity ask.remainingQuantity) :: bt,
         ask.reduce (min bid.remainingQuantity ask.remainingQuantity) :: at_,
         orders, ts ++ [tradeOf bid ask]⟩
  | popBid (bid : Order) (bt asks : List Order) (orders : Registry) (ts : Trades)
      (hfilled : bid.remainingQuantity = 0) :
      FlatStep ⟨bid :: bt, asks, orders, ts⟩ ⟨bt, asks, orders.erase bid.orderId, ts⟩
  | popAsk (ask : Order) (bids at_ : List Order) (orders : Registry) (ts : Trades)
      (hfilled : ask.remainingQuantity = 0) :
      FlatStep ⟨bids, ask :: at_, orders, ts⟩ ⟨bids, at_, orders.erase ask.orderId, ts⟩
  | stay (v : View) : FlatStep v v

/-- Ids of resting orders are pairwise distinct, registry keys are pairwise
distinct, and the registry holds exactly the entries of the resting orders. -/
def RegistryOK (resting : List Order) (orders : Registry) : Prop :=
  (resting.map (fun o => o.orderId)).Nodup ∧ (orders.map Prod.fst).Nodup ∧
    ∀ id e, (id, e) ∈ orders ↔ ∃ o ∈ resting, o.orderId = id ∧ entryOf o = e

/-- Keys of `bids_` strictly decrease and keys of `asks_` strictly increase in
iteration order (the order kept by the two `std::map`s). -/
def Sorted (b : Orderbook) : Prop :=
  (levelKeys b.bids_).Pairwise (fun a c => a > c) ∧
    (levelKeys b.asks_).Pairwise (fun a c => a < c)

/-- Every order queued on the bid side is a buy order at the price of its level,
every order queued on the ask side a sell order at the price of its level. -/
def Tagged (b : Orderbook) : Prop :=
  (∀ l ∈ b.bids_, ∀ o ∈ l.2, o.side = Side.Buy ∧ o.price = l.1) ∧
    (∀ l ∈ b.asks_, ∀ o ∈ l.2, o.side = Side.Sell ∧ o.price = l.1)

/-- Structural consistency of a book: sorted sides, orders filed under their own
side and price, registry in step with the queues. -/
def Consistent (b : Orderbook) : Prop :=
  Sorted b ∧ Tagged b ∧ RegistryOK b.resting b.orders_

/-- One side of the book with the order of the given id taken out of its queue
and the levels left empty removed. -/
def removeId (orderId : Nat) (levels : Levels) : Levels :=
  (levels.map (fun l => (l.1, l.2.filter (fun o => o.orderId != orderId)))).filter
    (fun l => !l.2.isEmpty)

/-- The book with the order of the given id taken out: out of its queue (its
level going with it when left empty) and out of the registry. -/
def Orderbook.without (b : Orderbook) (orderId : Nat) : Orderbook :=
  ⟨removeId orderId b.bids_, removeId orderId b.asks_, b.orders_.erase orderId⟩

/-- Every resting order is a GoodTillCancel order. -/
def AllGTC (b : Orderbook) : Prop :=
  ∀ o ∈ b.resting, o.orderType = OrderType.GoodTillCancel

/-- Every bid level is priced strictly below every ask level. -/
def Uncrossed (b : Orderbook) : Prop :=
  ∀ bl ∈ b.bids_, ∀ al ∈ b.asks_, bl.1 < al.1

/-- The invariant of the reachable books. -/
def Inv (b : Orderbook) : Prop :=
  Consistent b ∧ NoEmptyLevel b ∧ Uncrossed b ∧ AllGTC b

/-- Every order of the list other than its first is a GoodTillCancel order. -/
def FrontOnly (l : List Order) : Prop :=
  ∀ o ∈ l.tail, o.orderType = OrderType.GoodTillCancel

/-- On either side only the front order of the best level may be a FillAndKill
order. -/
def FakAtFront (b : Orderbook) : Prop :=
  FrontOnly (queued b.bids_) ∧ FrontOnly (queued b.asks_)

/-- The effect of the statements after the loops of `MatchOrders` for one side,
given the orders of that side in priority order: the first is taken out of the
book when it is a FillAndKill order. -/
def sweep (b : Orderbook) (side : List Order) : Orderbook :=
  match side.head? with
  | none => b
  | some o => if o.orderType = OrderType.FillAndKill then b.without o.orderId else b

/-- Both sweeps in the order of the source: bids, then asks. -/
def sweepBoth (b : Orderbook) : Orderbook :=
  sweep (sweep b (queued b.bids_)) (queued (sweep b (queued b.bids_)).asks_)

/-- The books that can be built from the empty book through the public
operations `AddOrder`, `CancelOrder` and `MatchOrder`. -/
inductive Reachable : Orderbook → Prop
  | empty : Reachable Orderbook.empty
  | add {b b1 : Orderbook} (o : Order) (ts : Trades) :
      Reachable b → AddOrder b o = .ok (ts, b1) → Reachable b1
  | cancel {b b1 : Orderbook} (orderId : Nat) :
      Reachable b → CancelOrder b orderId = .ok b1 → Reachable b1
  | modify {b b1 : Orderbook} (m : OrderModify) (ts : Trades) :
      Reachable b → MatchOrder b m = .ok (ts, b1) → Reachable b1

/-- The order passes the two guards of `AddOrder`: its id is not registered, and
it is not a FillAndKill order that cannot match. -/
def Accepted (b : Orderbook) (o : Order) : Prop :=
  b.orders_.lookup o.orderId = none ∧
    ¬ (o.orderType = OrderType.FillAndKill ∧ CanMatch b o.side o.price = false)

/-- The book after `AddOrder` of GoodTillCancel Buy id 1 at 99 for 10, Buy id 2
at 100 for 5 and Sell id 3 at 101 for 7, in this order, on the empty book. -/
def exampleBook : Orderbook :=
  { bids_ := [(100, [Order.new .GoodTillCancel 2 .Buy 100 5]),
              (99, [Order.new .GoodTillCancel 1 .Buy 99 10])],
    asks_ := [(101, [Order.new .GoodTillCancel 3 .Sell 101 7])],
    orders_ := [(3, ⟨.Sell, 101, .GoodTillCancel⟩), (2, ⟨.Buy, 100, .GoodTillCancel⟩),
                (1, ⟨.Buy, 99, .GoodTillCancel⟩)] }

/-- `AddOrder` of the orders of a list, one after the other, on the book. -/
def addAll (b : Orderbook) : List Order → Except Fault Orderbook
  | [] => .ok b
  | o :: os =>
    match AddOrder b o with
    | .error e => .error e
    | .ok (_, b1) => addAll b1 os

/-- `CancelOrder` of the ids of a list, one after the other, on the book. -/
def cancelAll (b : Orderbook) : List Nat → Except Fault Orderbook
  | [] => .ok b
  | id :: ids =>
    match CancelOrder b id with
    | .error e => .error e
    | .ok b1 => cancelAll b1 ids

/-- None of the orders of the list, submitted one after the other, crosses the
opposite side of the book it is submitted to. -/
def NoneCrosses (b : Orderbook) : List Order → Prop
  | [] => True
  | o :: os =>
    CanMatch b o.side o.price = false ∧
      match AddOrder b o with
      | .error _ => False
      | .ok (_, b1) => NoneCrosses b1 os
/-- The three orders whose submission to the empty book builds `exampleBook`. -/
def exampleOrders : List Order :=
  [Order.new .GoodTillCancel 1 .Buy 99 10, Order.new .GoodTillCancel 2 .Buy 100 5,
   Order.new .GoodTillCancel 3 .Sell 101 7]

/-- Every order of the second list stems from an order of the first list with
the same id, side, price, type and initial quantity, and has no more remaining
quantity than it. -/
def Descends (l l1 : List Order) : Prop :=
  ∀ x ∈ l1, ∃ y ∈ l, y.orderId = x.orderId ∧ entryOf y = entryOf x ∧
    y.initialQuantity = x.initialQuantity ∧ x.remainingQuantity ≤ y.remainingQuantity

/-- Total remaining quantity of a list of orders. -/
def restingQty (l : List Order) : Nat := (l.map (fun o => o.remainingQuantity)).sum

/-- Total quantity of a list of trades (the quantity of the buy leg of each). -/
def tradedQty (ts : Trades) : Nat := (ts.map (fun t => t.bidTrade.quantity)).sum

/-- The trade names the order id on one of its legs. -/
def Trade.names (t : Trade) (id : Nat) : Bool :=
  t.bidTrade.orderId == id || t.askTrade.orderId == id

/-- Total quantity of the trades of the list that name the order id. -/
def filledQty (id : Nat) (ts : Trades) : Nat :=
  tradedQty (ts.filter (fun t => t.names id))

/-- In the list of orders, an order of id `a` comes before an order of id `c`. -/
def Ahead (a c : Nat) (l : List Order) : Prop :=
  [a, c].Sublist (l.map (fun o => o.orderId))

/-- The state of price-time priority between the order of id `a`, which had
`ra` remaining when the run began, and an order of id `c` behind it: either `a`
still rests ahead of `c`, no trade names `c` and the trades naming `a` account
for what `a` has lost; or `a` has left the book with all of `ra` traded, and the
trades split into a first part that does not name `c` and a second part that
does not name `a`. -/
def Priority (a c ra : Nat) (v : View) : Prop :=
  ((Ahead a c v.bidQ ∨ Ahead a c v.askQ) ∧ (∀ t ∈ v.trades, t.names c = false) ∧
    ∃ x ∈ v.bidQ ++ v.askQ, x.orderId = a ∧ filledQty a v.trades + x.remainingQuantity = ra) ∨
  ((∀ x ∈ v.bidQ ++ v.askQ, x.orderId ≠ a) ∧ filledQty a v.trades = ra ∧
    ∃ ts1 ts2, v.trades = ts1 ++ ts2 ∧ (∀ t ∈ ts1, t.names c = false) ∧
      (∀ t ∈ ts2, t.names a = false))

/-- The book after `AddOrder` of GoodTillCancel Buy id 1 at 100 for 10 and Buy
id 2 at 100 for 5, in this order, on the empty book. -/
def priorityBook : Orderbook :=
  { bids_ := [(100, [Order.new .GoodTillCancel 1 .Buy 100 10,
                     Order.new .GoodTillCancel 2 .Buy 100 5])],
    asks_ := [],
    orders_ := [(2, ⟨.Buy, 100, .GoodTillCancel⟩), (1, ⟨.Buy, 100, .GoodTillCancel⟩)] }

/-! ## Further vocabulary -/

/-- The levels of one side of the book. -/
def Orderbook.levels (b : Orderbook) : Side → Levels
  | .Buy => b.bids_
  | .Sell => b.asks_

/-- The side opposite to a side. -/
def Side.opposite : Side → Side
  | .Buy => .Sell
  | .Sell => .Buy

/-! ## Snapshot -/

/-- Modelled from the spec: `LevelInfo.h` is not among the sources.  One entry
of a depth snapshot: a price and the aggregate quantity at that price (read by
the callers as `price_` and `quantity_`). -/
structure LevelInfo where
  price_ : Int
  quantity_ : Nat
deriving DecidableEq, Repr

/-- Modelled from the spec: `OrderbookLevelInfos.h` is not among the sources.
A depth snapshot: the bid entries and the ask entries, each best first (read by
the callers through `GetBids` and `GetAsks`). -/
structure OrderbookLevelInfos where
  bids_ : List LevelInfo
  asks_ : List LevelInfo
deriving DecidableEq, Repr

/-- The lambda `CreateLevelInfos` of `GetOrderInfos`: `std::accumulate` over the
queue, from `(Quantity)0`, with a running sum of type `Quantity`.  `Quantity` is
an unsigned integer type whose declaration (`Usings.h`) is not among the
sources; its width in bits is the parameter `quantityBits`, and every addition
is reduced modulo `2 ^ quantityBits`. -/
def CreateLevelInfos (quantityBits : Nat) (price : Int) (orders : OrderPointers) : LevelInfo :=
  ⟨price, orders.foldl
    (fun runningSum order => (runningSum + order.remainingQuantity) % 2 ^ quantityBits) 0⟩

/-- `Orderbook::GetOrderInfos`: one entry per level of `bids_` in iteration
order, then one entry per level of `asks_` in iteration order. -/
def GetOrderInfos (quantityBits : Nat) (b : Orderbook) : OrderbookLevelInfos :=
  ⟨b.bids_.map (fun l => CreateLevelInfos quantityBits l.1 l.2),
   b.asks_.map (fun l => CreateLevelInfos quantityBits l.1 l.2)⟩

/-- The book after `AddOrder` of GoodTillCancel Buy id 1 and Buy id 2, both at
100 for 2147483648 (2 to the 31), on the empty book. -/
def overflowBook : Orderbook :=
  { bids_ := [(100, [Order.new .GoodTillCancel 1 .Buy 100 2147483648,
                     Order.new .GoodTillCancel 2 .Buy 100 2147483648])],
    asks_ := [],
    orders_ := [(2, ⟨.Buy, 100, .GoodTillCancel⟩), (1, ⟨.Buy, 100, .GoodTillCancel⟩)] }

/-- The book after `AddOrder` of GoodTillCancel Buy id 1 and Buy id 2, both at
100 for half of `2 ^ w`, on the empty book. -/
def halfRangeBook (w : Nat) : Orderbook :=
  { bids_ := [(100, [Order.new .GoodTillCancel 1 .Buy 100 (2 ^ (w - 1)),
                     Order.new .GoodTillCancel 2 .Buy 100 (2 ^ (w - 1))])],
    asks_ := [],
    orders_ := [(2, ⟨.Buy, 100, .GoodTillCancel⟩), (1, ⟨.Buy, 100, .GoodTillCancel⟩)] }

/-- Price priority in a state of the matching loops: the buy-leg prices of the
trades so far do not increase, the sell-leg prices do not decrease, and no
level still in the book is priced better than a level already traded at. -/
def PricePriority (s : Orderbook × Trades) : Prop :=
  (s.2.map (fun t => t.bidTrade.price)).Pairwise (fun a c => a ≥ c) ∧
  (s.2.map (fun t => t.askTrade.price)).Pairwise (fun a c => a ≤ c) ∧
  (∀ t ∈ s.2, ∀ k ∈ levelKeys s.1.bids_, k ≤ t.bidTrade.price) ∧
  (∀ t ∈ s.2, ∀ k ∈ levelKeys s.1.asks_, t.askTrade.price ≤ k)

/-- The order `x`, as it stands after the trades `pre`, stems from an order of
the list `l0`: same id, side, price and type, and what that order had remaining
is what `x` has remaining plus what the trades `pre` naming its id took. -/
def StemsFrom (l0 : List Order) (pre : Trades) (x : Order) : Prop :=
  ∃ y ∈ l0, y.orderId = x.orderId ∧ entryOf y = entryOf x ∧
    filledQty x.orderId pre + x.remainingQuantity = y.remainingQuantity

/-- The trade `t`, made after the trades `pre` of a run of the matching loops
that began at the book `b0`, is the match of a buy order `bid` of the bid side
with a sell order `ask` of the ask side, as they stood just before the match:
the buy leg carries the id and the price of `bid`, the sell leg the id and the
price of `ask`, both legs the minimum of the two remaining quantities, and the
price of `ask` is not above the price of `bid`. -/
def TradeOK (b0 : Orderbook) (pre : Trades) (t : Trade) : Prop :=
  ∃ bid ask : Order,
    t = ⟨⟨bid.orderId, bid.price, min bid.remainingQuantity ask.remainingQuantity⟩,
         ⟨ask.orderId, ask.price, min bid.remainingQuantity ask.remainingQuantity⟩⟩ ∧
    ask.price ≤ bid.price ∧ bid.side = Side.Buy ∧ ask.side = Side.Sell ∧
    StemsFrom (queued b0.bids_) pre bid ∧ StemsFrom (queued b0.asks_) pre ask

/-- Every trade of the sequence is a match in the sense of `TradeOK`, taken
with the trades before it. -/
def TradesOK (b0 : Orderbook) (ts : Trades) : Prop :=
  ∀ pre t post, ts = pre ++ t :: post → TradeOK b0 pre t

/-- Every order of either side of the state stems from an order of the same
side of the book `b0`, with the trades so far. -/
def Accounted (b0 : Orderbook) (v : View) : Prop :=
  (∀ x ∈ v.bidQ, StemsFrom (queued b0.bids_) v.trades x) ∧
  (∀ x ∈ v.askQ, StemsFrom (queued b0.asks_) v.trades x)

/-- Every resting order of the book has a positive remaining quantity. -/
def Positive (b : Orderbook) : Prop :=
  ∀ o ∈ b.resting, 0 < o.remainingQuantity

/-- The books that can be built from the empty book through `AddOrder`,
`CancelOrder` and `MatchOrder` when every submitted order has a positive
remaining quantity and every modify request carries a positive quantity. -/
inductive ReachablePositive : Orderbook → Prop
  | empty : ReachablePositive Orderbook.empty
  | add {b b1 : Orderbook} (o : Order) (ts : Trades) :
      ReachablePositive b → 0 < o.remainingQuantity → AddOrder b o = .ok (ts, b1) →
      ReachablePositive b1
  | cancel {b b1 : Orderbook} (orderId : Nat) :
      ReachablePositive b → CancelOrder b orderId = .ok b1 → ReachablePositive b1
  | modify {b b1 : Orderbook} (m : OrderModify) (ts : Trades) :
      ReachablePositive b → 0 < m.quantity → MatchOrder b m = .ok (ts, b1) →
      ReachablePositive b1

/-- Both legs of the trade carry a positive quantity. -/
def Trade.positive (t : Trade) : Prop :=
  0 < t.bidTrade.quantity ∧ 0 < t.askTrade.quantity

/-- A resting order at `price` on the side opposite to `side` can be matched by
an order of `side` with limit price `limit`: an ask at or below the limit of a
buy order, a bid at or above the limit of a sell order. -/
def crossesAt (side : Side) (limit price : Int) : Bool :=
  match side with
  | .Buy => decide (price ≤ limit)
  | .Sell => decide (limit ≤ price)

/-- Total remaining quantity of the resting orders of the opposite side that an
order of `side` with limit price `limit` can be matched with. -/
def crossingLiquidity (b : Orderbook) (side : Side) (limit : Int) : Nat :=
  restingQty ((queued (b.levels side.opposite)).filter
    (fun x => crossesAt side limit x.price))

/-- Total remaining quantity of the levels whose price satisfies the test. -/
def levelLiquidity (levels : Levels) (test : Int → Bool) : Nat :=
  restingQty (queued (levels.filter (fun l => test l.1)))

/-! ## Feed handler

`MarketDataFeedHandler::populateOrderbook` and `parseAndAddOrders`.  The
response body is a parsed `nlohmann::json` value; the operations of that library
the handler uses are modelled below as the library documents them.  Fetching
(network, status code, parsing of the body) is not modelled: its outcome, the
parsed body or the message of the exception thrown, is an input.  The integer
types `Price` and `Quantity` are declared in `Usings.h`, which is not among the
sources; their widths in bits are the parameters `priceBits` and
`quantityBits`. -/

/-- A parsed JSON value.  Numbers are whole numbers (the feed quotes whole cents
and whole contracts). -/
inductive Json where
  | null
  | boolean (value : Bool)
  | number (value : Int)
  | string (value : String)
  | array (items : List Json)
  | object (members : List (String × Json))

/-- The name of the type of a JSON value, as it appears in the messages of the
library. -/
def Json.typeName : Json → String
  | .null => "null"
  | .boolean _ => "boolean"
  | .number _ => "number"
  | .string _ => "string"
  | .array _ => "array"
  | .object _ => "object"

/-- `json::contains(key)`: the value is an object that has the key. -/
def Json.contains (j : Json) (key : String) : Bool :=
  match j with
  | .object members => (members.lookup key).isSome
  | _ => false

/-- `json::operator[](key)` on an object that has the key (the handler asks
`contains` first); elsewhere the library leaves the behaviour undefined and the
model answers `null`. -/
def Json.atKey (j : Json) (key : String) : Json :=
  match j with
  | .object members => (members.lookup key).getD .null
  | _ => .null

/-- The values a range-based `for` visits: the elements of an array, the values
of an object, nothing for `null`, the value itself for any other value. -/
def Json.elements : Json → List Json
  | .null => []
  | .array items => items
  | .object members => members.map Prod.snd
  | j => [j]

/-- `json::size()`: 0 for `null`, the number of elements of an array or of
members of an object, 1 for any other value. -/
def Json.size : Json → Nat
  | .null => 0
  | .array items => items.length
  | .object members => members.length
  | _ => 1

/-- `json::operator[](index) const`: the element of an array (the handler only
asks for an index below `size()`); on any other value the library throws
`type_error.305`. -/
def Json.atIndex (j : Json) (index : Nat) : Except String Json :=
  match j with
  | .array items => .ok (items.getD index .null)
  | _ => .error ("[json.exception.type_error.305] cannot use operator[] with a numeric argument with "
      ++ j.typeName)

/-- The implicit conversion of a JSON value to an arithmetic type: the value of
a number, 0 or 1 for a boolean; on any other value the library throws
`type_error.302`. -/
def Json.toNumber (j : Json) : Except String Int :=
  match j with
  | .number value => .ok value
  | .boolean value => .ok (if value then 1 else 0)
  | _ => .error ("[json.exception.type_error.302] type must be number, but is " ++ j.typeName)

/-- Conversion of a whole number to the signed type `Price` of `priceBits` bits
(two's complement wrap-around). -/
def toPrice (priceBits : Nat) (n : Int) : Int :=
  (n + 2 ^ (priceBits - 1)) % 2 ^ priceBits - 2 ^ (priceBits - 1)

/-- Conversion of a whole number to the unsigned type `Quantity` of
`quantityBits` bits (reduction modulo 2 to the width). -/
def toQuantity (quantityBits : Nat) (n : Int) : Nat :=
  (n % 2 ^ quantityBits).toNat

/-- The loop over the `yes` array in `parseAndAddOrders`.  The result is the
book and the id counter reached, and the message of the exception thrown by the
JSON library, if one was thrown; the orders added before it stay added.  A fault
of `AddOrder` ends the run, as everywhere in this model. -/
def addYesLevels (priceBits quantityBits : Nat) :
    List Json → Orderbook → Nat → Except Fault (Orderbook × Nat × Option String)
  | [], orderbook, currentOrderId => .ok (orderbook, currentOrderId, none)
  | level :: rest, orderbook, currentOrderId =>
    if level.size ≥ 2 then
      match (level.atIndex 0).bind Json.toNumber with
      | .error what => .ok (orderbook, currentOrderId, some what)
      | .ok number0 =>
        match (level.atIndex 1).bind Json.toNumber with
        | .error what => .ok (orderbook, currentOrderId, some what)
        | .ok number1 =>
          let price := toPrice priceBits number0
          let quantity := toQuantity quantityBits number1
          match AddOrder orderbook
              (Order.new .GoodTillCancel currentOrderId .Buy price quantity) with
          | .error e => .error e
          | .ok (_, orderbook1) =>
            addYesLevels priceBits quantityBits rest orderbook1 (currentOrderId + 1)
    else addYesLevels priceBits quantityBits rest orderbook currentOrderId

/-- The loop over the `no` array in `parseAndAddOrders`: as `addYesLevels`, with
sell orders at `100 - noPrice` (computed in `Price`; where the difference leaves
the range of `Price` C++ leaves the behaviour undefined and the model wraps). -/
def addNoLevels (priceBits quantityBits : Nat) :
    List Json → Orderbook → Nat → Except Fault (Orderbook × Nat × Option String)
  | [], orderbook, currentOrderId => .ok (orderbook, currentOrderId, none)
  | level :: rest, orderbook, currentOrderId =>
    if level.size ≥ 2 then
      match (level.atIndex 0).bind Json.toNumber with
      | .error what => .ok (orderbook, currentOrderId, some what)
      | .ok number0 =>
        match (level.atIndex 1).bind Json.toNumber with
        | .error what => .ok (orderbook, currentOrderId, some what)
        | .ok number1 =>
          let noPrice := toPrice priceBits number0
          let quantity := toQuantity quantityBits number1
          let yesPrice := toPrice priceBits (100 - noPrice)
          match AddOrder orderbook
              (Order.new .GoodTillCancel currentOrderId .Sell yesPrice quantity) with
          | .error e => .error e
          | .ok (_, orderbook1) =>
            addNoLevels priceBits quantityBits rest orderbook1 (currentOrderId + 1)
    else addNoLevels priceBits quantityBits rest orderbook currentOrderId

/-- What a call of `parseAndAddOrders` leaves behind: the value returned, the
diagnostic `lastError_`, the book and the id counter. -/
structure ParseOutcome where
  returned : Bool
  lastError_ : String
  orderbook : Orderbook
  currentOrderId : Nat

/-- `MarketDataFeedHandler::parseAndAddOrders`. -/
def parseAndAddOrders (priceBits quantityBits : Nat) (orderbookData : Json)
    (orderbook : Orderbook) (currentOrderId : Nat) : Except Fault ParseOutcome :=
  let yes := if orderbookData.contains "yes" then (orderbookData.atKey "yes").elements else []
  match addYesLevels priceBits quantityBits yes orderbook currentOrderId with
  | .error e => .error e
  | .ok (orderbook1, id1, some what) =>
    .ok ⟨false, "Error parsing orderbook data: " ++ what, orderbook1, id1⟩
  | .ok (orderbook1, id1, none) =>
    let no := if orderbookData.contains "no" then (orderbookData.atKey "no").elements else []
    match addNoLevels priceBits quantityBits no orderbook1 id1 with
    | .error e => .error e
    | .ok (orderbook2, id2, some what) =>
      .ok ⟨false, "Error parsing orderbook data: " ++ what, orderbook2, id2⟩
    | .ok (orderbook2, id2, none) => .ok ⟨true, "", orderbook2, id2⟩

/-- What a call of `populateOrderbook` leaves behind: the value returned, the
diagnostic `lastError_` (read by `getLastError`) and the book. -/
structure PopulateOutcome where
  returned : Bool
  lastError_ : String
  orderbook : Orderbook

/-- `MarketDataFeedHandler::populateOrderbook`, given the outcome of
`fetchOrderbookData`: the parsed body, or the message of the exception it
throws. -/
def populateOrderbook (priceBits quantityBits : Nat) (fetched : Except String Json)
    (orderbook : Orderbook) : Except Fault PopulateOutcome :=
  match fetched with
  | .error what => .ok ⟨false, what, orderbook⟩
  | .ok marketData =>
    if ¬ marketData.contains "orderbook" then
      .ok ⟨false, "Invalid response: missing orderbook data", orderbook⟩
    else
      match parseAndAddOrders priceBits quantityBits (marketData.atKey "orderbook")
          orderbook 1 with
      | .error e => .error e
      | .ok r => .ok ⟨r.returned, r.lastError_, r.orderbook⟩

/-- The JSON array `[price, quantity]` of one quoted level. -/
def quotedLevel (level : Int × Nat) : Json :=
  .array [.number level.1, .number level.2]

/-- The translation of the `yes` levels as the specification words it: one
GoodTillCancel buy order per level at the quoted price and quantity, with ids
increasing by one from `firstId`. -/
def specYesOrders (firstId : Nat) : List (Int × Nat) → List Order
  | [] => []
  | level :: rest =>
    Order.new .GoodTillCancel firstId .Buy level.1 level.2 :: specYesOrders (firstId + 1) rest

/-- The translation of the `no` levels as the specification words it: one
GoodTillCancel sell order per level at 100 minus the quoted price and the quoted
quantity, with ids increasing by one from `firstId`. -/
def specNoOrders (firstId : Nat) : List (Int × Nat) → List Order
  | [] => []
  | level :: rest =>
    Order.new .GoodTillCancel firstId .Sell (100 - level.1) level.2
      :: specNoOrders (firstId + 1) rest

/-- The orders the specification has the feed submit, in order: the `yes`
levels first, then the `no` levels, ids counting on. -/
def specFeedOrders (firstId : Nat) (yes no : List (Int × Nat)) : List Order :=
  specYesOrders firstId yes ++ specNoOrders (firstId + yes.length) no

/-- The whole number fits the signed type of the given width. -/
def FitsPrice (priceBits : Nat) (n : Int) : Prop :=
  -(2 ^ (priceBits - 1)) ≤ n ∧ n < 2 ^ (priceBits - 1)

/-- A response body with two `yes` levels (50 for 10, 40 for 5) and one `no`
level (45 for 7). -/
def exampleResponse : Json :=
  .object [("orderbook", .object
    [("yes", .array [quotedLevel (50, 10), quotedLevel (40, 5)]),
     ("no", .array [quotedLevel (45, 7)])])]

/-- A response body whose second `yes` level has a text where the price should
be. -/
def malformedResponse : Json :=
  .object [("orderbook", .object
    [("yes", .array [quotedLevel (50, 10), .array [.string "x", .number 5]]),
     ("no", .array [quotedLevel (45, 7)])])]

/-! ## The matching loops -/

theorem Order.Fill_min_left (bid ask : Order) :
    bid.Fill (min bid.remainingQuantity ask.remainingQuantity)
      = .ok (bid.reduce (min bid.remainingQuantity ask.remainingQuantity)) := by
  unfold Order.Fill Order.reduce
  rw [if_neg (by omega)]

theorem Order.Fill_min_right (bid ask : Order) :
    ask.Fill (min bid.remainingQuantity ask.remainingQuantity)
      = .ok (ask.reduce (min bid.remainingQuantity ask.remainingQuantity)) := by
  unfold Order.Fill Order.reduce
  rw [if_neg (by omega)]

@[simp] theorem Order.reduce_orderId (o : Order) (q : Nat) :
    (o.reduce q).orderId = o.orderId := rfl

@[simp] theorem Order.reduce_price (o : Order) (q : Nat) :
    (o.reduce q).price = o.price := rfl

@[simp] theorem Order.reduce_side (o : Order) (q : Nat) :
    (o.reduce q).side = o.side := rfl

@[simp] theorem Order.reduce_orderType (o : Order) (q : Nat) :
    (o.reduce q).orderType = o.orderType := rfl

@[simp] theorem Order.reduce_remaining (o : Order) (q : Nat) :
    (o.reduce q).remainingQuantity = o.remainingQuantity - q := rfl

/-- One iteration of the inner loop, with the fills resolved. -/
theorem matchLevel_succ (fuel : Nat) (bid ask : Order) (bids asks : OrderPointers)
    (orders : Registry) (trades : Trades) :
    matchLevel (fuel + 1) (bid :: bids) (ask :: asks) orders trades =
      (let q := min bid.remainingQuantity ask.remainingQuantity
       let bid1 := bid.reduce q
       let ask1 := ask.reduce q
       let orders1 := if bid1.IsFilled then orders.erase bid.orderId else orders
       matchLevel fuel (if bid1.IsFilled then bids else bid1 :: bids)
         (if ask1.IsFilled then asks else ask1 :: asks)
         (if ask1.IsFilled then orders1.erase ask.orderId else orders1)
         (trades ++ [tradeOf bid ask])) := by
  simp only [matchLevel, Order.Fill_min_left, Order.Fill_min_right, tradeOf,
    Order.reduce_orderId, Order.reduce_price]

/-- The inner loop returns, with one of the two queues exhausted, and its effect
on the book is a run of elementary effects on the two best levels. -/
theorem matchLevel_sound (bp ap : Int) (rb ra : Levels) (hcross : ap ≤ bp) :
    ∀ (fuel : Nat) (bids asks : OrderPointers) (orders : Registry) (trades : Trades),
      bids.length + asks.length ≤ fuel →
      ∃ r, matchLevel fuel bids asks orders trades = .ok r ∧
        (r.bids = [] ∨ r.asks = []) ∧
        Run (⟨(bp, bids) :: rb, (ap, asks) :: ra, orders⟩, trades)
          (⟨(bp, r.bids) :: rb, (ap, r.asks) :: ra, r.orders⟩, r.trades) := by
  intro fuel
  induction fuel with
  | zero =>
    intro bids asks orders trades hlen
    have hb : bids = [] := List.eq_nil_of_length_eq_zero (by omega)
    subst hb
    exact ⟨⟨[], asks, orders, trades⟩, by simp [matchLevel], Or.inl rfl,
      Relation.ReflTransGen.refl⟩
  | succ fuel ih =>
    intro bids asks orders trades hlen
    cases bids with
    | nil =>
      exact ⟨⟨[], asks, orders, trades⟩, by simp [matchLevel], Or.inl rfl,
        Relation.ReflTransGen.refl⟩
    | cons bid bids =>
      cases asks with
      | nil =>
        exact ⟨⟨bid :: bids, [], orders, trades⟩, by simp [matchLevel], Or.inr rfl,
          Relation.ReflTransGen.refl⟩
      | cons ask asks =>
        rw [matchLevel_succ]
        simp only [List.length_cons] at hlen
        have hstep := Micro.trade bp ap bid ask bids asks rb ra orders trades hcross
        generalize hq : min bid.remainingQuantity ask.remainingQuantity = q at hstep ⊢
        have hmin : bid.remainingQuantity - q = 0 ∨ ask.remainingQuantity - q = 0 := by
          omega
        by_cases hbf : bid.remainingQuantity - q = 0
        · by_cases haf : ask.remainingQuantity - q = 0
          · have h1 := Micro.popBid bp (bid.reduce q) bids rb
              ((ap, ask.reduce q :: asks) :: ra) orders (trades ++ [tradeOf bid ask]) hbf
            have h2 := Micro.popAsk ap (ask.reduce q) asks ((bp, bids) :: rb) ra
              (orders.erase bid.orderId) (trades ++ [tradeOf bid ask]) haf
            obtain ⟨r, hr, hex, hrun⟩ := ih bids asks
              ((orders.erase bid.orderId).erase ask.orderId) (trades ++ [tradeOf bid ask])
              (by omega)
            refine ⟨r, ?_, hex, ?_⟩
            · simpa [Order.IsFilled, hbf, haf] using hr
            · exact Relation.ReflTransGen.head hstep
                (Relation.ReflTransGen.head h1 (Relation.ReflTransGen.head h2 hrun))
          · have h1 := Micro.popBid bp (bid.reduce q) bids rb
              ((ap, ask.reduce q :: asks) :: ra) orders (trades ++ [tradeOf bid ask]) hbf
            obtain ⟨r, hr, hex, hrun⟩ := ih bids (ask.reduce q :: asks)
              (orders.erase bid.orderId) (trades ++ [tradeOf bid ask])
              (by simp only [List.length_cons]; omega)
            refine ⟨r, ?_, hex, ?_⟩
            · simpa [Order.IsFilled, hbf, haf] using hr
            · exact Relation.ReflTransGen.head hstep (Relation.ReflTransGen.head h1 hrun)
        · have haf : ask.remainingQuantity - q = 0 := by omega
          have h2 := Micro.popAsk ap (ask.reduce q) asks ((bp, bid.reduce q :: bids) :: rb) ra
            orders (trades ++ [tradeOf bid ask]) haf
          obtain ⟨r, hr, hex, hrun⟩ := ih (bid.reduce q :: bids) asks
            (orders.erase ask.orderId) (trades ++ [tradeOf bid ask])
            (by simp only [List.length_cons]; omega)
          refine ⟨r, ?_, hex, ?_⟩
          · simpa [Order.IsFilled, hbf, haf] using hr
          · exact Relation.ReflTransGen.head hstep (Relation.ReflTransGen.head h2 hrun)

theorem eraseLevel_head (p : Int) (q : OrderPointers) (rest : Levels)
    (h : p ∉ levelKeys rest) : eraseLevel p ((p, q) :: rest) = rest := by
  unfold eraseLevel
  rw [List.filter_cons_of_neg (by simp)]
  rw [List.filter_eq_self]
  intro l hl
  have : l.1 ≠ p := fun e => h (e ▸ List.mem_map_of_mem Prod.fst hl)
  simpa using this

/-- The outer loop returns; its effect is a run of elementary effects that ends
in a book without cross, and it leaves no empty level behind. -/
theorem matchLoop_sound :
    ∀ (fuel : Nat) (b : Orderbook) (trades : Trades), KeysNodup b →
      b.bids_.length + b.asks_.length ≤ fuel →
      ∃ ts b1, matchLoop fuel b trades = .ok (ts, b1) ∧ Run (b, trades) (b1, ts) ∧
        NoCross b1 ∧ (NoEmptyLevel b → NoEmptyLevel b1) := by
  intro fuel
  induction fuel with
  | zero =>
    intro b trades _ hlen
    have hb : b.bids_ = [] := List.eq_nil_of_length_eq_zero (by omega)
    refine ⟨trades, b, ?_, Relation.ReflTransGen.refl, ?_, id⟩
    · unfold matchLoop; simp [hb]
    · simp [NoCross, hb]
  | succ fuel ih =>
    intro b trades hkeys hlen
    obtain ⟨bids_, asks_, orders_⟩ := b
    cases bids_ with
    | nil =>
      refine ⟨trades, _, ?_, Relation.ReflTransGen.refl, ?_, id⟩
      · unfold matchLoop; simp
      · simp [NoCross]
    | cons bl rb =>
      cases asks_ with
      | nil =>
        refine ⟨trades, _, ?_, Relation.ReflTransGen.refl, ?_, id⟩
        · unfold matchLoop; simp
        · simp [NoCross]
      | cons al ra =>
        obtain ⟨bp, bids⟩ := bl
        obtain ⟨ap, asks⟩ := al
        by_cases hlt : bp < ap
        · refine ⟨trades, _, ?_, Relation.ReflTransGen.refl, ?_, id⟩
          · unfold matchLoop; simp [hlt]
          · simpa [NoCross] using hlt
        · obtain ⟨r, hr, hex, hrun⟩ := matchLevel_sound bp ap rb ra (by omega)
            (bids.length + asks.length) bids asks orders_ trades le_rfl
          have hkb : bp ∉ levelKeys rb := (List.nodup_cons.mp hkeys.1).1
          have hka : ap ∉ levelKeys ra := (List.nodup_cons.mp hkeys.2).1
          have hnb : (levelKeys rb).Nodup := (List.nodup_cons.mp hkeys.1).2
          have hna : (levelKeys ra).Nodup := (List.nodup_cons.mp hkeys.2).2
          simp only [List.length_cons] at hlen
          have hunf : matchLoop (fuel + 1) ⟨(bp, bids) :: rb, (ap, asks) :: ra, orders_⟩ trades
              = matchLoop fuel
                  ⟨if r.bids.isEmpty then rb else (bp, r.bids) :: rb,
                   if r.asks.isEmpty then ra else (ap, r.asks) :: ra, r.orders⟩ r.trades := by
            rw [matchLoop]
            simp only [hlt, if_false, hr, eraseLevel_head _ _ _ hkb, eraseLevel_head _ _ _ hka]
          rw [hunf]
          by_cases hbe : r.bids = []
          · by_cases hae : r.asks = []
            · obtain ⟨ts, b1, h1, h2, h3, h4⟩ := ih ⟨rb, ra, r.orders⟩ r.trades ⟨hnb, hna⟩
                (by simp only; omega)
              refine ⟨ts, b1, by simpa [hbe, hae] using h1, ?_, h3, ?_⟩
              · refine hrun.trans ?_
                rw [hbe, hae]
                exact Relation.ReflTransGen.head (Micro.dropBid bp rb _ r.orders r.trades)
                  (Relation.ReflTransGen.head (Micro.dropAsk ap rb ra r.orders r.trades) h2)
              · intro hne
                exact h4 ⟨fun l hl => hne.1 l (List.mem_cons_of_mem _ hl),
                  fun l hl => hne.2 l (List.mem_cons_of_mem _ hl)⟩
            · obtain ⟨ts, b1, h1, h2, h3, h4⟩ := ih ⟨rb, (ap, r.asks) :: ra, r.orders⟩ r.trades
                ⟨hnb, hkeys.2⟩ (by simp only [List.length_cons]; omega)
              refine ⟨ts, b1, by simpa [hbe, hae] using h1, ?_, h3, ?_⟩
              · refine hrun.trans ?_
                rw [hbe]
                exact Relation.ReflTransGen.head (Micro.dropBid bp rb _ r.orders r.trades) h2
              · intro hne
                refine h4 ⟨fun l hl => hne.1 l (List.mem_cons_of_mem _ hl), fun l hl => ?_⟩
                rcases List.mem_cons.mp hl with rfl | hl
                · exact hae
                · exact hne.2 l (List.mem_cons_of_mem _ hl)
          · have hae : r.asks = [] := hex.resolve_left hbe
            obtain ⟨ts, b1, h1, h2, h3, h4⟩ := ih ⟨(bp, r.bids) :: rb, ra, r.orders⟩ r.trades
              ⟨hkeys.1, hna⟩ (by simp only [List.length_cons]; omega)
            refine ⟨ts, b1, by simpa [hbe, hae] using h1, ?_, h3, ?_⟩
            · refine hrun.trans ?_
              rw [hae]
              exact Relation.ReflTransGen.head (Micro.dropAsk ap _ ra r.orders r.trades) h2
            · intro hne
              refine h4 ⟨fun l hl => ?_, fun l hl => hne.2 l (List.mem_cons_of_mem _ hl)⟩
              rcases List.mem_cons.mp hl with rfl | hl
              · exact hbe
              · exact hne.1 l (List.mem_cons_of_mem _ hl)

theorem length_eraseLevel_head (p : Int) (q : OrderPointers) (rest : Levels) :
    (eraseLevel p ((p, q) :: rest)).length ≤ rest.length := by
  unfold eraseLevel
  rw [List.filter_cons_of_neg (by simp)]
  exact List.length_filter_le _ _

/-- The step budget that `MatchOrders` passes to the outer loop suffices on
every book, consistent or not: the loop never reports `Fault.fuel`, and it has
no other way to fail. -/
theorem matchLoop_total :
    ∀ (fuel : Nat) (b : Orderbook) (trades : Trades),
      b.bids_.length + b.asks_.length ≤ fuel → ∃ r, matchLoop fuel b trades = .ok r := by
  intro fuel
  induction fuel with
  | zero =>
    intro b trades hlen
    have hb : b.bids_ = [] := List.eq_nil_of_length_eq_zero (by omega)
    exact ⟨(trades, b), by unfold matchLoop; simp [hb]⟩
  | succ fuel ih =>
    intro b trades hlen
    obtain ⟨bids_, asks_, orders_⟩ := b
    cases bids_ with
    | nil => exact ⟨(trades, ⟨[], asks_, orders_⟩), by unfold matchLoop; simp⟩
    | cons bl rb =>
      cases asks_ with
      | nil => exact ⟨(trades, ⟨bl :: rb, [], orders_⟩), by unfold matchLoop; simp⟩
      | cons al ra =>
        obtain ⟨bp, bids⟩ := bl
        obtain ⟨ap, asks⟩ := al
        by_cases hlt : bp < ap
        · exact ⟨(trades, ⟨(bp, bids) :: rb, (ap, asks) :: ra, orders_⟩), by
            unfold matchLoop; simp [hlt]⟩
        · obtain ⟨r, hr, hex, _⟩ := matchLevel_sound bp ap rb ra (by omega)
            (bids.length + asks.length) bids asks orders_ trades le_rfl
          simp only [List.length_cons] at hlen
          rw [matchLoop]
          simp only [hlt, if_false, hr]
          apply ih
          have h1 := length_eraseLevel_head bp r.bids rb
          have h2 := length_eraseLevel_head ap r.asks ra
          have h3 : (if r.bids.isEmpty = true then eraseLevel bp ((bp, r.bids) :: rb)
              else (bp, r.bids) :: rb).length ≤ rb.length + 1 := by
            split
            · omega
            · simp
          have h4 : (if r.asks.isEmpty = true then eraseLevel ap ((ap, r.asks) :: ra)
              else (ap, r.asks) :: ra).length ≤ ra.length + 1 := by
            split
            · omega
            · simp
          rcases hex with he | he
          · have h5 : (if r.bids.isEmpty = true then eraseLevel bp ((bp, r.bids) :: rb)
                else (bp, r.bids) :: rb).length ≤ rb.length := by
              rw [if_pos (by simp [he])]; exact h1
            dsimp only
            omega
          · have h5 : (if r.asks.isEmpty = true then eraseLevel ap ((ap, r.asks) :: ra)
                else (ap, r.asks) :: ra).length ≤ ra.length := by
              rw [if_pos (by simp [he])]; exact h2
            dsimp only
            omega

theorem Micro.flat {s s1 : Orderbook × Trades} (h : Micro s s1) : FlatStep (view s) (view s1) := by
  cases h with
  | trade bp ap bid ask bq aq rb ra orders ts hcross =>
    simpa [view, queued] using FlatStep.trade bid ask (bq ++ queued rb) (aq ++ queued ra) orders ts
  | popBid bp bid bq rb asks orders ts hfilled =>
    simpa [view, queued] using FlatStep.popBid bid (bq ++ queued rb) (queued asks) orders ts hfilled
  | popAsk ap ask aq bids ra orders ts hfilled =>
    simpa [view, queued] using FlatStep.popAsk ask (queued bids) (aq ++ queued ra) orders ts hfilled
  | dropBid bp rb asks orders ts =>
    simpa [view, queued] using FlatStep.stay _
  | dropAsk ap bids ra orders ts =>
    simpa [view, queued] using FlatStep.stay _

@[simp] theorem entryOf_reduce (o : Order) (q : Nat) : entryOf (o.reduce q) = entryOf o := rfl

theorem Registry.mem_erase (orders : Registry) (x id : Nat) (e : OrderEntry) :
    (id, e) ∈ orders.erase x ↔ (id, e) ∈ orders ∧ id ≠ x := by
  simp [Registry.erase]

theorem Registry.erase_keys_nodup (orders : Registry) (x : Nat)
    (h : (orders.map Prod.fst).Nodup) : ((orders.erase x).map Prod.fst).Nodup :=
  h.sublist ((List.filter_sublist _).map _)

/-- Removing one resting order together with its registry entry keeps the
registry in step with the queues. -/
theorem RegistryOK.remove (l1 l2 : List Order) (x : Order) (orders : Registry)
    (h : RegistryOK (l1 ++ x :: l2) orders) :
    RegistryOK (l1 ++ l2) (orders.erase x.orderId) := by
  obtain ⟨hid, hkey, hiff⟩ := h
  have hsub : (l1 ++ l2).Sublist (l1 ++ x :: l2) :=
    List.Sublist.append_left (List.sublist_cons_self x l2) l1
  have hx : ∀ o ∈ l1 ++ l2, o.orderId ≠ x.orderId := by
    intro o ho heq
    rw [List.map_append, List.map_cons] at hid
    have := List.nodup_middle.mp hid
    rw [← List.map_append] at this
    exact (List.nodup_cons.mp this).1 (heq ▸ List.mem_map_of_mem _ ho)
  refine ⟨hid.sublist (hsub.map _), Registry.erase_keys_nodup _ _ hkey, ?_⟩
  intro id e
  rw [Registry.mem_erase, hiff]
  constructor
  · rintro ⟨⟨o, ho, hoid, hoe⟩, hne⟩
    refine ⟨o, ?_, hoid, hoe⟩
    rcases List.mem_append.mp ho with h1 | h1
    · exact List.mem_append_left _ h1
    · rcases List.mem_cons.mp h1 with rfl | h1
      · exact absurd hoid.symm hne
      · exact List.mem_append_right _ h1
  · rintro ⟨o, ho, hoid, hoe⟩
    exact ⟨⟨o, hsub.subset ho, hoid, hoe⟩, hoid ▸ hx o ho⟩

/-- Reducing the remaining quantity of resting orders does not affect the
registry. -/
theorem RegistryOK.congr (l l1 : List Order) (orders : Registry)
    (h : RegistryOK l orders)
    (hmap : l1.map (fun o => (o.orderId, entryOf o)) = l.map (fun o => (o.orderId, entryOf o))) :
    RegistryOK l1 orders := by
  obtain ⟨hid, hkey, hiff⟩ := h
  have hids : l1.map (fun o => o.orderId) = l.map (fun o => o.orderId) := by
    have := congrArg (List.map Prod.fst) hmap
    simpa [List.map_map, Function.comp_def] using this
  refine ⟨hids ▸ hid, hkey, ?_⟩
  intro id e
  rw [hiff]
  have hmem : ∀ l : List Order, (∃ o ∈ l, o.orderId = id ∧ entryOf o = e) ↔
      (id, e) ∈ l.map (fun o => (o.orderId, entryOf o)) := by
    intro l; simp
  rw [hmem, hmem, hmap]

theorem FlatStep.registryOK {v v1 : View} (h : FlatStep v v1)
    (hv : RegistryOK (v.bidQ ++ v.askQ) v.orders) :
    RegistryOK (v1.bidQ ++ v1.askQ) v1.orders := by
  cases h with
  | trade bid ask bt at_ orders ts =>
    exact RegistryOK.congr _ _ _ hv (by simp)
  | popBid bid bt asks orders ts hfilled =>
    exact RegistryOK.remove [] _ bid orders hv
  | popAsk ask bids at_ orders ts hfilled =>
    simpa using RegistryOK.remove bids at_ ask orders hv
  | stay v => exact hv

theorem Micro.sorted {s s1 : Orderbook × Trades} (h : Micro s s1) (hs : Sorted s.1) :
    Sorted s1.1 := by
  cases h with
  | trade bp ap bid ask bq aq rb ra orders ts hcross => exact hs
  | popBid bp bid bq rb asks orders ts hfilled => exact hs
  | popAsk ap ask aq bids ra orders ts hfilled => exact hs
  | dropBid bp rb asks orders ts => exact ⟨(List.pairwise_cons.mp hs.1).2, hs.2⟩
  | dropAsk ap bids ra orders ts => exact ⟨hs.1, (List.pairwise_cons.mp hs.2).2⟩

theorem Micro.tagged {s s1 : Orderbook × Trades} (h : Micro s s1) (hs : Tagged s.1) :
    Tagged s1.1 := by
  cases h with
  | trade bp ap bid ask bq aq rb ra orders ts hcross =>
    refine ⟨fun l hl o ho => ?_, fun l hl o ho => ?_⟩
    · rcases List.mem_cons.mp hl with rfl | hl
      · rcases List.mem_cons.mp ho with rfl | ho
        · exact hs.1 (bp, bid :: bq) (List.mem_cons_self _ _) bid (List.mem_cons_self _ _)
        · exact hs.1 (bp, bid :: bq) (List.mem_cons_self _ _) o (List.mem_cons_of_mem _ ho)
      · exact hs.1 l (List.mem_cons_of_mem _ hl) o ho
    · rcases List.mem_cons.mp hl with rfl | hl
      · rcases List.mem_cons.mp ho with rfl | ho
        · exact hs.2 (ap, ask :: aq) (List.mem_cons_self _ _) ask (List.mem_cons_self _ _)
        · exact hs.2 (ap, ask :: aq) (List.mem_cons_self _ _) o (List.mem_cons_of_mem _ ho)
      · exact hs.2 l (List.mem_cons_of_mem _ hl) o ho
  | popBid bp bid bq rb asks orders ts hfilled =>
    refine ⟨fun l hl o ho => ?_, hs.2⟩
    rcases List.mem_cons.mp hl with rfl | hl
    · exact hs.1 (bp, bid :: bq) (List.mem_cons_self _ _) o (List.mem_cons_of_mem _ ho)
    · exact hs.1 l (List.mem_cons_of_mem _ hl) o ho
  | popAsk ap ask aq bids ra orders ts hfilled =>
    refine ⟨hs.1, fun l hl o ho => ?_⟩
    rcases List.mem_cons.mp hl with rfl | hl
    · exact hs.2 (ap, ask :: aq) (List.mem_cons_self _ _) o (List.mem_cons_of_mem _ ho)
    · exact hs.2 l (List.mem_cons_of_mem _ hl) o ho
  | dropBid bp rb asks orders ts =>
    exact ⟨fun l hl => hs.1 l (List.mem_cons_of_mem _ hl), hs.2⟩
  | dropAsk ap bids ra orders ts =>
    exact ⟨hs.1, fun l hl => hs.2 l (List.mem_cons_of_mem _ hl)⟩

theorem Micro.keeps_consistent {s s1 : Orderbook × Trades} (h : Micro s s1) (hs : Consistent s.1) :
    Consistent s1.1 :=
  ⟨h.sorted hs.1, h.tagged hs.2.1, h.flat.registryOK hs.2.2⟩

/-- A property kept by every elementary effect is kept by every run. -/
theorem Run.preserves {P : Orderbook × Trades → Prop}
    (hstep : ∀ s s1, Micro s s1 → P s → P s1) {s s1 : Orderbook × Trades}
    (h : Run s s1) (hs : P s) : P s1 := by
  induction h with
  | refl => exact hs
  | tail _ hlast ih => exact hstep _ _ hlast ih

theorem Run.consistent {s s1 : Orderbook × Trades} (h : Run s s1) (hs : Consistent s.1) :
    Consistent s1.1 :=
  Run.preserves (P := fun s => Consistent s.1) (fun _ _ hm hc => hm.keeps_consistent hc) h hs

theorem Sorted.keysNodup {b : Orderbook} (h : Sorted b) : KeysNodup b :=
  ⟨h.1.imp (fun hab => ne_of_gt hab), h.2.imp (fun hab => ne_of_lt hab)⟩

/-! ## Cancellation -/

@[simp] theorem queued_nil : queued [] = [] := rfl

@[simp] theorem queued_cons (l : Int × OrderPointers) (rest : Levels) :
    queued (l :: rest) = l.2 ++ queued rest := rfl

theorem mem_queued {o : Order} {levels : Levels} :
    o ∈ queued levels ↔ ∃ l ∈ levels, o ∈ l.2 := by
  induction levels with
  | nil => simp
  | cons l rest ih => simp [ih]

theorem eraseP_eq_filter_of_nodup (id : Nat) (q : List Order)
    (h : (q.map (fun o => o.orderId)).Nodup) :
    q.eraseP (fun o => o.orderId == id) = q.filter (fun o => o.orderId != id) := by
  induction q with
  | nil => rfl
  | cons x q ih =>
    rw [List.map_cons, List.nodup_cons] at h
    by_cases hx : x.orderId = id
    · have hq : ∀ o ∈ q, o.orderId ≠ id := fun o ho he =>
        h.1 (hx ▸ he ▸ List.mem_map_of_mem (fun o => o.orderId) ho)
      rw [List.eraseP_cons, List.filter_cons_of_neg (by simp [hx])]
      simp only [hx, beq_self_eq_true, cond_true]
      exact (List.filter_eq_self.mpr (fun o ho => by simpa using hq o ho)).symm
    · rw [List.eraseP_cons, List.filter_cons_of_pos (by simp [hx]), ih h.2]
      have hb : (x.orderId == id) = false := by simpa using hx
      rw [hb, cond_false]

theorem removeId_eq_self (id : Nat) (levels : Levels) (hne : ∀ l ∈ levels, l.2 ≠ [])
    (hid : ∀ o ∈ queued levels, o.orderId ≠ id) : removeId id levels = levels := by
  induction levels with
  | nil => rfl
  | cons l rest ih =>
    have hl : l.2.filter (fun o => o.orderId != id) = l.2 :=
      List.filter_eq_self.mpr (fun o ho => by
        simpa using hid o (mem_queued.mpr ⟨l, List.mem_cons_self _ _, ho⟩))
    have hrest := ih (fun l1 h1 => hne l1 (List.mem_cons_of_mem _ h1))
      (fun o ho => hid o (by simp [ho]))
    unfold removeId at hrest ⊢
    rw [List.map_cons, hl, List.filter_cons_of_pos (by
      simpa using hne l (List.mem_cons_self _ _)), hrest]

theorem queued_removeId (id : Nat) (levels : Levels) :
    queued (removeId id levels) = (queued levels).filter (fun o => o.orderId != id) := by
  induction levels with
  | nil => rfl
  | cons l rest ih =>
    unfold removeId at ih ⊢
    rw [List.map_cons]
    by_cases he : l.2.filter (fun o => o.orderId != id) = []
    · rw [List.filter_cons_of_neg (by simp [he]), ih]
      simp [he]
    · rw [List.filter_cons_of_pos (by simpa using he)]
      simp [ih]

theorem levelKeys_removeId_sublist (id : Nat) (levels : Levels) :
    (levelKeys (removeId id levels)).Sublist (levelKeys levels) := by
  unfold removeId levelKeys
  have hk : (levels.map (fun l : Int × OrderPointers =>
      (l.1, l.2.filter (fun o : Order => o.orderId != id)))).map Prod.fst
      = levels.map Prod.fst := by
    rw [List.map_map]; rfl
  rw [← hk]
  exact (List.filter_sublist _).map Prod.fst

theorem mem_removeId {id : Nat} {levels : Levels} {l1 : Int × OrderPointers}
    (h : l1 ∈ removeId id levels) :
    l1.2 ≠ [] ∧ ∃ l ∈ levels, l1.1 = l.1 ∧ l1.2 = l.2.filter (fun o => o.orderId != id) := by
  unfold removeId at h
  rw [List.mem_filter, List.mem_map] at h
  obtain ⟨⟨l, hl, rfl⟩, hne⟩ := h
  exact ⟨by simpa using hne, l, hl, rfl, rfl⟩

theorem cancelInLevels_cons_ne (id : Nat) (p p0 : Int) (q0 : OrderPointers) (rest : Levels)
    (hp : p0 ≠ p) :
    cancelInLevels id p ((p0, q0) :: rest) =
      match cancelInLevels id p rest with
      | .ok r => .ok ((p0, q0) :: r)
      | .error e => .error e := by
  have hp1 : (p == p0) = false := by simpa using fun h => hp h.symm
  unfold cancelInLevels
  rw [List.lookup_cons, hp1]
  simp only
  cases hlk : List.lookup p rest with
  | none => rfl
  | some orders =>
    simp only
    by_cases hany : (orders.any fun o => o.orderId == id) = true
    · simp only [hany, if_true]
      by_cases hem : (orders.eraseP fun o => o.orderId == id).isEmpty = true
      · simp only [hem, if_true, eraseLevel]
        rw [List.filter_cons_of_pos (by simpa using hp)]
      · simp only [hem, setLevel, if_neg hp]
        simp
    · simp only [hany]
      simp

/-- On a side with distinct keys, no empty level and distinct order ids, the
removal performed by `CancelOrder` succeeds and takes out exactly the order of
the given id. -/
theorem cancelInLevels_eq_removeId (id : Nat) (p : Int) :
    ∀ (levels : Levels), (levelKeys levels).Nodup → (∀ l ∈ levels, l.2 ≠ []) →
      ((queued levels).map (fun o => o.orderId)).Nodup →
      (∃ q, (p, q) ∈ levels ∧ ∃ o ∈ q, o.orderId = id) →
      cancelInLevels id p levels = .ok (removeId id levels) := by
  intro levels
  induction levels with
  | nil => rintro _ _ _ ⟨q, hq, _⟩; cases hq
  | cons l rest ih =>
    intro hkeys hne hids hex
    obtain ⟨p0, q0⟩ := l
    rw [levelKeys, List.map_cons, List.nodup_cons] at hkeys
    rw [queued_cons, List.map_append, List.nodup_append] at hids
    by_cases hp : p0 = p
    · subst hp
      obtain ⟨q, hq, o, ho, hoid⟩ := hex
      have hq0 : q = q0 := by
        rcases List.mem_cons.mp hq with h | h
        · exact (Prod.mk.inj h).2
        · exact absurd (List.mem_map_of_mem Prod.fst h) hkeys.1
      subst hq0
      have hrest : ∀ o1 ∈ queued rest, o1.orderId ≠ id := by
        intro o1 ho1 he
        exact hids.2.2 (List.mem_map_of_mem (fun o => o.orderId) ho)
          (hoid ▸ he ▸ List.mem_map_of_mem (fun o => o.orderId) ho1)
      have hrid := removeId_eq_self id rest (fun l hl => hne l (List.mem_cons_of_mem _ hl)) hrest
      have hany : (q.any fun o => o.orderId == id) = true :=
        List.any_eq_true.mpr ⟨o, ho, by simpa using hoid⟩
      unfold cancelInLevels
      rw [List.lookup_cons]
      simp only [beq_self_eq_true, hany, if_true, eraseP_eq_filter_of_nodup id q hids.1]
      by_cases hem : q.filter (fun o => o.orderId != id) = []
      · rw [eraseLevel_head _ _ _ hkeys.1]
        unfold removeId at hrid ⊢
        rw [List.map_cons, List.filter_cons_of_neg (by simp [hem]), hrid]
        simp [hem]
      · unfold removeId at hrid ⊢
        rw [List.map_cons, List.filter_cons_of_pos (by simpa using hem), hrid]
        simp [hem, setLevel]
    · have hex1 : ∃ q, (p, q) ∈ rest ∧ ∃ o ∈ q, o.orderId = id := by
        obtain ⟨q, hq, hoq⟩ := hex
        rcases List.mem_cons.mp hq with h | h
        · exact absurd (Prod.mk.inj h).1.symm hp
        · exact ⟨q, h, hoq⟩
      have hq0 : ∀ o ∈ q0, o.orderId ≠ id := by
        obtain ⟨q, hq, o1, ho1, hoid⟩ := hex1
        intro o ho he
        exact hids.2.2 (List.mem_map_of_mem (fun o => o.orderId) ho)
          (he ▸ hoid ▸ List.mem_map_of_mem (fun o => o.orderId)
            (mem_queued.mpr ⟨(p, q), hq, ho1⟩))
      rw [cancelInLevels_cons_ne id p p0 q0 rest hp,
        ih hkeys.2 (fun l hl => hne l (List.mem_cons_of_mem _ hl)) hids.2.1 hex1]
      have hf : q0.filter (fun o => o.orderId != id) = q0 :=
        List.filter_eq_self.mpr (fun o ho => by simpa using hq0 o ho)
      simp only
      unfold removeId
      rw [List.map_cons, hf, List.filter_cons_of_pos (by
        simpa using hne (p0, q0) (List.mem_cons_self _ _))]

theorem mem_of_lookup_eq_some {orders : Registry} {id : Nat} {e : OrderEntry}
    (h : orders.lookup id = some e) : (id, e) ∈ orders := by
  obtain ⟨l1, l2, rfl, _⟩ := List.lookup_eq_some_iff.mp h
  simp

theorem Registry.erase_eq_self (orders : Registry) (id : Nat)
    (h : orders.lookup id = none) : orders.erase id = orders := by
  rw [List.lookup_eq_none_iff] at h
  unfold Registry.erase
  refine List.filter_eq_self.mpr (fun p hp => ?_)
  have := h p hp
  simp only [bne_iff_ne, ne_eq] at this ⊢
  exact fun e => this e.symm

theorem RegistryOK.not_resting {resting : List Order} {orders : Registry}
    (h : RegistryOK resting orders) {id : Nat} (hid : orders.lookup id = none) :
    ∀ o ∈ resting, o.orderId ≠ id := by
  intro o ho he
  have hmem : (id, entryOf o) ∈ orders := (h.2.2 id (entryOf o)).mpr ⟨o, ho, he, rfl⟩
  rw [List.lookup_eq_none_iff] at hid
  simpa using hid _ hmem

theorem RegistryOK.filter {resting : List Order} {orders : Registry}
    (h : RegistryOK resting orders) (id : Nat) :
    RegistryOK (resting.filter (fun o => o.orderId != id)) (orders.erase id) := by
  obtain ⟨hid, hkey, hiff⟩ := h
  refine ⟨hid.sublist ((List.filter_sublist _).map _), Registry.erase_keys_nodup _ _ hkey, ?_⟩
  intro x e
  rw [Registry.mem_erase, hiff]
  constructor
  · rintro ⟨⟨o, ho, hox, hoe⟩, hne⟩
    exact ⟨o, List.mem_filter.mpr ⟨ho, by simpa [hox] using hne⟩, hox, hoe⟩
  · rintro ⟨o, ho, hox, hoe⟩
    rw [List.mem_filter] at ho
    exact ⟨⟨o, ho.1, hox, hoe⟩, by simpa [hox] using ho.2⟩

theorem Orderbook.resting_without (b : Orderbook) (id : Nat) :
    (b.without id).resting = b.resting.filter (fun o => o.orderId != id) := by
  simp [Orderbook.without, Orderbook.resting, queued_removeId]

theorem Consistent.without_consistent {b : Orderbook} (h : Consistent b) (id : Nat) :
    Consistent (b.without id) := by
  obtain ⟨hs, ht, hr⟩ := h
  refine ⟨⟨hs.1.sublist (levelKeys_removeId_sublist id _),
    hs.2.sublist (levelKeys_removeId_sublist id _)⟩, ⟨?_, ?_⟩, ?_⟩
  · intro l1 hl1 o ho
    obtain ⟨_, l, hl, hk, hq⟩ := mem_removeId hl1
    rw [hq] at ho
    rw [hk]
    exact ht.1 l hl o (List.mem_filter.mp ho).1
  · intro l1 hl1 o ho
    obtain ⟨_, l, hl, hk, hq⟩ := mem_removeId hl1
    rw [hq] at ho
    rw [hk]
    exact ht.2 l hl o (List.mem_filter.mp ho).1
  · rw [Orderbook.resting_without]
    exact hr.filter id

theorem NoEmptyLevel.without_nonempty (b : Orderbook) (id : Nat) : NoEmptyLevel (b.without id) :=
  ⟨fun _ hl => (mem_removeId hl).1, fun _ hl => (mem_removeId hl).1⟩

theorem Uncrossed.without_uncrossed {b : Orderbook} (h : Uncrossed b) (id : Nat) :
    Uncrossed (b.without id) := by
  intro bl hbl al hal
  obtain ⟨_, l, hl, hk, _⟩ := mem_removeId hbl
  obtain ⟨_, l1, hl1, hk1, _⟩ := mem_removeId hal
  rw [hk, hk1]
  exact h l hl l1 hl1

theorem AllGTC.without_allGTC {b : Orderbook} (h : AllGTC b) (id : Nat) : AllGTC (b.without id) := by
  intro o ho
  rw [Orderbook.resting_without] at ho
  exact h o (List.mem_filter.mp ho).1

theorem Inv.without_inv {b : Orderbook} (h : Inv b) (id : Nat) : Inv (b.without id) :=
  ⟨h.1.without_consistent id, NoEmptyLevel.without_nonempty b id, h.2.2.1.without_uncrossed id,
    h.2.2.2.without_allGTC id⟩

/-- On a consistent book without empty level `CancelOrder` returns, and the
book it leaves is the given book without the order of that id. -/
theorem CancelOrder_eq {b : Orderbook} (hc : Consistent b) (hne : NoEmptyLevel b) (id : Nat) :
    CancelOrder b id = .ok (b.without id) := by
  obtain ⟨hs, ht, hr⟩ := hc
  have hids := hr.1
  rw [Orderbook.resting, List.map_append, List.nodup_append] at hids
  unfold CancelOrder
  cases hlk : b.orders_.lookup id with
  | none =>
    have hnot := hr.not_resting hlk
    simp only
    unfold Orderbook.without
    rw [removeId_eq_self id _ hne.1 (fun o ho => hnot o (List.mem_append_left _ ho)),
      removeId_eq_self id _ hne.2 (fun o ho => hnot o (List.mem_append_right _ ho)),
      Registry.erase_eq_self _ _ hlk]
  | some e =>
    obtain ⟨o, ho, hoid, hoe⟩ := (hr.2.2 id e).mp (mem_of_lookup_eq_some hlk)
    simp only
    rcases List.mem_append.mp ho with hob | hoa
    · obtain ⟨l, hl, hol⟩ := mem_queued.mp hob
      have htag := ht.1 l hl o hol
      have hside : e.side = Side.Buy := by rw [← hoe]; exact htag.1
      have hprice : e.price = l.1 := by rw [← hoe]; exact htag.2
      have hasks : ∀ o1 ∈ queued b.asks_, o1.orderId ≠ id := by
        intro o1 ho1 he
        exact hids.2.2 (List.mem_map_of_mem (fun o => o.orderId) hob)
          (hoid ▸ he ▸ List.mem_map_of_mem (fun o => o.orderId) ho1)
      rw [if_neg (by rw [hside]; decide), hprice,
        cancelInLevels_eq_removeId id l.1 b.bids_ hs.keysNodup.1 hne.1 hids.1
          ⟨l.2, hl, o, hol, hoid⟩]
      simp only [Orderbook.without]
      rw [removeId_eq_self id b.asks_ hne.2 hasks]
    · obtain ⟨l, hl, hol⟩ := mem_queued.mp hoa
      have htag := ht.2 l hl o hol
      have hside : e.side = Side.Sell := by rw [← hoe]; exact htag.1
      have hprice : e.price = l.1 := by rw [← hoe]; exact htag.2
      have hbids : ∀ o1 ∈ queued b.bids_, o1.orderId ≠ id := by
        intro o1 ho1 he
        exact hids.2.2 (List.mem_map_of_mem (fun o => o.orderId) ho1)
          (he ▸ hoid ▸ List.mem_map_of_mem (fun o => o.orderId) hoa)
      rw [if_pos hside, hprice,
        cancelInLevels_eq_removeId id l.1 b.asks_ hs.keysNodup.2 hne.2 hids.2.1
          ⟨l.2, hl, o, hol, hoid⟩]
      simp only [Orderbook.without]
      rw [removeId_eq_self id b.bids_ hne.1 hbids]

/-! ## Insertion -/

/-- Pushing an order places it somewhere in the priority order of its side and
leaves the relative order of the others as it was. -/
theorem queued_pushOrder (before : Int → Int → Bool) (o : Order) (levels : Levels) :
    ∃ l1 l2, queued levels = l1 ++ l2 ∧ queued (pushOrder before o levels) = l1 ++ o :: l2 := by
  induction levels with
  | nil => exact ⟨[], [], rfl, rfl⟩
  | cons l rest ih =>
    obtain ⟨p, q⟩ := l
    unfold pushOrder
    by_cases hp : p = o.price
    · exact ⟨q, queued rest, rfl, by simp [hp]⟩
    · by_cases hb : before o.price p = true
      · exact ⟨[], q ++ queued rest, rfl, by simp [hp, hb]⟩
      · obtain ⟨l1, l2, h1, h2⟩ := ih
        exact ⟨q ++ l1, l2, by simp [h1], by simp [hp, hb, h2]⟩

theorem mem_pushOrder {before : Int → Int → Bool} {o : Order} {levels : Levels}
    {l1 : Int × OrderPointers} (h : l1 ∈ pushOrder before o levels) :
    l1 ∈ levels ∨ l1 = (o.price, [o]) ∨ ∃ q, (o.price, q) ∈ levels ∧ l1 = (o.price, q ++ [o]) := by
  induction levels with
  | nil =>
    simp only [pushOrder, List.mem_singleton] at h
    exact Or.inr (Or.inl h)
  | cons l rest ih =>
    obtain ⟨p, q⟩ := l
    unfold pushOrder at h
    by_cases hp : p = o.price
    · rw [if_pos hp] at h
      rcases List.mem_cons.mp h with h | h
      · exact Or.inr (Or.inr ⟨q, by simp [hp], by rw [h, hp]⟩)
      · exact Or.inl (List.mem_cons_of_mem _ h)
    · rw [if_neg hp] at h
      by_cases hb : before o.price p = true
      · rw [if_pos hb] at h
        rcases List.mem_cons.mp h with h | h
        · exact Or.inr (Or.inl h)
        · exact Or.inl h
      · rw [if_neg hb] at h
        rcases List.mem_cons.mp h with h | h
        · exact Or.inl (h ▸ List.mem_cons_self _ _)
        · rcases ih h with h | h | ⟨q1, hq1, h⟩
          · exact Or.inl (List.mem_cons_of_mem _ h)
          · exact Or.inr (Or.inl h)
          · exact Or.inr (Or.inr ⟨q1, List.mem_cons_of_mem _ hq1, h⟩)

theorem mem_levelKeys_pushOrder {before : Int → Int → Bool} {o : Order} {levels : Levels}
    {k : Int} (h : k ∈ levelKeys (pushOrder before o levels)) :
    k = o.price ∨ k ∈ levelKeys levels := by
  obtain ⟨l1, hl1, rfl⟩ := List.mem_map.mp h
  rcases mem_pushOrder hl1 with h | h | ⟨q, _, h⟩
  · exact Or.inr (List.mem_map_of_mem _ h)
  · exact Or.inl (by rw [h])
  · exact Or.inl (by rw [h])

theorem pushOrder_sorted_bids (o : Order) (levels : Levels)
    (h : (levelKeys levels).Pairwise (fun a c => a > c)) :
    (levelKeys (pushOrder bidBefore o levels)).Pairwise (fun a c => a > c) := by
  induction levels with
  | nil => simp [pushOrder, levelKeys]
  | cons l rest ih =>
    obtain ⟨p, q⟩ := l
    have h1 := List.pairwise_cons.mp h
    unfold pushOrder
    by_cases hp : p = o.price
    · rw [if_pos hp]; exact h
    · rw [if_neg hp]
      by_cases hb : bidBefore o.price p = true
      · rw [if_pos hb]
        have hgt : o.price > p := by simpa [bidBefore] using hb
        refine List.pairwise_cons.mpr ⟨fun k hk => ?_, h⟩
        rcases List.mem_cons.mp hk with rfl | hk
        · exact hgt
        · exact lt_trans (h1.1 k hk) hgt
      · rw [if_neg hb]
        have hle : ¬ o.price > p := by simpa [bidBefore] using hb
        refine List.pairwise_cons.mpr ⟨fun k hk => ?_, ih h1.2⟩
        rcases mem_levelKeys_pushOrder hk with rfl | hk
        · exact lt_of_le_of_ne (not_lt.mp hle) (fun e => hp e.symm)
        · exact h1.1 k hk

theorem pushOrder_sorted_asks (o : Order) (levels : Levels)
    (h : (levelKeys levels).Pairwise (fun a c => a < c)) :
    (levelKeys (pushOrder askBefore o levels)).Pairwise (fun a c => a < c) := by
  induction levels with
  | nil => simp [pushOrder, levelKeys]
  | cons l rest ih =>
    obtain ⟨p, q⟩ := l
    have h1 := List.pairwise_cons.mp h
    unfold pushOrder
    by_cases hp : p = o.price
    · rw [if_pos hp]; exact h
    · rw [if_neg hp]
      by_cases hb : askBefore o.price p = true
      · rw [if_pos hb]
        have hgt : o.price < p := by simpa [askBefore] using hb
        refine List.pairwise_cons.mpr ⟨fun k hk => ?_, h⟩
        rcases List.mem_cons.mp hk with rfl | hk
        · exact hgt
        · exact lt_trans hgt (h1.1 k hk)
      · rw [if_neg hb]
        have hle : ¬ o.price < p := by simpa [askBefore] using hb
        refine List.pairwise_cons.mpr ⟨fun k hk => ?_, ih h1.2⟩
        rcases mem_levelKeys_pushOrder hk with rfl | hk
        · exact lt_of_le_of_ne (not_lt.mp hle) hp
        · exact h1.1 k hk

/-- An order priced better than every level of its side opens a new best level. -/
theorem pushOrder_best (before : Int → Int → Bool) (o : Order) (levels : Levels)
    (h : ∀ k ∈ levelKeys levels, k ≠ o.price ∧ before o.price k = true) :
    pushOrder before o levels = (o.price, [o]) :: levels := by
  cases levels with
  | nil => rfl
  | cons l rest =>
    obtain ⟨p, q⟩ := l
    have hp := h p (by simp [levelKeys])
    unfold pushOrder
    rw [if_neg hp.1, if_pos hp.2]

theorem RegistryOK.insert {l1 l2 : List Order} {orders : Registry} (o : Order)
    (h : RegistryOK (l1 ++ l2) orders) (hfresh : orders.lookup o.orderId = none) :
    RegistryOK (l1 ++ o :: l2) ((o.orderId, entryOf o) :: orders) := by
  have hnot := h.not_resting hfresh
  obtain ⟨hid, hkey, hiff⟩ := h
  refine ⟨?_, ?_, ?_⟩
  · rw [List.map_append, List.map_cons]
    refine List.nodup_middle.mpr (List.nodup_cons.mpr ⟨?_, by rwa [← List.map_append]⟩)
    rw [← List.map_append]
    intro hmem
    obtain ⟨o1, ho1, he⟩ := List.mem_map.mp hmem
    exact hnot o1 ho1 he
  · rw [List.map_cons]
    refine List.nodup_cons.mpr ⟨?_, hkey⟩
    intro hmem
    obtain ⟨p, hp, he⟩ := List.mem_map.mp hmem
    rw [List.lookup_eq_none_iff] at hfresh
    have := hfresh p hp
    simp only [bne_iff_ne, ne_eq] at this
    exact this he.symm
  · intro x e
    rw [List.mem_cons, hiff]
    constructor
    · rintro (h | ⟨o1, ho1, hx, he⟩)
      · obtain ⟨rfl, rfl⟩ := Prod.mk.inj h
        exact ⟨o, by simp, rfl, rfl⟩
      · refine ⟨o1, ?_, hx, he⟩
        rcases List.mem_append.mp ho1 with h | h
        · exact List.mem_append_left _ h
        · exact List.mem_append_right _ (List.mem_cons_of_mem _ h)
    · rintro ⟨o1, ho1, hx, he⟩
      rcases List.mem_append.mp ho1 with h | h
      · exact Or.inr ⟨o1, List.mem_append_left _ h, hx, he⟩
      · rcases List.mem_cons.mp h with rfl | h
        · exact Or.inl (by rw [← hx, ← he])
        · exact Or.inr ⟨o1, List.mem_append_right _ h, hx, he⟩

theorem pushOrder_tagged {before : Int → Int → Bool} {o : Order} {levels : Levels} {s : Side}
    (hs : o.side = s) (h : ∀ l ∈ levels, ∀ x ∈ l.2, x.side = s ∧ x.price = l.1) :
    ∀ l ∈ pushOrder before o levels, ∀ x ∈ l.2, x.side = s ∧ x.price = l.1 := by
  intro l hl x hx
  rcases mem_pushOrder hl with h1 | h1 | ⟨q, hq, h1⟩
  · exact h l h1 x hx
  · subst h1
    rw [List.mem_singleton.mp hx]
    exact ⟨hs, rfl⟩
  · subst h1
    rcases List.mem_append.mp hx with h2 | h2
    · exact h _ hq x h2
    · rw [List.mem_singleton.mp h2]
      exact ⟨hs, rfl⟩

theorem pushOrder_nonempty {before : Int → Int → Bool} {o : Order} {levels : Levels}
    (h : ∀ l ∈ levels, l.2 ≠ []) : ∀ l ∈ pushOrder before o levels, l.2 ≠ [] := by
  intro l hl
  rcases mem_pushOrder hl with h1 | h1 | ⟨q, _, h1⟩
  · exact h l h1
  · subst h1; simp
  · subst h1; simp

/-- Inserting an order with a fresh id keeps the book consistent and without
empty level. -/
theorem insertOrder_consistent {b : Orderbook} (hc : Consistent b) (hne : NoEmptyLevel b)
    (o : Order) (hfresh : b.orders_.lookup o.orderId = none) :
    Consistent (insertOrder b o) ∧ NoEmptyLevel (insertOrder b o) := by
  obtain ⟨hs, ht, hr⟩ := hc
  unfold insertOrder
  cases hside : o.side with
  | Buy =>
    simp only
    obtain ⟨l1, l2, h1, h2⟩ := queued_pushOrder bidBefore o b.bids_
    refine ⟨⟨⟨pushOrder_sorted_bids o _ hs.1, hs.2⟩,
      ⟨pushOrder_tagged hside ht.1, ht.2⟩, ?_⟩, ⟨pushOrder_nonempty hne.1, hne.2⟩⟩
    unfold Orderbook.resting at hr ⊢
    simp only
    rw [h2, List.append_assoc, List.cons_append]
    rw [h1, List.append_assoc] at hr
    have he : entryOf o = ⟨Side.Buy, o.price, o.orderType⟩ := by rw [entryOf, hside]
    rw [← he]
    exact hr.insert o hfresh
  | Sell =>
    simp only
    obtain ⟨l1, l2, h1, h2⟩ := queued_pushOrder askBefore o b.asks_
    refine ⟨⟨⟨hs.1, pushOrder_sorted_asks o _ hs.2⟩,
      ⟨ht.1, pushOrder_tagged hside ht.2⟩, ?_⟩, ⟨hne.1, pushOrder_nonempty hne.2⟩⟩
    unfold Orderbook.resting at hr ⊢
    simp only
    rw [h2, ← List.append_assoc]
    rw [h1, ← List.append_assoc] at hr
    have he : entryOf o = ⟨Side.Sell, o.price, o.orderType⟩ := by rw [entryOf, hside]
    rw [← he]
    exact hr.insert o hfresh

/-! ## `MatchOrders` and `AddOrder` on consistent books -/

theorem FrontOnly.filter_front {l : List Order} (h : FrontOnly l) (p : Order → Bool) :
    FrontOnly (l.filter p) := by
  intro o ho
  have hmem := List.mem_of_mem_tail ho
  cases l with
  | nil => simp at hmem
  | cons x t =>
    by_cases hx : p x = true
    · rw [List.filter_cons_of_pos hx] at ho
      exact h o (List.mem_filter.mp ho).1
    · rw [List.filter_cons_of_neg hx] at hmem
      exact h o (List.mem_filter.mp hmem).1

theorem FlatStep.frontOnly {v v1 : View} (h : FlatStep v v1)
    (hv : FrontOnly v.bidQ ∧ FrontOnly v.askQ) : FrontOnly v1.bidQ ∧ FrontOnly v1.askQ := by
  cases h with
  | trade bid ask bt at_ orders ts => exact hv
  | popBid bid bt asks orders ts hfilled =>
    exact ⟨fun o ho => hv.1 o (List.mem_of_mem_tail ho), hv.2⟩
  | popAsk ask bids at_ orders ts hfilled =>
    exact ⟨hv.1, fun o ho => hv.2 o (List.mem_of_mem_tail ho)⟩
  | stay v => exact hv

theorem Run.fakAtFront {s s1 : Orderbook × Trades} (h : Run s s1) (hs : FakAtFront s.1) :
    FakAtFront s1.1 :=
  Run.preserves (P := fun s => FakAtFront s.1) (fun _ _ hm hc => hm.flat.frontOnly hc) h hs

theorem Uncrossed.of_noCross {b : Orderbook} (hs : Sorted b) (h : NoCross b) : Uncrossed b := by
  intro bl hbl al hal
  obtain ⟨bids_, asks_, orders_⟩ := b
  cases bids_ with
  | nil => cases hbl
  | cons b0 rb =>
    cases asks_ with
    | nil => cases hal
    | cons a0 ra =>
      have h0 : b0.1 < a0.1 := h b0 (by simp) a0 (by simp)
      have hb : bl.1 ≤ b0.1 := by
        rcases List.mem_cons.mp hbl with rfl | hbl
        · exact le_rfl
        · exact le_of_lt ((List.pairwise_cons.mp hs.1).1 _ (List.mem_map_of_mem Prod.fst hbl))
      have ha : a0.1 ≤ al.1 := by
        rcases List.mem_cons.mp hal with rfl | hal
        · exact le_rfl
        · exact le_of_lt ((List.pairwise_cons.mp hs.2).1 _ (List.mem_map_of_mem Prod.fst hal))
      exact lt_of_le_of_lt hb (lt_of_lt_of_le h0 ha)

theorem head?_queued {levels : Levels} (hne : ∀ l ∈ levels, l.2 ≠ []) :
    (queued levels).head? = match levels with
      | [] => none
      | (_, []) :: _ => none
      | (_, o :: _) :: _ => some o := by
  cases levels with
  | nil => rfl
  | cons l rest =>
    obtain ⟨p, q⟩ := l
    cases q with
    | nil => exact absurd rfl (hne (p, []) (List.mem_cons_self _ _))
    | cons o q => rfl

/-- On a consistent book without empty level a sweep returns, with the effect
described by `sweep`. -/
theorem sweepFront_eq {b : Orderbook} (hc : Consistent b) (hne : NoEmptyLevel b)
    (levels : Levels) (hl : ∀ l ∈ levels, l.2 ≠ []) :
    sweepFront b levels = .ok (sweep b (queued levels)) := by
  unfold sweep
  rw [head?_queued hl]
  cases levels with
  | nil => rfl
  | cons l rest =>
    obtain ⟨p, q⟩ := l
    cases q with
    | nil => exact absurd rfl (hl (p, []) (List.mem_cons_self _ _))
    | cons o q =>
      unfold sweepFront
      by_cases ho : o.orderType = OrderType.FillAndKill
      · simp only [ho, if_true]
        exact CancelOrder_eq hc hne o.orderId
      · simp only [ho, if_false]

theorem sweep_cases (b : Orderbook) (side : List Order) :
    sweep b side = b ∨ ∃ id, sweep b side = b.without id := by
  unfold sweep
  cases side.head? with
  | none => exact Or.inl rfl
  | some o =>
    by_cases ho : o.orderType = OrderType.FillAndKill
    · exact Or.inr ⟨o.orderId, by simp [ho]⟩
    · exact Or.inl (by simp [ho])

theorem sweep_consistent {b : Orderbook} (hc : Consistent b) (hne : NoEmptyLevel b)
    (side : List Order) : Consistent (sweep b side) ∧ NoEmptyLevel (sweep b side) := by
  rcases sweep_cases b side with h | ⟨id, h⟩
  · rw [h]; exact ⟨hc, hne⟩
  · rw [h]; exact ⟨hc.without_consistent id, NoEmptyLevel.without_nonempty b id⟩

theorem sweep_uncrossed {b : Orderbook} (h : Uncrossed b) (side : List Order) :
    Uncrossed (sweep b side) := by
  rcases sweep_cases b side with h1 | ⟨id, h1⟩
  · rw [h1]; exact h
  · rw [h1]; exact h.without_uncrossed id

/-- After the sweep of a side whose orders, the first apart, are GoodTillCancel
orders, every order of that side is a GoodTillCancel order. -/
theorem sweep_allGTC (b : Orderbook) (side : List Order) (h : FrontOnly side) :
    ∀ o ∈ side.filter (fun o => decide (o ∈ (sweep b side).resting)),
      o.orderType = OrderType.GoodTillCancel := by
  intro o ho
  rw [List.mem_filter] at ho
  obtain ⟨hos, hor⟩ := ho
  have hor : o ∈ (sweep b side).resting := by simpa using hor
  cases side with
  | nil => cases hos
  | cons x t =>
    rcases List.mem_cons.mp hos with rfl | hot
    · by_cases hx : o.orderType = OrderType.FillAndKill
      · have hsw : sweep b (o :: t) = b.without o.orderId := by simp [sweep, hx]
        rw [hsw, Orderbook.resting_without, List.mem_filter] at hor
        simp at hor
      · cases hty : o.orderType with
        | GoodTillCancel => rfl
        | FillAndKill => exact absurd hty hx
    · exact h o hot

theorem resting_sweep_subset (b : Orderbook) (side : List Order) :
    (∀ o ∈ queued (sweep b side).bids_, o ∈ queued b.bids_) ∧
      (∀ o ∈ queued (sweep b side).asks_, o ∈ queued b.asks_) := by
  rcases sweep_cases b side with h | ⟨id, h⟩
  · rw [h]; exact ⟨fun _ h => h, fun _ h => h⟩
  · rw [h]
    simp only [Orderbook.without, queued_removeId]
    exact ⟨fun _ h => (List.mem_filter.mp h).1, fun _ h => (List.mem_filter.mp h).1⟩

theorem sweepBoth_allGTC {b : Orderbook} (h : FakAtFront b) : AllGTC (sweepBoth b) := by
  intro o ho
  unfold sweepBoth at ho
  unfold Orderbook.resting at ho
  rcases List.mem_append.mp ho with hb | ha
  · have hb2 := (resting_sweep_subset _ _).1 o hb
    have hb1 := (resting_sweep_subset _ _).1 o hb2
    refine sweep_allGTC b (queued b.bids_) h.1 o (List.mem_filter.mpr ⟨hb1, ?_⟩)
    simpa [Orderbook.resting] using Or.inl hb2
  · have ha2 := (resting_sweep_subset _ _).2 o ha
    have hfront : FrontOnly (queued (sweep b (queued b.bids_)).asks_) := by
      rcases sweep_cases b (queued b.bids_) with h1 | ⟨id, h1⟩
      · rw [h1]; exact h.2
      · rw [h1]
        simp only [Orderbook.without, queued_removeId]
        exact h.2.filter_front _
    refine sweep_allGTC (sweep b (queued b.bids_)) _ hfront o (List.mem_filter.mpr ⟨ha2, ?_⟩)
    simpa [Orderbook.resting] using Or.inr ha

theorem AllGTC.toFakAtFront {b : Orderbook} (h : AllGTC b) : FakAtFront b :=
  ⟨fun o ho => h o (List.mem_append_left _ (List.mem_of_mem_tail ho)),
   fun o ho => h o (List.mem_append_right _ (List.mem_of_mem_tail ho))⟩

theorem AddOrder_rejected {b : Orderbook} {o : Order} (h : ¬ Accepted b o) :
    AddOrder b o = .ok ([], b) := by
  unfold AddOrder Registry.contains
  unfold Accepted at h
  cases hlk : b.orders_.lookup o.orderId with
  | some e => simp
  | none =>
    rw [hlk] at h
    simp only [true_and, not_not] at h
    simp [h.1, h.2]

theorem AddOrder_accepted {b : Orderbook} {o : Order} (h : Accepted b o) :
    AddOrder b o = MatchOrders (insertOrder b o) := by
  unfold AddOrder Registry.contains
  obtain ⟨h1, h2⟩ := h
  rw [h1]
  simp only [Option.isSome_none, Bool.false_eq_true, if_false]
  rw [if_neg]
  intro hc
  exact h2 ⟨hc.1, by simpa using hc.2⟩

/-- An accepted order enters a book of the invariant so that only the front
order of a best level can be a FillAndKill order. -/
theorem insertOrder_fakAtFront {b : Orderbook} (hinv : Inv b) {o : Order} (h : Accepted b o) :
    FakAtFront (insertOrder b o) := by
  obtain ⟨hc, hne, hun, hg⟩ := hinv
  have hgb : ∀ x ∈ queued b.bids_, x.orderType = OrderType.GoodTillCancel :=
    fun x hx => hg x (List.mem_append_left _ hx)
  have hga : ∀ x ∈ queued b.asks_, x.orderType = OrderType.GoodTillCancel :=
    fun x hx => hg x (List.mem_append_right _ hx)
  cases hty : o.orderType with
  | GoodTillCancel =>
    apply AllGTC.toFakAtFront
    intro x hx
    unfold insertOrder Orderbook.resting at hx
    cases hside : o.side with
    | Buy =>
      rw [hside] at hx
      simp only at hx
      obtain ⟨l1, l2, h1, h2⟩ := queued_pushOrder bidBefore o b.bids_
      rw [h2] at hx
      rw [h1] at hgb
      simp only [List.mem_append, List.mem_cons] at hx hgb
      rcases hx with (hx | rfl | hx) | hx
      · exact hgb x (Or.inl hx)
      · exact hty
      · exact hgb x (Or.inr hx)
      · exact hga x hx
    | Sell =>
      rw [hside] at hx
      simp only at hx
      obtain ⟨l1, l2, h1, h2⟩ := queued_pushOrder askBefore o b.asks_
      rw [h2] at hx
      rw [h1] at hga
      simp only [List.mem_append, List.mem_cons] at hx hga
      rcases hx with hx | hx | rfl | hx
      · exact hgb x hx
      · exact hga x (Or.inl hx)
      · exact hty
      · exact hga x (Or.inr hx)
  | FillAndKill =>
    have hcan : CanMatch b o.side o.price = true := by
      by_contra hcm
      exact h.2 ⟨hty, by simpa using hcm⟩
    unfold insertOrder
    cases hside : o.side with
    | Buy =>
      rw [hside] at hcan
      unfold CanMatch at hcan
      simp only at hcan ⊢
      cases hasks : b.asks_ with
      | nil => rw [hasks] at hcan; simp at hcan
      | cons al ra =>
        rw [hasks] at hcan
        have hge : al.1 ≤ o.price := by simpa using hcan
        have hbest : pushOrder bidBefore o b.bids_ = (o.price, [o]) :: b.bids_ := by
          apply pushOrder_best
          intro k hk
          obtain ⟨l, hl, rfl⟩ := List.mem_map.mp hk
          have hlt := hun l hl al (by rw [hasks]; exact List.mem_cons_self _ _)
          refine ⟨by omega, ?_⟩
          simp only [bidBefore, gt_iff_lt, decide_eq_true_eq]
          omega
        refine ⟨?_, ?_⟩
        · simp only [hbest, queued_cons]
          exact fun x hx => hgb x hx
        · simp only
          rw [← hasks]
          exact fun x hx => hga x (List.mem_of_mem_tail hx)
    | Sell =>
      rw [hside] at hcan
      unfold CanMatch at hcan
      simp only at hcan ⊢
      cases hbids : b.bids_ with
      | nil => rw [hbids] at hcan; simp at hcan
      | cons bl rb =>
        rw [hbids] at hcan
        have hge : o.price ≤ bl.1 := by simpa using hcan
        have hbest : pushOrder askBefore o b.asks_ = (o.price, [o]) :: b.asks_ := by
          apply pushOrder_best
          intro k hk
          obtain ⟨l, hl, rfl⟩ := List.mem_map.mp hk
          have hlt := hun bl (by rw [hbids]; exact List.mem_cons_self _ _) l hl
          refine ⟨by omega, ?_⟩
          simp only [askBefore, decide_eq_true_eq]
          omega
        refine ⟨?_, ?_⟩
        · simp only
          rw [← hbids]
          exact fun x hx => hgb x (List.mem_of_mem_tail hx)
        · simp only [hbest, queued_cons]
          exact fun x hx => hga x hx

/-- `MatchOrders` on a consistent book without empty level in which only front
orders may be FillAndKill orders: the loops return after a run of elementary
effects that ends without cross, the sweeps return, and the book left satisfies
the invariant. -/
theorem MatchOrders_spec {b0 : Orderbook} (hc : Consistent b0) (hne : NoEmptyLevel b0)
    (hf : FakAtFront b0) :
    ∃ ts b1, Run (b0, []) (b1, ts) ∧ Consistent b1 ∧ NoEmptyLevel b1 ∧ FakAtFront b1 ∧
      NoCross b1 ∧ matchLoop (b0.bids_.length + b0.asks_.length) b0 [] = .ok (ts, b1) ∧
      MatchOrders b0 = .ok (ts, sweepBoth b1) ∧ Inv (sweepBoth b1) := by
  obtain ⟨ts, b1, hloop, hrun, hnc, hne1⟩ :=
    matchLoop_sound (b0.bids_.length + b0.asks_.length) b0 [] hc.1.keysNodup le_rfl
  have hc1 : Consistent b1 := hrun.consistent hc
  have hf1 : FakAtFront b1 := hrun.fakAtFront hf
  have hne1 := hne1 hne
  have hs1 := sweep_consistent hc1 hne1 (queued b1.bids_)
  have hs2 := sweep_consistent hs1.1 hs1.2 (queued (sweep b1 (queued b1.bids_)).asks_)
  refine ⟨ts, b1, hrun, hc1, hne1, hf1, hnc, hloop, ?_, ⟨hs2.1, hs2.2, ?_, sweepBoth_allGTC hf1⟩⟩
  · unfold MatchOrders
    rw [hloop]
    simp only
    rw [sweepFront_eq hc1 hne1 b1.bids_ hne1.1]
    simp only
    rw [sweepFront_eq hs1.1 hs1.2 _ hs1.2.2]
    rfl
  · exact sweep_uncrossed (sweep_uncrossed (Uncrossed.of_noCross hc1.1 hnc) _) _

/-- `AddOrder` returns on every book of the invariant and leaves a book of the
invariant. -/
theorem AddOrder_inv {b : Orderbook} (hinv : Inv b) (o : Order) :
    ∃ ts b1, AddOrder b o = .ok (ts, b1) ∧ Inv b1 := by
  by_cases hacc : Accepted b o
  · have hins := insertOrder_consistent hinv.1 hinv.2.1 o hacc.1
    obtain ⟨ts, b1, _, _, _, _, _, _, hm, hi⟩ :=
      MatchOrders_spec hins.1 hins.2 (insertOrder_fakAtFront hinv hacc)
    exact ⟨ts, _, by rw [AddOrder_accepted hacc, hm], hi⟩
  · exact ⟨[], b, AddOrder_rejected hacc, hinv⟩

theorem CancelOrder_inv {b : Orderbook} (hinv : Inv b) (id : Nat) :
    CancelOrder b id = .ok (b.without id) ∧ Inv (b.without id) :=
  ⟨CancelOrder_eq hinv.1 hinv.2.1 id, hinv.without_inv id⟩

theorem MatchOrder_inv {b : Orderbook} (hinv : Inv b) (m : OrderModify) :
    ∃ ts b1, MatchOrder b m = .ok (ts, b1) ∧ Inv b1 := by
  unfold MatchOrder
  cases hlk : b.orders_.lookup m.orderId with
  | none => exact ⟨[], b, rfl, hinv⟩
  | some e =>
    simp only [(CancelOrder_inv hinv m.orderId).1]
    exact AddOrder_inv (CancelOrder_inv hinv m.orderId).2 _

theorem Inv.empty : Inv Orderbook.empty := by
  refine ⟨⟨⟨List.Pairwise.nil, List.Pairwise.nil⟩, ⟨?_, ?_⟩, ⟨List.nodup_nil, List.nodup_nil, ?_⟩⟩,
    ⟨?_, ?_⟩, ?_, ?_⟩
  all_goals simp [Orderbook.empty, Orderbook.resting, Uncrossed, AllGTC]

/-- Every reachable book satisfies the invariant. -/
theorem Reachable.inv {b : Orderbook} (h : Reachable b) : Inv b := by
  induction h with
  | empty => exact Inv.empty
  | add o _ _ hadd ih =>
    obtain ⟨ts, b1, h1, h2⟩ := AddOrder_inv ih o
    rw [h1] at hadd
    cases hadd
    exact h2
  | cancel id _ hcancel ih =>
    rw [(CancelOrder_inv ih id).1] at hcancel
    cases hcancel
    exact (CancelOrder_inv ih id).2
  | modify m _ _ hmod ih =>
    obtain ⟨ts, b1, h1, h2⟩ := MatchOrder_inv ih m
    rw [h1] at hmod
    cases hmod
    exact h2

/-! ## The contracts -/

theorem exampleBook_reachable : Reachable exampleBook :=
  Reachable.add (Order.new .GoodTillCancel 3 .Sell 101 7) []
    (Reachable.add (Order.new .GoodTillCancel 2 .Buy 100 5) []
      (Reachable.add (Order.new .GoodTillCancel 1 .Buy 99 10) [] Reachable.empty rfl)
      rfl)
    rfl

/-- C1. No-cross invariant: in every book reachable from the empty book by
`AddOrder`, `CancelOrder` and `MatchOrder`, when both sides are non-empty the
first bid level is the highest bid, the first ask level is the lowest ask, and
the best bid price is strictly below the best ask price. -/
theorem no_cross_invariant (b : Orderbook) (hb : Reachable b) :
    ∀ bl ∈ b.bids_.head?, ∀ al ∈ b.asks_.head?,
      bl.1 < al.1 ∧ (∀ l ∈ b.bids_, l.1 ≤ bl.1) ∧ (∀ l ∈ b.asks_, al.1 ≤ l.1) := by
  obtain ⟨⟨hs, _, _⟩, _, hun, _⟩ := hb.inv
  intro bl hbl al hal
  obtain ⟨bids_, asks_, orders_⟩ := b
  cases bids_ with
  | nil => simp at hbl
  | cons b0 rb =>
    cases asks_ with
    | nil => simp at hal
    | cons a0 ra =>
      simp only [List.head?_cons, Option.mem_def, Option.some.injEq] at hbl hal
      subst hbl hal
      refine ⟨hun b0 (List.mem_cons_self _ _) a0 (List.mem_cons_self _ _), ?_, ?_⟩
      · intro l hl
        rcases List.mem_cons.mp hl with rfl | hl
        · exact le_rfl
        · exact le_of_lt ((List.pairwise_cons.mp hs.1).1 _ (List.mem_map_of_mem Prod.fst hl))
      · intro l hl
        rcases List.mem_cons.mp hl with rfl | hl
        · exact le_rfl
        · exact le_of_lt ((List.pairwise_cons.mp hs.2).1 _ (List.mem_map_of_mem Prod.fst hl))

theorem no_cross_invariant_witness :
    Reachable exampleBook ∧
      ∀ bl ∈ exampleBook.bids_.head?, ∀ al ∈ exampleBook.asks_.head?,
        bl.1 < al.1 ∧ (∀ l ∈ exampleBook.bids_, l.1 ≤ bl.1) ∧
          (∀ l ∈ exampleBook.asks_, al.1 ≤ l.1) :=
  ⟨exampleBook_reachable, no_cross_invariant exampleBook exampleBook_reachable⟩

theorem CanMatch_eq_false_iff (b : Orderbook) (side : Side) (price : Int) :
    CanMatch b side price = false ↔
      (side = Side.Buy ∧ ∀ l ∈ b.asks_.head?, price < l.1) ∨
      (side = Side.Sell ∧ ∀ l ∈ b.bids_.head?, l.1 < price) := by
  unfold CanMatch
  cases side with
  | Buy =>
    cases b.asks_ with
    | nil => simp
    | cons l rest => simp
  | Sell =>
    cases b.bids_ with
    | nil => simp
    | cons l rest => simp

/-- C5. FillAndKill rejection: on every book, `AddOrder` of a FillAndKill order
for which `CanMatch` is false (a buy when the ask side is empty or the price is
below the best ask, a sell when the bid side is empty or the price is above the
best bid) returns no trade and leaves the queues, the registry and `Size` as
they were. -/
theorem fill_and_kill_rejected (b : Orderbook) (o : Order)
    (hty : o.orderType = OrderType.FillAndKill)
    (hcan : CanMatch b o.side o.price = false) :
    ((o.side = Side.Buy ∧ ∀ l ∈ b.asks_.head?, o.price < l.1) ∨
      (o.side = Side.Sell ∧ ∀ l ∈ b.bids_.head?, l.1 < o.price)) ∧
    ∃ b1, AddOrder b o = .ok ([], b1) ∧ b1.bids_ = b.bids_ ∧ b1.asks_ = b.asks_ ∧
      b1.orders_ = b.orders_ ∧ Size b1 = Size b := by
  refine ⟨(CanMatch_eq_false_iff b o.side o.price).mp hcan, b, ?_, rfl, rfl, rfl, rfl⟩
  exact AddOrder_rejected (fun h => h.2 ⟨hty, hcan⟩)

theorem fill_and_kill_rejected_witness :
    (Order.new .FillAndKill 7 .Buy 100 4).orderType = OrderType.FillAndKill ∧
    CanMatch exampleBook (Order.new .FillAndKill 7 .Buy 100 4).side
      (Order.new .FillAndKill 7 .Buy 100 4).price = false ∧
    (((Order.new .FillAndKill 7 .Buy 100 4).side = Side.Buy ∧
        ∀ l ∈ exampleBook.asks_.head?, (Order.new .FillAndKill 7 .Buy 100 4).price < l.1) ∨
      ((Order.new .FillAndKill 7 .Buy 100 4).side = Side.Sell ∧
        ∀ l ∈ exampleBook.bids_.head?, l.1 < (Order.new .FillAndKill 7 .Buy 100 4).price)) ∧
    ∃ b1, AddOrder exampleBook (Order.new .FillAndKill 7 .Buy 100 4) = .ok ([], b1) ∧
      b1.bids_ = exampleBook.bids_ ∧ b1.asks_ = exampleBook.asks_ ∧
      b1.orders_ = exampleBook.orders_ ∧ Size b1 = Size exampleBook :=
  ⟨rfl, rfl, fill_and_kill_rejected exampleBook (Order.new .FillAndKill 7 .Buy 100 4) rfl rfl⟩

/-- C6. Duplicate submission is a no-op: on every book, `AddOrder` of an order
whose id is already in the registry returns no trade and leaves the queues (and
with them every resting order's remaining quantity), the registry and `Size`
unchanged, whatever the order's side, price, quantity or type. -/
theorem duplicate_submission_noop (b : Orderbook) (o : Order)
    (hdup : b.orders_.contains o.orderId = true) :
    ∃ b1, AddOrder b o = .ok ([], b1) ∧ b1.bids_ = b.bids_ ∧ b1.asks_ = b.asks_ ∧
      b1.orders_ = b.orders_ ∧ Size b1 = Size b := by
  refine ⟨b, ?_, rfl, rfl, rfl, rfl⟩
  unfold AddOrder
  rw [if_pos hdup]

theorem duplicate_submission_noop_witness :
    exampleBook.orders_.contains (Order.new .GoodTillCancel 2 .Sell 90 50).orderId = true ∧
    ∃ b1, AddOrder exampleBook (Order.new .GoodTillCancel 2 .Sell 90 50) = .ok ([], b1) ∧
      b1.bids_ = exampleBook.bids_ ∧ b1.asks_ = exampleBook.asks_ ∧
      b1.orders_ = exampleBook.orders_ ∧ Size b1 = Size exampleBook :=
  ⟨rfl, duplicate_submission_noop exampleBook (Order.new .GoodTillCancel 2 .Sell 90 50) rfl⟩

theorem Registry.lookup_erase_self (orders : Registry) (id : Nat) :
    (orders.erase id).lookup id = none := by
  rw [List.lookup_eq_none_iff]
  intro p hp
  unfold Registry.erase at hp
  have := (List.mem_filter.mp hp).2
  simp only [bne_iff_ne, ne_eq] at this ⊢
  exact fun e => this e.symm

theorem CancelOrder_registry {b b1 : Orderbook} {id : Nat} (h : CancelOrder b id = .ok b1) :
    b1.orders_.lookup id = none := by
  unfold CancelOrder at h
  cases hlk : b.orders_.lookup id with
  | none =>
    rw [hlk] at h
    simp only [Except.ok.injEq] at h
    rw [← h, hlk]
  | some e =>
    rw [hlk] at h
    simp only at h
    split at h
    · split at h
      · cases h
      · simp only [Except.ok.injEq] at h
        rw [← h]
        exact Registry.lookup_erase_self _ _
    · split at h
      · cases h
      · simp only [Except.ok.injEq] at h
        rw [← h]
        exact Registry.lookup_erase_self _ _

/-- C7. Idempotent cancel: on every book, `CancelOrder` of an id absent from
the registry returns normally and leaves the book unchanged; hence, on every
book and for every id, `CancelOrder` applied twice yields what `CancelOrder`
applied once yields, and on a reachable book both return normally. -/
theorem cancel_idempotent (b : Orderbook) (id : Nat) :
    (b.orders_.contains id = false → CancelOrder b id = .ok b) ∧
    (CancelOrder b id).bind (fun b1 => CancelOrder b1 id) = CancelOrder b id ∧
    (Reachable b → ∃ b1, CancelOrder b id = .ok b1 ∧ CancelOrder b1 id = .ok b1) := by
  have habs : ∀ b0 : Orderbook, b0.orders_.lookup id = none → CancelOrder b0 id = .ok b0 := by
    intro b0 h0
    unfold CancelOrder
    rw [h0]
  refine ⟨fun h => habs b (by simpa [Registry.contains] using h), ?_, ?_⟩
  · cases h : CancelOrder b id with
    | error e => rfl
    | ok b1 => exact habs b1 (CancelOrder_registry h)
  · intro hb
    have h := (CancelOrder_inv hb.inv id).1
    exact ⟨_, h, habs _ (CancelOrder_registry h)⟩

theorem cancel_idempotent_witness :
    exampleBook.orders_.contains 999999 = false ∧ Reachable exampleBook ∧
    CancelOrder exampleBook 999999 = .ok exampleBook ∧
    (CancelOrder exampleBook 2).bind (fun b1 => CancelOrder b1 2) = CancelOrder exampleBook 2 ∧
    ∃ b1, CancelOrder exampleBook 2 = .ok b1 ∧ CancelOrder b1 2 = .ok b1 :=
  ⟨rfl, exampleBook_reachable, (cancel_idempotent exampleBook 999999).1 rfl,
    (cancel_idempotent exampleBook 2).2.1,
    (cancel_idempotent exampleBook 2).2.2 exampleBook_reachable⟩

theorem queueAt_cons (l : Int × OrderPointers) (rest : Levels) (p : Int) :
    queueAt (l :: rest) p = if p = l.1 then l.2 else queueAt rest p := by
  obtain ⟨k, q⟩ := l
  unfold queueAt
  rw [List.lookup_cons]
  by_cases h : p = k
  · simp [h]
  · have : (p == k) = false := by simpa using h
    simp [this, h]

theorem queueAt_eq_nil {levels : Levels} {p : Int} (h : p ∉ levelKeys levels) :
    queueAt levels p = [] := by
  induction levels with
  | nil => rfl
  | cons l rest ih =>
    rw [levelKeys, List.map_cons, List.mem_cons, not_or] at h
    rw [queueAt_cons, if_neg h.1]
    exact ih h.2

theorem queueAt_removeId (id : Nat) (levels : Levels) (hk : (levelKeys levels).Nodup) (p : Int) :
    queueAt (removeId id levels) p = (queueAt levels p).filter (fun o => o.orderId != id) := by
  induction levels with
  | nil => rfl
  | cons l rest ih =>
    rw [levelKeys, List.map_cons, List.nodup_cons] at hk
    have ih := ih hk.2
    unfold removeId at ih ⊢
    rw [List.map_cons, queueAt_cons]
    by_cases he : l.2.filter (fun o => o.orderId != id) = []
    · rw [List.filter_cons_of_neg (by simp [he]), ih]
      by_cases hp : p = l.1
      · rw [if_pos hp, he, hp, queueAt_eq_nil hk.1]
        rfl
      · rw [if_neg hp]
    · rw [List.filter_cons_of_pos (by simpa using he), queueAt_cons, ih]
      by_cases hp : p = l.1
      · simp [hp]
      · simp [hp]

theorem mem_levelKeys_iff {levels : Levels} (hk : (levelKeys levels).Nodup) (p : Int) :
    ∀ q, (p, q) ∈ levels ↔ p ∈ levelKeys levels ∧ queueAt levels p = q := by
  induction levels with
  | nil => simp [levelKeys]
  | cons l rest ih =>
    intro q
    obtain ⟨k, q0⟩ := l
    have hk1 : k ∉ levelKeys rest ∧ (levelKeys rest).Nodup := List.nodup_cons.mp hk
    have ih := ih hk1.2 q
    have hkeys : p ∈ levelKeys ((k, q0) :: rest) ↔ p = k ∨ p ∈ levelKeys rest := by
      simp [levelKeys]
    rw [List.mem_cons, ih, queueAt_cons, hkeys]
    by_cases hp : p = k
    · subst hp
      simp only [true_or, if_true, true_and, Prod.mk.injEq]
      constructor
      · rintro (h | h)
        · exact h.symm
        · exact absurd h.1 hk1.1
      · exact fun h => Or.inl h.symm
    · simp only [hp, false_or, if_false, Prod.mk.injEq, false_and]

theorem mem_levelKeys_removeId (id : Nat) (levels : Levels) (hk : (levelKeys levels).Nodup)
    (p : Int) :
    p ∈ levelKeys (removeId id levels) ↔
      p ∈ levelKeys levels ∧ ∃ o ∈ queueAt levels p, o.orderId ≠ id := by
  have hk1 : (levelKeys (removeId id levels)).Nodup := hk.sublist (levelKeys_removeId_sublist id levels)
  constructor
  · intro h
    obtain ⟨l1, hl1, rfl⟩ := List.mem_map.mp h
    have hq := queueAt_removeId id levels hk l1.1
    rw [((mem_levelKeys_iff hk1 l1.1 l1.2).mp hl1).2] at hq
    refine ⟨(levelKeys_removeId_sublist id levels).subset h, ?_⟩
    have hne1 := (mem_removeId hl1).1
    rw [hq] at hne1
    obtain ⟨o, ho⟩ := List.exists_mem_of_ne_nil _ hne1
    rw [List.mem_filter] at ho
    exact ⟨o, ho.1, by simpa using ho.2⟩
  · rintro ⟨h, o, ho, hoid⟩
    by_contra hnot
    have hq := queueAt_removeId id levels hk p
    rw [queueAt_eq_nil hnot] at hq
    have : o ∈ (queueAt levels p).filter (fun o => o.orderId != id) :=
      List.mem_filter.mpr ⟨ho, by simpa using hoid⟩
    rw [← hq] at this
    cases this

theorem Registry.lookup_erase_ne (orders : Registry) {id id1 : Nat} (h : id1 ≠ id) :
    (orders.erase id).lookup id1 = orders.lookup id1 := by
  induction orders with
  | nil => rfl
  | cons e rest ih =>
    obtain ⟨k, v⟩ := e
    unfold Registry.erase at ih ⊢
    by_cases hk : k = id
    · rw [List.filter_cons_of_neg (by simp [hk]), ih, List.lookup_cons]
      have : (id1 == k) = false := by simpa [hk] using h
      rw [this]
    · rw [List.filter_cons_of_pos (by simpa using hk), List.lookup_cons, List.lookup_cons, ih]

theorem Registry.length_erase {orders : Registry} (hk : (orders.map Prod.fst).Nodup) {id : Nat}
    (h : orders.contains id = true) : (orders.erase id).length + 1 = orders.length := by
  induction orders with
  | nil => simp [Registry.contains] at h
  | cons e rest ih =>
    obtain ⟨k, v⟩ := e
    rw [List.map_cons, List.nodup_cons] at hk
    unfold Registry.erase at ih ⊢
    by_cases hkid : k = id
    · subst hkid
      rw [List.filter_cons_of_neg (by simp)]
      have : rest.filter (fun e => e.1 != k) = rest := by
        refine List.filter_eq_self.mpr (fun p hp => ?_)
        have hmem : p.1 ∈ rest.map Prod.fst := List.mem_map_of_mem Prod.fst hp
        have : p.1 ≠ k := fun e => hk.1 (e ▸ hmem)
        simpa using this
      rw [this, List.length_cons]
    · rw [List.filter_cons_of_pos (by simpa using hkid), List.length_cons, List.length_cons]
      have hrest : Registry.contains rest id = true := by
        unfold Registry.contains at h ⊢
        rw [List.lookup_cons] at h
        have : (id == k) = false := by simpa using fun e => hkid e.symm
        rwa [this] at h
      rw [ih hk.2 hrest]

theorem RegistryOK.length_eq {resting : List Order} {orders : Registry}
    (h : RegistryOK resting orders) : orders.length = resting.length := by
  obtain ⟨hid, hkey, hiff⟩ := h
  have h1 : orders.Nodup := List.Nodup.of_map _ hkey
  have h2 : (resting.map (fun o => (o.orderId, entryOf o))).Nodup := by
    apply List.Nodup.of_map Prod.fst
    rw [List.map_map]
    exact hid
  have hperm : orders.Perm (resting.map (fun o => (o.orderId, entryOf o))) := by
    rw [List.perm_ext_iff_of_nodup h1 h2]
    rintro ⟨id, e⟩
    rw [hiff, List.mem_map]
    constructor
    · rintro ⟨o, ho, h3, h4⟩
      exact ⟨o, ho, by rw [h3, h4]⟩
    · rintro ⟨o, ho, h3⟩
      obtain ⟨h4, h5⟩ := Prod.mk.inj h3
      exact ⟨o, ho, h4, h5⟩
  rw [hperm.length_eq, List.length_map]

/-- C8. Cancel removes exactly the target: on every reachable book and for
every registered id, `CancelOrder` returns; afterwards the id is absent from
the registry and from every queue, `Size` and the number of resting orders have
decreased by exactly one, the registry entries of the other ids are as before,
the queue at every price of either side is the former queue without the order
of that id (so every other order keeps its side, level, remaining quantity and
relative order), and a price is still a level exactly when its former queue
held an order of another id. -/
theorem cancel_removes_exactly_target (b : Orderbook) (hb : Reachable b) (id : Nat)
    (hreg : b.orders_.contains id = true) :
    ∃ b1, CancelOrder b id = .ok b1 ∧
      b1.orders_.contains id = false ∧
      (∀ o ∈ b1.resting, o.orderId ≠ id) ∧
      Size b1 + 1 = Size b ∧
      b1.resting.length + 1 = b.resting.length ∧
      (∀ id1, id1 ≠ id → b1.orders_.lookup id1 = b.orders_.lookup id1) ∧
      (∀ p, queueAt b1.bids_ p = (queueAt b.bids_ p).filter (fun o => o.orderId != id)) ∧
      (∀ p, queueAt b1.asks_ p = (queueAt b.asks_ p).filter (fun o => o.orderId != id)) ∧
      (∀ p, p ∈ levelKeys b1.bids_ ↔
        p ∈ levelKeys b.bids_ ∧ ∃ o ∈ queueAt b.bids_ p, o.orderId ≠ id) ∧
      (∀ p, p ∈ levelKeys b1.asks_ ↔
        p ∈ levelKeys b.asks_ ∧ ∃ o ∈ queueAt b.asks_ p, o.orderId ≠ id) := by
  have hinv := hb.inv
  have hc := hinv.1
  have hne := hinv.2.1
  have hinv1 := hinv.without_inv id
  have hsize : Size (b.without id) + 1 = Size b := Registry.length_erase hc.2.2.2.1 hreg
  refine ⟨b.without id, CancelOrder_eq hc hne id, ?_, ?_, hsize, ?_, ?_, ?_, ?_, ?_, ?_⟩
  · simp [Registry.contains, Orderbook.without, Registry.lookup_erase_self]
  · intro o ho
    rw [Orderbook.resting_without, List.mem_filter] at ho
    simpa using ho.2
  · have h1 := hinv1.1.2.2.length_eq
    have h2 := hc.2.2.length_eq
    unfold Size at hsize
    omega
  · exact fun id1 h => Registry.lookup_erase_ne _ h
  · exact queueAt_removeId id _ hc.1.keysNodup.1
  · exact queueAt_removeId id _ hc.1.keysNodup.2
  · exact mem_levelKeys_removeId id _ hc.1.keysNodup.1
  · exact mem_levelKeys_removeId id _ hc.1.keysNodup.2

theorem cancel_removes_exactly_target_witness :
    Reachable exampleBook ∧ exampleBook.orders_.contains 2 = true ∧
    ∃ b1, CancelOrder exampleBook 2 = .ok b1 ∧
      b1.orders_.contains 2 = false ∧
      (∀ o ∈ b1.resting, o.orderId ≠ 2) ∧
      Size b1 + 1 = Size exampleBook ∧
      b1.resting.length + 1 = exampleBook.resting.length ∧
      (∀ id1, id1 ≠ 2 → b1.orders_.lookup id1 = exampleBook.orders_.lookup id1) ∧
      (∀ p, queueAt b1.bids_ p
        = (queueAt exampleBook.bids_ p).filter (fun o => o.orderId != 2)) ∧
      (∀ p, queueAt b1.asks_ p
        = (queueAt exampleBook.asks_ p).filter (fun o => o.orderId != 2)) ∧
      (∀ p, p ∈ levelKeys b1.bids_ ↔
        p ∈ levelKeys exampleBook.bids_ ∧ ∃ o ∈ queueAt exampleBook.bids_ p, o.orderId ≠ 2) ∧
      (∀ p, p ∈ levelKeys b1.asks_ ↔
        p ∈ levelKeys exampleBook.asks_ ∧ ∃ o ∈ queueAt exampleBook.asks_ p, o.orderId ≠ 2) :=
  ⟨exampleBook_reachable, rfl,
    cancel_removes_exactly_target exampleBook exampleBook_reachable 2 rfl⟩

theorem Registry.contains_iff_mem (orders : Registry) (id : Nat) :
    orders.contains id = true ↔ ∃ e, (id, e) ∈ orders := by
  unfold Registry.contains
  constructor
  · intro h
    obtain ⟨e, he⟩ := Option.isSome_iff_exists.mp h
    exact ⟨e, mem_of_lookup_eq_some he⟩
  · rintro ⟨e, he⟩
    cases hlk : orders.lookup id with
    | some e1 => rfl
    | none =>
      rw [List.lookup_eq_none_iff] at hlk
      simpa using hlk _ he

theorem RegistryOK.contains_iff {resting : List Order} {orders : Registry}
    (h : RegistryOK resting orders) (id : Nat) :
    orders.contains id = true ↔ ∃ o ∈ resting, o.orderId = id := by
  rw [Registry.contains_iff_mem]
  constructor
  · rintro ⟨e, he⟩
    obtain ⟨o, ho, hid, _⟩ := (h.2.2 id e).mp he
    exact ⟨o, ho, hid⟩
  · rintro ⟨o, ho, hid⟩
    exact ⟨entryOf o, (h.2.2 id (entryOf o)).mpr ⟨o, ho, hid, rfl⟩⟩

/-- C10. Registry/queue consistency: in every reachable book an id is a key of
the registry exactly when an order of that id is queued; such an order is queued
exactly once over both sides, on the side of the order (buy orders on the bid
side, sell orders on the ask side) and in the level of the order's own price,
and its registry entry records that side and price; the registry never holds two
entries for one id; and `Size` is the total number of queued orders. -/
theorem registry_queue_consistency (b : Orderbook) (hb : Reachable b) :
    (∀ id, b.orders_.contains id = true ↔ ∃ o ∈ b.resting, o.orderId = id) ∧
    (∀ id, b.orders_.contains id = true →
      (b.resting.map (fun o => o.orderId)).count id = 1) ∧
    (∀ l ∈ b.bids_, ∀ o ∈ l.2, o.side = Side.Buy ∧ o.price = l.1) ∧
    (∀ l ∈ b.asks_, ∀ o ∈ l.2, o.side = Side.Sell ∧ o.price = l.1) ∧
    (∀ o ∈ b.resting, b.orders_.lookup o.orderId = some ⟨o.side, o.price, o.orderType⟩) ∧
    (b.orders_.map Prod.fst).Nodup ∧
    Size b = b.resting.length := by
  obtain ⟨⟨_, ht, hr⟩, _, _, _⟩ := hb.inv
  refine ⟨hr.contains_iff, ?_, ht.1, ht.2, ?_, hr.2.1, hr.length_eq⟩
  · intro id hid
    obtain ⟨o, ho, hoid⟩ := (hr.contains_iff id).mp hid
    exact List.count_eq_one_of_mem hr.1 (hoid ▸ List.mem_map_of_mem (fun o => o.orderId) ho)
  · intro o ho
    have hmem : (o.orderId, entryOf o) ∈ b.orders_ := (hr.2.2 _ _).mpr ⟨o, ho, rfl, rfl⟩
    cases hlk : b.orders_.lookup o.orderId with
    | none =>
      rw [List.lookup_eq_none_iff] at hlk
      simpa using hlk _ hmem
    | some e =>
      have hmem1 := mem_of_lookup_eq_some hlk
      obtain ⟨o1, ho1, hid1, he1⟩ := (hr.2.2 _ _).mp hmem1
      have : o1 = o := List.inj_on_of_nodup_map hr.1 ho1 ho hid1
      rw [← he1, this]
      rfl

theorem registry_queue_consistency_witness :
    Reachable exampleBook ∧
    (∀ id, exampleBook.orders_.contains id = true ↔ ∃ o ∈ exampleBook.resting, o.orderId = id) ∧
    (∀ id, exampleBook.orders_.contains id = true →
      (exampleBook.resting.map (fun o => o.orderId)).count id = 1) ∧
    (∀ l ∈ exampleBook.bids_, ∀ o ∈ l.2, o.side = Side.Buy ∧ o.price = l.1) ∧
    (∀ l ∈ exampleBook.asks_, ∀ o ∈ l.2, o.side = Side.Sell ∧ o.price = l.1) ∧
    (∀ o ∈ exampleBook.resting,
      exampleBook.orders_.lookup o.orderId = some ⟨o.side, o.price, o.orderType⟩) ∧
    (exampleBook.orders_.map Prod.fst).Nodup ∧
    Size exampleBook = exampleBook.resting.length :=
  ⟨exampleBook_reachable, registry_queue_consistency exampleBook exampleBook_reachable⟩

theorem matchLoop_of_noCross (fuel : Nat) (b : Orderbook) (trades : Trades) (h : NoCross b) :
    matchLoop fuel b trades = .ok (trades, b) := by
  obtain ⟨bids_, asks_, orders_⟩ := b
  unfold matchLoop
  cases bids_ with
  | nil => rfl
  | cons bl rb =>
    cases asks_ with
    | nil => rfl
    | cons al ra =>
      have hlt : bl.1 < al.1 := h bl (by simp) al (by simp)
      simp only [hlt, if_true]

theorem sweep_of_allGTC {b : Orderbook} (side : List Order)
    (h : ∀ o ∈ side, o.orderType = OrderType.GoodTillCancel) : sweep b side = b := by
  unfold sweep
  cases side with
  | nil => rfl
  | cons o t =>
    have := h o (List.mem_cons_self _ _)
    simp [this]

theorem sweepBoth_of_allGTC {b : Orderbook} (h : AllGTC b) : sweepBoth b = b := by
  unfold sweepBoth
  rw [sweep_of_allGTC _ (fun o ho => h o (List.mem_append_left _ ho)),
    sweep_of_allGTC _ (fun o ho => h o (List.mem_append_right _ ho))]

theorem insertOrder_resting (b : Orderbook) (o : Order) :
    ∀ x, x ∈ (insertOrder b o).resting ↔ x = o ∨ x ∈ b.resting := by
  intro x
  unfold insertOrder Orderbook.resting
  cases o.side with
  | Buy =>
    obtain ⟨l1, l2, h1, h2⟩ := queued_pushOrder bidBefore o b.bids_
    simp only [h1, h2, List.mem_append, List.mem_cons]
    tauto
  | Sell =>
    obtain ⟨l1, l2, h1, h2⟩ := queued_pushOrder askBefore o b.asks_
    simp only [h1, h2, List.mem_append, List.mem_cons]
    tauto

theorem insertOrder_noCross {b : Orderbook} (hun : Uncrossed b) (o : Order)
    (hcan : CanMatch b o.side o.price = false) : NoCross (insertOrder b o) := by
  rcases (CanMatch_eq_false_iff b o.side o.price).mp hcan with ⟨hside, hprice⟩ | ⟨hside, hprice⟩
  · unfold insertOrder
    rw [hside]
    intro bl hbl al hal
    simp only at hbl hal
    have hbl1 := List.mem_of_mem_head? hbl
    rcases mem_pushOrder hbl1 with h | h | ⟨q, _, h⟩
    · exact hun bl h al (List.mem_of_mem_head? hal)
    · rw [h]; exact hprice al hal
    · rw [h]; exact hprice al hal
  · unfold insertOrder
    rw [hside]
    intro bl hbl al hal
    simp only at hbl hal
    have hal1 := List.mem_of_mem_head? hal
    rcases mem_pushOrder hal1 with h | h | ⟨q, _, h⟩
    · exact hun bl (List.mem_of_mem_head? hbl) al h
    · rw [h]; exact hprice bl hbl
    · rw [h]; exact hprice bl hbl

/-- A GoodTillCancel order with a fresh id that does not cross rests: no trade,
and the book left is the book with the order inserted. -/
theorem AddOrder_resting {b : Orderbook} (hinv : Inv b) (o : Order)
    (hfresh : b.orders_.contains o.orderId = false)
    (hty : o.orderType = OrderType.GoodTillCancel)
    (hcan : CanMatch b o.side o.price = false) :
    AddOrder b o = .ok ([], insertOrder b o) ∧ Inv (insertOrder b o) := by
  have hacc : Accepted b o := by
    refine ⟨?_, fun h => ?_⟩
    · simpa [Registry.contains] using hfresh
    · rw [hty] at h; cases h.1
  have hins := insertOrder_consistent hinv.1 hinv.2.1 o hacc.1
  have hgtc : AllGTC (insertOrder b o) := by
    intro x hx
    rcases (insertOrder_resting b o x).mp hx with rfl | hx
    · exact hty
    · exact hinv.2.2.2 x hx
  have hnc := insertOrder_noCross hinv.2.2.1 o hcan
  obtain ⟨ts, b1, _, _, _, _, _, hloop, hm, hi⟩ :=
    MatchOrders_spec hins.1 hins.2 hgtc.toFakAtFront
  rw [matchLoop_of_noCross _ _ _ hnc] at hloop
  simp only [Except.ok.injEq, Prod.mk.injEq] at hloop
  obtain ⟨rfl, rfl⟩ := hloop
  rw [sweepBoth_of_allGTC hgtc] at hm hi
  exact ⟨by rw [AddOrder_accepted hacc, hm], hi⟩

theorem Size_insertOrder (b : Orderbook) (o : Order) : Size (insertOrder b o) = Size b + 1 := by
  unfold insertOrder Size
  cases o.side <;> simp

theorem contains_insertOrder (b : Orderbook) (o : Order) (id : Nat) :
    (insertOrder b o).orders_.contains id = true ↔
      id = o.orderId ∨ b.orders_.contains id = true := by
  have h : (insertOrder b o).orders_ = (o.orderId, entryOf o) :: b.orders_ := by
    unfold insertOrder entryOf
    cases o.side <;> rfl
  rw [h]
  unfold Registry.contains
  rw [List.lookup_cons]
  by_cases hid : id = o.orderId
  · simp [hid]
  · have : (id == o.orderId) = false := by simpa using hid
    simp [this, hid]

theorem addAll_spec : ∀ (os : List Order) (b : Orderbook), Inv b →
    (∀ o ∈ os, o.orderType = OrderType.GoodTillCancel) →
    (os.map (fun o => o.orderId)).Nodup →
    (∀ o ∈ os, b.orders_.contains o.orderId = false) →
    NoneCrosses b os →
    ∃ b1, addAll b os = .ok b1 ∧ Inv b1 ∧ Size b1 = Size b + os.length ∧
      ∀ id, b1.orders_.contains id = true ↔
        b.orders_.contains id = true ∨ id ∈ os.map (fun o => o.orderId) := by
  intro os
  induction os with
  | nil =>
    intro b hinv _ _ _ _
    exact ⟨b, rfl, hinv, rfl, by simp⟩
  | cons o os ih =>
    intro b hinv hty hids hfresh hnc
    rw [List.map_cons, List.nodup_cons] at hids
    have hadd := AddOrder_resting hinv o (hfresh o (List.mem_cons_self _ _))
      (hty o (List.mem_cons_self _ _)) hnc.1
    have hnc2 := hnc.2
    rw [hadd.1] at hnc2
    have hfresh1 : ∀ x ∈ os, (insertOrder b o).orders_.contains x.orderId = false := by
      intro x hx
      have h1 := hfresh x (List.mem_cons_of_mem _ hx)
      have h2 : x.orderId ≠ o.orderId := fun e =>
        hids.1 (e ▸ List.mem_map_of_mem (fun o => o.orderId) hx)
      cases hc : (insertOrder b o).orders_.contains x.orderId with
      | false => rfl
      | true =>
        rcases (contains_insertOrder b o x.orderId).mp hc with h | h
        · exact absurd h h2
        · rw [h1] at h; cases h
    obtain ⟨b1, h1, h2, h3, h4⟩ := ih (insertOrder b o) hadd.2
      (fun x hx => hty x (List.mem_cons_of_mem _ hx)) hids.2 hfresh1 hnc2
    refine ⟨b1, ?_, h2, ?_, ?_⟩
    · simp only [addAll, hadd.1, h1]
    · rw [h3, Size_insertOrder, List.length_cons]; omega
    · intro id
      rw [h4, contains_insertOrder, List.map_cons, List.mem_cons]
      tauto

theorem NoneCrosses_take : ∀ (os : List Order) (b : Orderbook) (k : Nat),
    NoneCrosses b os → NoneCrosses b (os.take k) := by
  intro os
  induction os with
  | nil => intro b k h; simpa using h
  | cons o os ih =>
    intro b k h
    cases k with
    | zero => exact trivial
    | succ k =>
      rw [List.take_succ_cons]
      refine ⟨h.1, ?_⟩
      have h2 := h.2
      cases hadd : AddOrder b o with
      | error e => rw [hadd] at h2; exact h2
      | ok r =>
        rw [hadd] at h2
        exact ih _ k h2

theorem cancelAll_spec : ∀ (cs : List Nat) (b : Orderbook), Inv b → cs.Nodup →
    (∀ c ∈ cs, b.orders_.contains c = true) →
    ∃ b2, cancelAll b cs = .ok b2 ∧ Inv b2 ∧ Size b2 + cs.length = Size b := by
  intro cs
  induction cs with
  | nil => intro b hinv _ _; exact ⟨b, rfl, hinv, rfl⟩
  | cons c cs ih =>
    intro b hinv hnd hreg
    rw [List.nodup_cons] at hnd
    have hc := CancelOrder_inv hinv c
    have hsize : Size (b.without c) + 1 = Size b :=
      Registry.length_erase hinv.1.2.2.2.1 (hreg c (List.mem_cons_self _ _))
    have hreg1 : ∀ x ∈ cs, (b.without c).orders_.contains x = true := by
      intro x hx
      have hne : x ≠ c := fun e => hnd.1 (e ▸ hx)
      have := hreg x (List.mem_cons_of_mem _ hx)
      unfold Registry.contains at this ⊢
      simp only [Orderbook.without]
      rwa [Registry.lookup_erase_ne _ hne]
    obtain ⟨b2, h1, h2, h3⟩ := ih (b.without c) hc.2 hnd.2 hreg1
    refine ⟨b2, ?_, h2, ?_⟩
    · simp only [cancelAll, hc.1, h1]
    · rw [List.length_cons]; omega

/-- C9. `Size` counts resting orders: starting from the empty book, `AddOrder`
of N GoodTillCancel orders with pairwise distinct ids none of which crosses the
opposite side, followed by `CancelOrder` of M distinct ids among them, all
return; after the first k insertions `Size` is k, after all insertions and the
first j cancellations `Size` plus j is N, and at the end, M being at most N,
`Size` is N - M. -/
theorem size_counts_resting_orders (os : List Order) (cs : List Nat)
    (hty : ∀ o ∈ os, o.orderType = OrderType.GoodTillCancel)
    (hids : (os.map (fun o => o.orderId)).Nodup)
    (hnc : NoneCrosses Orderbook.empty os)
    (hcs : cs.Nodup) (hsub : ∀ c ∈ cs, c ∈ os.map (fun o => o.orderId)) :
    (∀ k, k ≤ os.length →
      ∃ bk, addAll Orderbook.empty (os.take k) = .ok bk ∧ Size bk = k) ∧
    ∃ bN, addAll Orderbook.empty os = .ok bN ∧
      (∀ j, j ≤ cs.length →
        ∃ bj, cancelAll bN (cs.take j) = .ok bj ∧ Size bj + j = os.length) ∧
      ∃ bM, cancelAll bN cs = .ok bM ∧ cs.length ≤ os.length ∧
        Size bM = os.length - cs.length := by
  have hfresh : ∀ os1 : List Order, ∀ o ∈ os1, Orderbook.empty.orders_.contains o.orderId = false :=
    fun _ _ _ => rfl
  refine ⟨?_, ?_⟩
  · intro k hk
    obtain ⟨bk, h1, _, h3, _⟩ := addAll_spec (os.take k) Orderbook.empty Inv.empty
      (fun o ho => hty o (List.mem_of_mem_take ho))
      (hids.sublist ((List.take_sublist k os).map _)) (hfresh _) (NoneCrosses_take os _ k hnc)
    refine ⟨bk, h1, ?_⟩
    rw [h3, List.length_take]
    simp only [Size, Orderbook.empty, List.length_nil]
    omega
  · obtain ⟨bN, h1, h2, h3, h4⟩ := addAll_spec os Orderbook.empty Inv.empty hty hids
      (hfresh _) hnc
    have hN : Size bN = os.length := by
      rw [h3]; simp [Size, Orderbook.empty]
    have hreg : ∀ c ∈ cs, bN.orders_.contains c = true :=
      fun c hc => (h4 c).mpr (Or.inr (hsub c hc))
    refine ⟨bN, h1, ?_, ?_⟩
    · intro j hj
      obtain ⟨bj, h5, _, h7⟩ := cancelAll_spec (cs.take j) bN h2
        (hcs.sublist (List.take_sublist j cs)) (fun c hc => hreg c (List.mem_of_mem_take hc))
      refine ⟨bj, h5, ?_⟩
      rw [List.length_take] at h7
      omega
    · obtain ⟨bM, h5, _, h7⟩ := cancelAll_spec cs bN h2 hcs hreg
      exact ⟨bM, h5, by omega, by omega⟩
theorem exampleOrders_noneCrosses : NoneCrosses Orderbook.empty exampleOrders := by
  refine ⟨rfl, ?_⟩
  show NoneCrosses (insertOrder Orderbook.empty (Order.new .GoodTillCancel 1 .Buy 99 10)) _
  refine ⟨rfl, ?_⟩
  show NoneCrosses (insertOrder (insertOrder Orderbook.empty
    (Order.new .GoodTillCancel 1 .Buy 99 10)) (Order.new .GoodTillCancel 2 .Buy 100 5)) _
  exact ⟨rfl, trivial⟩

theorem size_counts_resting_orders_witness :
    (∀ o ∈ exampleOrders, o.orderType = OrderType.GoodTillCancel) ∧
    (exampleOrders.map (fun o => o.orderId)).Nodup ∧
    NoneCrosses Orderbook.empty exampleOrders ∧
    [2, 3].Nodup ∧ (∀ c ∈ [2, 3], c ∈ exampleOrders.map (fun o => o.orderId)) ∧
    ((∀ k, k ≤ exampleOrders.length →
      ∃ bk, addAll Orderbook.empty (exampleOrders.take k) = .ok bk ∧ Size bk = k) ∧
    ∃ bN, addAll Orderbook.empty exampleOrders = .ok bN ∧
      (∀ j, j ≤ [2, 3].length →
        ∃ bj, cancelAll bN ([2, 3].take j) = .ok bj ∧ Size bj + j = exampleOrders.length) ∧
      ∃ bM, cancelAll bN [2, 3] = .ok bM ∧ [2, 3].length ≤ exampleOrders.length ∧
        Size bM = exampleOrders.length - [2, 3].length) :=
  ⟨by decide, by decide, exampleOrders_noneCrosses, by decide, by decide,
    size_counts_resting_orders exampleOrders [2, 3] (by decide) (by decide)
      exampleOrders_noneCrosses (by decide) (by decide)⟩

/-! ## What a run of the matching loops does to the resting orders -/

theorem Descends.refl (l : List Order) : Descends l l :=
  fun x hx => ⟨x, hx, rfl, rfl, rfl, le_rfl⟩

theorem Descends.trans {l l1 l2 : List Order} (h1 : Descends l l1) (h2 : Descends l1 l2) :
    Descends l l2 := by
  intro x hx
  obtain ⟨y, hy, e1, e2, e3, e4⟩ := h2 x hx
  obtain ⟨z, hz, f1, f2, f3, f4⟩ := h1 y hy
  exact ⟨z, hz, f1.trans e1, f2.trans e2, f3.trans e3, e4.trans f4⟩

theorem Descends.of_subset {l l1 : List Order} (h : ∀ x ∈ l1, x ∈ l) : Descends l l1 :=
  fun x hx => ⟨x, h x hx, rfl, rfl, rfl, le_rfl⟩

theorem Descends.reduce_head (o : Order) (q : Nat) (t : List Order) :
    Descends (o :: t) (o.reduce q :: t) := by
  intro x hx
  rcases List.mem_cons.mp hx with rfl | hx
  · exact ⟨o, List.mem_cons_self _ _, rfl, rfl, rfl, Nat.sub_le _ _⟩
  · exact ⟨x, List.mem_cons_of_mem _ hx, rfl, rfl, rfl, le_rfl⟩

theorem FlatStep.descends_step {v v1 : View} (h : FlatStep v v1) :
    Descends v.bidQ v1.bidQ ∧ Descends v.askQ v1.askQ := by
  cases h with
  | trade bid ask bt at_ orders ts =>
    exact ⟨Descends.reduce_head _ _ _, Descends.reduce_head _ _ _⟩
  | popBid bid bt asks orders ts hfilled =>
    exact ⟨Descends.of_subset (fun x hx => List.mem_cons_of_mem _ hx), Descends.refl _⟩
  | popAsk ask bids at_ orders ts hfilled =>
    exact ⟨Descends.refl _, Descends.of_subset (fun x hx => List.mem_cons_of_mem _ hx)⟩
  | stay v => exact ⟨Descends.refl _, Descends.refl _⟩

theorem Run.descends {s s1 : Orderbook × Trades} (h : Run s s1) :
    Descends (queued s.1.bids_) (queued s1.1.bids_) ∧
      Descends (queued s.1.asks_) (queued s1.1.asks_) := by
  induction h with
  | refl => exact ⟨Descends.refl _, Descends.refl _⟩
  | tail _ hlast ih =>
    have h := hlast.flat.descends_step
    exact ⟨ih.1.trans h.1, ih.2.trans h.2⟩

theorem Run.descends_resting {s s1 : Orderbook × Trades} (h : Run s s1) :
    Descends s.1.resting s1.1.resting := by
  intro x hx
  rcases List.mem_append.mp hx with hx | hx
  · obtain ⟨y, hy, hrest⟩ := h.descends.1 x hx
    exact ⟨y, List.mem_append_left _ hy, hrest⟩
  · obtain ⟨y, hy, hrest⟩ := h.descends.2 x hx
    exact ⟨y, List.mem_append_right _ hy, hrest⟩

theorem without_eq_self {b : Orderbook} (hc : Consistent b) (hne : NoEmptyLevel b) (id : Nat)
    (h : ∀ x ∈ b.resting, x.orderId ≠ id) : b.without id = b := by
  have hlk : b.orders_.lookup id = none := by
    cases hlk : b.orders_.lookup id with
    | none => rfl
    | some e =>
      obtain ⟨x, hx, hid, _⟩ := (hc.2.2.2.2 id e).mp (mem_of_lookup_eq_some hlk)
      exact absurd hid (h x hx)
  unfold Orderbook.without
  rw [removeId_eq_self id _ hne.1 (fun o ho => h o (List.mem_append_left _ ho)),
    removeId_eq_self id _ hne.2 (fun o ho => h o (List.mem_append_right _ ho)),
    Registry.erase_eq_self _ _ hlk]

/-- When the only orders that can be FillAndKill orders are those of one id,
and they sit at the front, the two sweeps take exactly that id out of the book. -/
theorem sweepBoth_fak {bm : Orderbook} (hc : Consistent bm) (hne : NoEmptyLevel bm)
    (hf : FakAtFront bm) (oid : Nat)
    (h1 : ∀ x ∈ bm.resting, x.orderType = OrderType.FillAndKill → x.orderId = oid)
    (h2 : ∀ x ∈ bm.resting, x.orderId = oid → x.orderType = OrderType.FillAndKill) :
    sweepBoth bm = bm.without oid := by
  have hgtc_of : ∀ x : Order, x.orderType ≠ OrderType.FillAndKill →
      x.orderType = OrderType.GoodTillCancel := by
    intro x hx
    cases hty : x.orderType with
    | GoodTillCancel => rfl
    | FillAndKill => exact absurd hty hx
  have hafter : AllGTC (bm.without oid) := by
    intro x hx
    rw [Orderbook.resting_without, List.mem_filter] at hx
    apply hgtc_of
    intro hty
    have := h1 x hx.1 hty
    simp [this] at hx
  unfold sweepBoth
  cases hbq : queued bm.bids_ with
  | nil =>
    have hs1 : sweep bm [] = bm := rfl
    rw [hs1]
    cases haq : queued bm.asks_ with
    | nil =>
      have hs2 : sweep bm [] = bm := rfl
      rw [hs2]
      exact (without_eq_self hc hne oid (by simp [Orderbook.resting, hbq, haq])).symm
    | cons y ta =>
      by_cases hy : y.orderType = OrderType.FillAndKill
      · have hyid := h1 y (by simp [Orderbook.resting, haq]) hy
        simp [sweep, hy, hyid]
      · have hall : ∀ x ∈ bm.resting, x.orderId ≠ oid := by
          intro x hx hid
          have hx1 : x ∈ y :: ta := by simpa [Orderbook.resting, hbq, haq] using hx
          have hty := h2 x hx hid
          rcases List.mem_cons.mp hx1 with rfl | hx1
          · exact hy hty
          · have := hf.2 x (by rw [haq]; exact hx1)
            rw [this] at hty; cases hty
        rw [without_eq_self hc hne oid hall]
        simp [sweep, hy]
  | cons x tb =>
    by_cases hx : x.orderType = OrderType.FillAndKill
    · have hxid := h1 x (by simp [Orderbook.resting, hbq]) hx
      have hs1 : sweep bm (x :: tb) = bm.without oid := by simp [sweep, hx, hxid]
      rw [hs1]
      exact sweep_of_allGTC _ (fun o ho => hafter o (List.mem_append_right _ ho))
    · have hs1 : sweep bm (x :: tb) = bm := by simp [sweep, hx]
      rw [hs1]
      cases haq : queued bm.asks_ with
      | nil =>
        have hs2 : sweep bm [] = bm := rfl
        rw [hs2]
        have hall : ∀ z ∈ bm.resting, z.orderId ≠ oid := by
          intro z hz hid
          have hz1 : z ∈ x :: tb := by simpa [Orderbook.resting, hbq, haq] using hz
          have hty := h2 z hz hid
          rcases List.mem_cons.mp hz1 with rfl | hz1
          · exact hx hty
          · have := hf.1 z (by rw [hbq]; exact hz1)
            rw [this] at hty; cases hty
        exact (without_eq_self hc hne oid hall).symm
      | cons y ta =>
        by_cases hy : y.orderType = OrderType.FillAndKill
        · have hyid := h1 y (by simp [Orderbook.resting, haq]) hy
          simp [sweep, hy, hyid]
        · have hall : ∀ z ∈ bm.resting, z.orderId ≠ oid := by
            intro z hz hid
            have hz1 : z ∈ x :: tb ∨ z ∈ y :: ta := by
              rw [Orderbook.resting, hbq, haq] at hz
              exact List.mem_append.mp hz
            have hty := h2 z hz hid
            rcases hz1 with hz1 | hz1
            · rcases List.mem_cons.mp hz1 with rfl | hz1
              · exact hx hty
              · have := hf.1 z (by rw [hbq]; exact hz1)
                rw [this] at hty; cases hty
            · rcases List.mem_cons.mp hz1 with rfl | hz1
              · exact hy hty
              · have := hf.2 z (by rw [haq]; exact hz1)
                rw [this] at hty; cases hty
          rw [without_eq_self hc hne oid hall]
          simp [sweep, hy]

/-- `AddOrder` of an accepted order on a book of the invariant: the loops return
after a run of elementary effects from the book with the order inserted, and
the book returned is the book at the exit of the loops, without the order's id
when the order is a FillAndKill order. -/
theorem AddOrder_accepted_spec {b : Orderbook} (hinv : Inv b) {o : Order} (hacc : Accepted b o) :
    ∃ ts bm, Run (insertOrder b o, []) (bm, ts) ∧ Consistent bm ∧ NoEmptyLevel bm ∧
      NoCross bm ∧
      matchLoop ((insertOrder b o).bids_.length + (insertOrder b o).asks_.length)
        (insertOrder b o) [] = .ok (ts, bm) ∧
      AddOrder b o = .ok (ts,
        if o.orderType = OrderType.FillAndKill then bm.without o.orderId else bm) ∧
      Inv (if o.orderType = OrderType.FillAndKill then bm.without o.orderId else bm) := by
  have hins := insertOrder_consistent hinv.1 hinv.2.1 o hacc.1
  obtain ⟨ts, bm, hrun, hc, hne, hf, hnc, hloop, hm, hi⟩ :=
    MatchOrders_spec hins.1 hins.2 (insertOrder_fakAtFront hinv hacc)
  have hdesc := hrun.descends_resting
  have hfresh := hinv.1.2.2.not_resting hacc.1
  have hsw : sweepBoth bm =
      if o.orderType = OrderType.FillAndKill then bm.without o.orderId else bm := by
    by_cases hty : o.orderType = OrderType.FillAndKill
    · rw [if_pos hty]
      apply sweepBoth_fak hc hne hf
      · intro x hx hxty
        obtain ⟨y, hy, hid, hent, _, _⟩ := hdesc x hx
        rcases (insertOrder_resting b o y).mp hy with rfl | hy
        · exact hid.symm
        · have hyty := hinv.2.2.2 y hy
          have : y.orderType = x.orderType := congrArg OrderEntry.orderType hent
          rw [hyty, hxty] at this; cases this
      · intro x hx hxid
        obtain ⟨y, hy, hid, hent, _, _⟩ := hdesc x hx
        rcases (insertOrder_resting b o y).mp hy with rfl | hy
        · have : y.orderType = x.orderType := congrArg OrderEntry.orderType hent
          rw [← this]; exact hty
        · exact absurd (hid.trans hxid) (hfresh y hy)
    · rw [if_neg hty]
      apply sweepBoth_of_allGTC
      intro x hx
      obtain ⟨y, hy, hid, hent, _, _⟩ := hdesc x hx
      have hyx : y.orderType = x.orderType := congrArg OrderEntry.orderType hent
      rw [← hyx]
      rcases (insertOrder_resting b o y).mp hy with rfl | hy
      · cases hoty : y.orderType with
        | GoodTillCancel => rfl
        | FillAndKill => exact absurd hoty hty
      · exact hinv.2.2.2 y hy
  rw [hsw] at hm hi
  exact ⟨ts, bm, hrun, hc, hne, hnc, hloop, by rw [AddOrder_accepted hacc, hm], hi⟩

/-- C4 (amended). A FillAndKill order never rests: no reachable book holds a
resting FillAndKill order; on every reachable book `AddOrder` of a FillAndKill
order returns and leaves no FillAndKill order in any queue, and when the order's
id was not registered before the call, the id is in the registry and in the
queues of no order afterwards, whether the order was unmatched, partially
matched or fully matched. -/
theorem fill_and_kill_never_rests (b : Orderbook) (hb : Reachable b) :
    (∀ x ∈ b.resting, x.orderType = OrderType.GoodTillCancel) ∧
    ∀ o : Order, o.orderType = OrderType.FillAndKill →
      ∃ ts b1, AddOrder b o = .ok (ts, b1) ∧
        (∀ x ∈ b1.resting, x.orderType = OrderType.GoodTillCancel) ∧
        (b.orders_.contains o.orderId = false →
          b1.orders_.contains o.orderId = false ∧ ∀ x ∈ b1.resting, x.orderId ≠ o.orderId) := by
  have hinv := hb.inv
  refine ⟨hinv.2.2.2, fun o hty => ?_⟩
  by_cases hacc : Accepted b o
  · obtain ⟨ts, bm, _, _, _, _, _, hadd, hi⟩ := AddOrder_accepted_spec hinv hacc
    rw [if_pos hty] at hadd hi
    refine ⟨ts, _, hadd, hi.2.2.2, fun _ => ⟨?_, ?_⟩⟩
    · simp [Registry.contains, Orderbook.without, Registry.lookup_erase_self]
    · intro x hx
      rw [Orderbook.resting_without, List.mem_filter] at hx
      simpa using hx.2
  · refine ⟨[], b, AddOrder_rejected hacc, hinv.2.2.2, fun hfresh => ⟨hfresh, ?_⟩⟩
    exact hinv.1.2.2.not_resting (by simpa [Registry.contains] using hfresh)

theorem fill_and_kill_never_rests_witness :
    Reachable exampleBook ∧
    (Order.new .FillAndKill 9 .Sell 100 8).orderType = OrderType.FillAndKill ∧
    exampleBook.orders_.contains (Order.new .FillAndKill 9 .Sell 100 8).orderId = false ∧
    ∃ ts b1, AddOrder exampleBook (Order.new .FillAndKill 9 .Sell 100 8) = .ok (ts, b1) ∧
      (∀ x ∈ b1.resting, x.orderType = OrderType.GoodTillCancel) ∧
      b1.orders_.contains (Order.new .FillAndKill 9 .Sell 100 8).orderId = false ∧
      ∀ x ∈ b1.resting, x.orderId ≠ (Order.new .FillAndKill 9 .Sell 100 8).orderId :=
  ⟨exampleBook_reachable, rfl, rfl,
    match (fill_and_kill_never_rests exampleBook exampleBook_reachable).2
      (Order.new .FillAndKill 9 .Sell 100 8) rfl with
    | ⟨ts, b1, h1, h2, h3⟩ => ⟨ts, b1, h1, h2, (h3 rfl).1, (h3 rfl).2⟩⟩

/-- C4, as stated, fails for a FillAndKill order whose id is already registered:
on the reachable book holding the GoodTillCancel order of id 2, `AddOrder` of a
FillAndKill order of id 2 returns at the duplicate guard, and id 2 is still in
the registry afterwards. -/
theorem fill_and_kill_duplicate_id_counterexample :
    Reachable exampleBook ∧
    (Order.new .FillAndKill 2 .Sell 100 5).orderType = OrderType.FillAndKill ∧
    AddOrder exampleBook (Order.new .FillAndKill 2 .Sell 100 5) = .ok ([], exampleBook) ∧
    exampleBook.orders_.contains (Order.new .FillAndKill 2 .Sell 100 5).orderId = true :=
  ⟨exampleBook_reachable, rfl, rfl, rfl⟩

/-! ### Conservation -/

theorem restingQty_cons (o : Order) (l : List Order) :
    restingQty (o :: l) = o.remainingQuantity + restingQty l := by
  simp [restingQty]

theorem restingQty_insert (l1 l2 : List Order) (o : Order) :
    restingQty (l1 ++ o :: l2) = restingQty (l1 ++ l2) + o.remainingQuantity := by
  simp only [restingQty, List.map_append, List.map_cons, List.sum_append, List.sum_cons]
  omega

theorem tradedQty_append (ts : Trades) (t : Trade) :
    tradedQty (ts ++ [t]) = tradedQty ts + t.bidTrade.quantity := by
  simp [tradedQty]

theorem FlatStep.conserves_step {v v1 : View} (h : FlatStep v v1) :
    restingQty v1.bidQ + tradedQty v1.trades = restingQty v.bidQ + tradedQty v.trades ∧
    restingQty v1.askQ + tradedQty v1.trades = restingQty v.askQ + tradedQty v.trades ∧
    ((∀ t ∈ v.trades, t.bidTrade.quantity = t.askTrade.quantity) →
      ∀ t ∈ v1.trades, t.bidTrade.quantity = t.askTrade.quantity) := by
  cases h with
  | trade bid ask bt at_ orders ts =>
    refine ⟨?_, ?_, ?_⟩
    · simp only [restingQty_cons, tradedQty_append, tradeOf, Order.reduce_remaining]
      omega
    · simp only [restingQty_cons, tradedQty_append, tradeOf, Order.reduce_remaining]
      omega
    · intro h t ht
      rcases List.mem_append.mp ht with ht | ht
      · exact h t ht
      · rw [List.mem_singleton.mp ht]; rfl
  | popBid bid bt asks orders ts hfilled =>
    refine ⟨?_, rfl, fun h => h⟩
    simp only [restingQty_cons, hfilled]
    omega
  | popAsk ask bids at_ orders ts hfilled =>
    refine ⟨rfl, ?_, fun h => h⟩
    simp only [restingQty_cons, hfilled]
    omega
  | stay v => exact ⟨rfl, rfl, fun h => h⟩

theorem Run.conserves {s s1 : Orderbook × Trades} (h : Run s s1) :
    restingQty (queued s1.1.bids_) + tradedQty s1.2
      = restingQty (queued s.1.bids_) + tradedQty s.2 ∧
    restingQty (queued s1.1.asks_) + tradedQty s1.2
      = restingQty (queued s.1.asks_) + tradedQty s.2 ∧
    ((∀ t ∈ s.2, t.bidTrade.quantity = t.askTrade.quantity) →
      ∀ t ∈ s1.2, t.bidTrade.quantity = t.askTrade.quantity) := by
  induction h with
  | refl => exact ⟨rfl, rfl, fun h => h⟩
  | tail _ hlast ih =>
    have h := hlast.flat.conserves_step
    simp only [view] at h
    exact ⟨h.1.trans ih.1, h.2.1.trans ih.2.1, fun h0 => h.2.2 (ih.2.2 h0)⟩

theorem restingQty_insertOrder (b : Orderbook) (o : Order) :
    restingQty (queued (insertOrder b o).bids_)
      = restingQty (queued b.bids_) + (if o.side = Side.Buy then o.remainingQuantity else 0) ∧
    restingQty (queued (insertOrder b o).asks_)
      = restingQty (queued b.asks_) + (if o.side = Side.Sell then o.remainingQuantity else 0) := by
  unfold insertOrder
  cases hside : o.side with
  | Buy =>
    obtain ⟨l1, l2, h1, h2⟩ := queued_pushOrder bidBefore o b.bids_
    simp only [h2, h1, restingQty_insert]
    simp
  | Sell =>
    obtain ⟨l1, l2, h1, h2⟩ := queued_pushOrder askBefore o b.asks_
    simp only [h2, h1, restingQty_insert]
    simp

/-- C3. Conservation: on every reachable book `AddOrder` returns.  A rejected
order produces no trade and changes nothing.  For an accepted order, with `bm`
the book at the exit of the matching loops, the total quantity of the returned
trades is what the fills removed from the buy side (the bids resting before,
the order included when it is a buy, less the bids resting in `bm`) and equally
what they removed from the sell side, both legs of every trade carry the same
quantity, and the book returned is `bm`, less the unfilled remainder of the
order when it is a FillAndKill order. -/
theorem conservation (b : Orderbook) (hb : Reachable b) (o : Order) :
    (¬ Accepted b o → AddOrder b o = .ok ([], b)) ∧
    (Accepted b o → ∃ ts bm,
      matchLoop ((insertOrder b o).bids_.length + (insertOrder b o).asks_.length)
        (insertOrder b o) [] = .ok (ts, bm) ∧
      AddOrder b o = .ok (ts,
        if o.orderType = OrderType.FillAndKill then bm.without o.orderId else bm) ∧
      restingQty (queued b.bids_) + (if o.side = Side.Buy then o.remainingQuantity else 0)
        = restingQty (queued bm.bids_) + tradedQty ts ∧
      restingQty (queued b.asks_) + (if o.side = Side.Sell then o.remainingQuantity else 0)
        = restingQty (queued bm.asks_) + tradedQty ts ∧
      ∀ t ∈ ts, t.bidTrade.quantity = t.askTrade.quantity) := by
  refine ⟨AddOrder_rejected, fun hacc => ?_⟩
  obtain ⟨ts, bm, hrun, _, _, _, hloop, hadd, _⟩ := AddOrder_accepted_spec hb.inv hacc
  have hcons := hrun.conserves
  have hins := restingQty_insertOrder b o
  simp only [tradedQty, List.map_nil, List.sum_nil, Nat.add_zero] at hcons
  refine ⟨ts, bm, hloop, hadd, ?_, ?_, hcons.2.2 (by simp)⟩
  · rw [← hins.1]; exact hcons.1.symm
  · rw [← hins.2]; exact hcons.2.1.symm

/-! ### Price-time priority -/

theorem Ahead_cons (a c : Nat) (h : Order) (t : List Order) :
    Ahead a c (h :: t) ↔ Ahead a c t ∨ (h.orderId = a ∧ c ∈ t.map (fun o => o.orderId)) := by
  unfold Ahead
  rw [List.map_cons, List.sublist_cons_iff]
  constructor
  · rintro (h1 | ⟨r, h1, h2⟩)
    · exact Or.inl h1
    · obtain ⟨h3, h4⟩ := List.cons.inj h1
      subst h4
      exact Or.inr ⟨h3.symm, List.singleton_sublist.mp h2⟩
  · rintro (h1 | ⟨h1, h2⟩)
    · exact Or.inl h1
    · exact Or.inr ⟨[c], by rw [h1], List.singleton_sublist.mpr h2⟩

theorem Ahead.mem_tail {a c : Nat} {h : Order} {t : List Order} (hA : Ahead a c (h :: t)) :
    c ∈ t.map (fun o => o.orderId) := by
  rcases (Ahead_cons a c h t).mp hA with h1 | ⟨_, h1⟩
  · exact h1.subset (by simp)
  · exact h1

theorem Ahead.reduce_front {a c : Nat} {h : Order} {t : List Order} (q : Nat)
    (hA : Ahead a c (h :: t)) : Ahead a c (h.reduce q :: t) := by
  unfold Ahead at hA ⊢
  simpa using hA

theorem filledQty_append (a : Nat) (ts : Trades) (t : Trade) :
    filledQty a (ts ++ [t]) = filledQty a ts + (if t.names a then t.bidTrade.quantity else 0) := by
  unfold filledQty
  rw [List.filter_append]
  by_cases h : t.names a = true
  · simp [tradedQty, List.filter_cons, h]
  · simp [tradedQty, List.filter_cons, h]

theorem tradeOf_names (bid ask : Order) (id : Nat) :
    (tradeOf bid ask).names id = (bid.orderId == id || ask.orderId == id) := rfl

theorem tradeOf_names_false {bid ask : Order} {id : Nat} (h1 : bid.orderId ≠ id)
    (h2 : ask.orderId ≠ id) : (tradeOf bid ask).names id = false := by
  rw [tradeOf_names]
  simp [h1, h2]

/-- The facts about ids that distinctness gives at a match of two fronts. -/
theorem nodup_fronts {bid ask : Order} {bt at_ : List Order}
    (h : (((bid :: bt) ++ (ask :: at_)).map (fun o => o.orderId)).Nodup) :
    bid.orderId ≠ ask.orderId ∧
    (∀ x ∈ bt ++ at_, x.orderId ≠ bid.orderId ∧ x.orderId ≠ ask.orderId) := by
  rw [List.map_append, List.map_cons, List.map_cons, List.nodup_append, List.nodup_cons,
    List.nodup_cons] at h
  obtain ⟨⟨hb1, _⟩, ⟨ha1, _⟩, hdis⟩ := h
  refine ⟨fun e => hdis (List.mem_cons_self _ _) (e ▸ List.mem_cons_self _ _), ?_⟩
  intro x hx
  rcases List.mem_append.mp hx with hx | hx
  · refine ⟨fun e => hb1 (e ▸ List.mem_map_of_mem (fun o => o.orderId) hx), fun e => ?_⟩
    exact hdis (List.mem_cons_of_mem _ (List.mem_map_of_mem (fun o => o.orderId) hx))
      (e ▸ List.mem_cons_self _ _)
  · refine ⟨fun e => ?_, fun e => ha1 (e ▸ List.mem_map_of_mem (fun o => o.orderId) hx)⟩
    exact hdis (List.mem_cons_self _ _)
      (e ▸ List.mem_cons_of_mem _ (List.mem_map_of_mem (fun o => o.orderId) hx))

theorem mem_ids_append {c : Nat} {bt at_ : List Order}
    (h : c ∈ bt.map (fun o => o.orderId) ∨ c ∈ at_.map (fun o => o.orderId)) :
    ∃ x ∈ bt ++ at_, x.orderId = c := by
  rcases h with h | h
  · obtain ⟨x, hx, e⟩ := List.mem_map.mp h
    exact ⟨x, List.mem_append_left _ hx, e⟩
  · obtain ⟨x, hx, e⟩ := List.mem_map.mp h
    exact ⟨x, List.mem_append_right _ hx, e⟩

theorem FlatStep.priority_step {a c ra : Nat} {v v1 : View} (h : FlatStep v v1)
    (hN : ((v.bidQ ++ v.askQ).map (fun o => o.orderId)).Nodup)
    (hP : Priority a c ra v) : Priority a c ra v1 := by
  cases h with
  | trade bid ask bt at_ orders ts =>
    simp only [Priority] at hN hP ⊢
    obtain ⟨hba, hrest⟩ := nodup_fronts hN
    rcases hP with ⟨hA, hnc, x, hx, hxa, hsum⟩ | ⟨hgone, hsum, ts1, ts2, hts, h1, h2⟩
    · left
      have hc : ∃ y ∈ bt ++ at_, y.orderId = c :=
        mem_ids_append (hA.imp Ahead.mem_tail Ahead.mem_tail)
      obtain ⟨y, hy, hyc⟩ := hc
      have hbc : bid.orderId ≠ c := hyc ▸ fun e => (hrest y hy).1 e.symm
      have hac : ask.orderId ≠ c := hyc ▸ fun e => (hrest y hy).2 e.symm
      refine ⟨hA.imp (Ahead.reduce_front _) (Ahead.reduce_front _), ?_, ?_⟩
      · intro t ht
        rcases List.mem_append.mp ht with ht | ht
        · exact hnc t ht
        · rw [List.mem_singleton.mp ht]
          exact tradeOf_names_false hbc hac
      · rw [filledQty_append, tradeOf_names]
        have hx1 : x = bid ∨ x = ask ∨ x ∈ bt ++ at_ := by
          simp only [List.mem_append, List.mem_cons] at hx ⊢
          tauto
        rcases hx1 with rfl | rfl | hx1
        · refine ⟨x.reduce (min x.remainingQuantity ask.remainingQuantity), by simp, hxa, ?_⟩
          simp only [hxa, beq_self_eq_true, Bool.true_or, if_true, tradeOf,
            Order.reduce_remaining]
          omega
        · refine ⟨x.reduce (min bid.remainingQuantity x.remainingQuantity), by simp, hxa, ?_⟩
          simp only [hxa, beq_self_eq_true, Bool.or_true, if_true, tradeOf,
            Order.reduce_remaining]
          omega
        · have h3 := hrest x hx1
          rw [hxa] at h3
          refine ⟨x, ?_, hxa, ?_⟩
          · simp only [List.mem_append, List.mem_cons] at hx1 ⊢
            tauto
          · have : (bid.orderId == a || ask.orderId == a) = false := by
              simp only [Bool.or_eq_false_iff, beq_eq_false_iff_ne, ne_eq]
              exact ⟨fun e => h3.1 e.symm, fun e => h3.2 e.symm⟩
            rw [this]
            simpa using hsum
    · right
      have hb : bid.orderId ≠ a := hgone bid (by simp)
      have ha : ask.orderId ≠ a := hgone ask (by simp)
      refine ⟨?_, ?_, ts1, ts2 ++ [tradeOf bid ask], by rw [hts, List.append_assoc], h1, ?_⟩
      · intro x hx
        simp only [List.mem_append, List.mem_cons] at hx
        rcases hx with (rfl | hx) | (rfl | hx)
        · exact hb
        · exact hgone x (by simp [hx])
        · exact ha
        · exact hgone x (by simp [hx])
      · rw [filledQty_append, tradeOf_names_false hb ha]
        simpa using hsum
      · intro t ht
        rcases List.mem_append.mp ht with ht | ht
        · exact h2 t ht
        · rw [List.mem_singleton.mp ht]
          exact tradeOf_names_false hb ha
  | popBid bid bt asks orders ts hfilled =>
    simp only [Priority] at hN hP ⊢
    have hbid : ∀ x ∈ bt ++ asks, x.orderId ≠ bid.orderId := by
      intro x hx e
      rw [List.cons_append, List.map_cons, List.nodup_cons] at hN
      exact hN.1 (e ▸ List.mem_map_of_mem (fun o => o.orderId) hx)
    rcases hP with ⟨hA, hnc, x, hx, hxa, hsum⟩ | ⟨hgone, hsum, hsplit⟩
    · by_cases hba : bid.orderId = a
      · right
        have hxb : x = bid := by
          rcases List.mem_cons.mp (by simpa using hx : x ∈ bid :: (bt ++ asks)) with h | h
          · exact h
          · exact absurd (hxa.trans hba.symm) (hbid x h)
        subst hxb
        refine ⟨fun y hy => hba ▸ hbid y hy, by omega, ts, [], by simp, hnc, by simp⟩
      · left
        refine ⟨hA.imp_left (fun h => ?_), hnc, x, ?_, hxa, hsum⟩
        · rcases (Ahead_cons a c bid bt).mp h with h | ⟨h, _⟩
          · exact h
          · exact absurd h hba
        · rcases List.mem_cons.mp (by simpa using hx : x ∈ bid :: (bt ++ asks)) with h | h
          · exact absurd (h ▸ hxa) hba
          · exact h
    · right
      exact ⟨fun y hy => hgone y (by
        rw [List.cons_append]; exact List.mem_cons_of_mem _ hy), hsum, hsplit⟩
  | popAsk ask bids at_ orders ts hfilled =>
    simp only [Priority] at hN hP ⊢
    have hask : ∀ x ∈ bids ++ at_, x.orderId ≠ ask.orderId := by
      intro x hx e
      rw [List.map_append, List.map_cons] at hN
      have hN1 := List.nodup_middle.mp hN
      rw [← List.map_append, List.nodup_cons] at hN1
      exact hN1.1 (e ▸ List.mem_map_of_mem (fun o => o.orderId) hx)
    have hsplitmem : ∀ y, y ∈ bids ++ ask :: at_ ↔ y = ask ∨ y ∈ bids ++ at_ := by
      intro y
      simp only [List.mem_append, List.mem_cons]
      tauto
    rcases hP with ⟨hA, hnc, x, hx, hxa, hsum⟩ | ⟨hgone, hsum, hsplit⟩
    · by_cases hba : ask.orderId = a
      · right
        have hxb : x = ask := by
          rcases (hsplitmem x).mp hx with h | h
          · exact h
          · exact absurd (hxa.trans hba.symm) (hask x h)
        subst hxb
        refine ⟨fun y hy => hba ▸ hask y hy, by omega, ts, [], by simp, hnc, by simp⟩
      · left
        refine ⟨hA.imp_right (fun h => ?_), hnc, x, ?_, hxa, hsum⟩
        · rcases (Ahead_cons a c ask at_).mp h with h | ⟨h, _⟩
          · exact h
          · exact absurd h hba
        · rcases (hsplitmem x).mp hx with h | h
          · exact absurd (h ▸ hxa) hba
          · exact h
    · right
      exact ⟨fun y hy => hgone y ((hsplitmem y).mpr (Or.inr hy)), hsum, hsplit⟩
  | stay v => exact hP

theorem Run.priority {a c ra : Nat} {s s1 : Orderbook × Trades} (h : Run s s1)
    (hc : Consistent s.1) (hP : Priority a c ra (view s)) : Priority a c ra (view s1) := by
  have key : Consistent s1.1 ∧ Priority a c ra (view s1) := by
    refine Run.preserves (P := fun s => Consistent s.1 ∧ Priority a c ra (view s)) ?_ h ⟨hc, hP⟩
    intro s2 s3 hm hs
    exact ⟨hm.keeps_consistent hs.1, hm.flat.priority_step hs.1.2.2.1 hs.2⟩
  exact key.2

theorem level_sublist_queued {levels : Levels} {l : Int × OrderPointers} (h : l ∈ levels) :
    l.2.Sublist (queued levels) := by
  induction levels with
  | nil => cases h
  | cons l0 rest ih =>
    rw [queued_cons]
    rcases List.mem_cons.mp h with rfl | h
    · exact List.sublist_append_left _ _
    · exact (ih h).trans (List.sublist_append_right _ _)

theorem queued_sublist_insertOrder (b : Orderbook) (o : Order) :
    (queued b.bids_).Sublist (queued (insertOrder b o).bids_) ∧
      (queued b.asks_).Sublist (queued (insertOrder b o).asks_) := by
  unfold insertOrder
  cases o.side with
  | Buy =>
    obtain ⟨l1, l2, h1, h2⟩ := queued_pushOrder bidBefore o b.bids_
    simp only [h1, h2]
    exact ⟨List.Sublist.append_left (List.sublist_cons_self o l2) l1, List.Sublist.refl _⟩
  | Sell =>
    obtain ⟨l1, l2, h1, h2⟩ := queued_pushOrder askBefore o b.asks_
    simp only [h1, h2]
    exact ⟨List.Sublist.refl _, List.Sublist.append_left (List.sublist_cons_self o l2) l1⟩

theorem Ahead.of_level {levels : Levels} {p : Int} {l1 l2 l3 : List Order} {A B : Order}
    (h : (p, l1 ++ A :: l2 ++ B :: l3) ∈ levels) :
    Ahead A.orderId B.orderId (queued levels) := by
  have h1 : [A, B].Sublist (l1 ++ A :: l2 ++ B :: l3) := by
    have h2 : [A].Sublist (l1 ++ A :: l2) :=
      List.singleton_sublist.mpr (by simp)
    exact h2.append (List.sublist_append_left [B] l3)
  exact ((h1.trans (level_sublist_queued h)).map (fun o => o.orderId))

theorem trades_ordered_of_split {a c : Nat} {ts ts1 ts2 : Trades} (hts : ts = ts1 ++ ts2)
    (h1 : ∀ t ∈ ts1, t.names c = false) (h2 : ∀ t ∈ ts2, t.names a = false) :
    ∀ (i j : Nat) (hi : i < ts.length) (hj : j < ts.length),
      ts[i].names a = true → ts[j].names c = true → i < j := by
  subst hts
  intro i j hi hj hia hjc
  by_contra hle
  rw [not_lt] at hle
  by_cases hj1 : j < ts1.length
  · rw [List.getElem_append_left hj1] at hjc
    rw [h1 _ (List.getElem_mem hj1)] at hjc
    cases hjc
  · have hi1 : ts1.length ≤ i := by omega
    rw [List.getElem_append_right hi1] at hia
    rw [h2 _ (List.getElem_mem _)] at hia
    cases hia

/-- C2. Price-time priority within a level: on every reachable book in which
orders A and B rest in the same level of the same side with A before B,
`AddOrder` of any order returns; if a returned trade names B, then the trades
naming A add up to all of what A had remaining, and A has left the registry and
the queues; and every returned trade that names A comes before every returned
trade that names B. -/
theorem price_time_priority (b : Orderbook) (hb : Reachable b) (p : Int)
    (l1 l2 l3 : List Order) (A B : Order)
    (hlevel : (p, l1 ++ A :: l2 ++ B :: l3) ∈ b.bids_ ∨
      (p, l1 ++ A :: l2 ++ B :: l3) ∈ b.asks_)
    (o : Order) :
    ∃ ts b1, AddOrder b o = .ok (ts, b1) ∧
      ((∃ t ∈ ts, t.names B.orderId = true) →
        filledQty A.orderId ts = A.remainingQuantity ∧
        b1.orders_.contains A.orderId = false ∧
        ∀ x ∈ b1.resting, x.orderId ≠ A.orderId) ∧
      ∀ (i j : Nat) (hi : i < ts.length) (hj : j < ts.length),
        ts[i].names A.orderId = true → ts[j].names B.orderId = true → i < j := by
  have hinv := hb.inv
  by_cases hacc : Accepted b o
  · obtain ⟨ts, bm, hrun, _, _, _, _, hadd, hi⟩ := AddOrder_accepted_spec hinv hacc
    have hins := insertOrder_consistent hinv.1 hinv.2.1 o hacc.1
    have hsub := queued_sublist_insertOrder b o
    have hA0 : A ∈ b.resting := by
      rcases hlevel with h | h
      · exact List.mem_append_left _ ((level_sublist_queued h).subset (by simp))
      · exact List.mem_append_right _ ((level_sublist_queued h).subset (by simp))
    have hP0 : Priority A.orderId B.orderId A.remainingQuantity (view (insertOrder b o, [])) := by
      left
      refine ⟨?_, by simp [view], A, (insertOrder_resting b o A).mpr (Or.inr hA0), rfl, ?_⟩
      · rcases hlevel with h | h
        · exact Or.inl ((Ahead.of_level h).trans (hsub.1.map _))
        · exact Or.inr ((Ahead.of_level h).trans (hsub.2.map _))
      · simp [view, filledQty, tradedQty]
    have hP := hrun.priority hins.1 hP0
    have hrest : ∀ x ∈ (if o.orderType = OrderType.FillAndKill then bm.without o.orderId
        else bm).resting, x ∈ bm.resting := by
      intro x hx
      by_cases hty : o.orderType = OrderType.FillAndKill
      · rw [if_pos hty, Orderbook.resting_without] at hx
        exact (List.mem_filter.mp hx).1
      · rwa [if_neg hty] at hx
    refine ⟨ts, _, hadd, ?_, ?_⟩
    · rintro ⟨t, ht, htB⟩
      rcases hP with ⟨_, hnc, _⟩ | ⟨hgone, hsum, _⟩
      · rw [hnc t ht] at htB; cases htB
      · have hgone1 : ∀ x ∈ (if o.orderType = OrderType.FillAndKill then bm.without o.orderId
            else bm).resting, x.orderId ≠ A.orderId := fun x hx => hgone x (hrest x hx)
        refine ⟨hsum, ?_, hgone1⟩
        cases hc : Registry.contains
            (if o.orderType = OrderType.FillAndKill then bm.without o.orderId
              else bm).orders_ A.orderId with
        | false => rfl
        | true =>
          obtain ⟨x, hx, hid⟩ := (hi.1.2.2.contains_iff A.orderId).mp hc
          exact absurd hid (hgone1 x hx)
    · rcases hP with ⟨_, hnc, _⟩ | ⟨_, _, ts1, ts2, hts, h1, h2⟩
      · intro i j hi hj _ hjB
        rw [hnc _ (List.getElem_mem hj)] at hjB
        cases hjB
      · exact trades_ordered_of_split hts h1 h2
  · refine ⟨[], b, AddOrder_rejected hacc, ?_, ?_⟩
    · rintro ⟨t, ht, _⟩; cases ht
    · intro i j hi; cases hi

theorem priorityBook_reachable : Reachable priorityBook :=
  Reachable.add (Order.new .GoodTillCancel 2 .Buy 100 5) []
    (Reachable.add (Order.new .GoodTillCancel 1 .Buy 100 10) [] Reachable.empty rfl) rfl

theorem price_time_priority_witness :
    Reachable priorityBook ∧
    ((100, [] ++ Order.new .GoodTillCancel 1 .Buy 100 10 :: [] ++
        Order.new .GoodTillCancel 2 .Buy 100 5 :: []) ∈ priorityBook.bids_ ∨
      (100, [] ++ Order.new .GoodTillCancel 1 .Buy 100 10 :: [] ++
        Order.new .GoodTillCancel 2 .Buy 100 5 :: []) ∈ priorityBook.asks_) ∧
    ∃ ts b1, AddOrder priorityBook (Order.new .GoodTillCancel 3 .Sell 100 12) = .ok (ts, b1) ∧
      ((∃ t ∈ ts, t.names (Order.new .GoodTillCancel 2 .Buy 100 5).orderId = true) →
        filledQty (Order.new .GoodTillCancel 1 .Buy 100 10).orderId ts
          = (Order.new .GoodTillCancel 1 .Buy 100 10).remainingQuantity ∧
        b1.orders_.contains (Order.new .GoodTillCancel 1 .Buy 100 10).orderId = false ∧
        ∀ x ∈ b1.resting, x.orderId ≠ (Order.new .GoodTillCancel 1 .Buy 100 10).orderId) ∧
      ∀ (i j : Nat) (hi : i < ts.length) (hj : j < ts.length),
        ts[i].names (Order.new .GoodTillCancel 1 .Buy 100 10).orderId = true →
        ts[j].names (Order.new .GoodTillCancel 2 .Buy 100 5).orderId = true → i < j :=
  ⟨priorityBook_reachable, Or.inl (by decide),
    price_time_priority priorityBook priorityBook_reachable 100 [] [] []
      (Order.new .GoodTillCancel 1 .Buy 100 10) (Order.new .GoodTillCancel 2 .Buy 100 5)
      (Or.inl (by decide)) (Order.new .GoodTillCancel 3 .Sell 100 12)⟩

theorem exampleBook_accepts :
    Accepted exampleBook (Order.new .GoodTillCancel 4 .Sell 99 12) :=
  ⟨rfl, fun h => by cases h.1⟩

theorem conservation_witness :
    Reachable exampleBook ∧
    Accepted exampleBook (Order.new .GoodTillCancel 4 .Sell 99 12) ∧
    ∃ ts bm,
      matchLoop
        ((insertOrder exampleBook (Order.new .GoodTillCancel 4 .Sell 99 12)).bids_.length +
          (insertOrder exampleBook (Order.new .GoodTillCancel 4 .Sell 99 12)).asks_.length)
        (insertOrder exampleBook (Order.new .GoodTillCancel 4 .Sell 99 12)) [] = .ok (ts, bm) ∧
      AddOrder exampleBook (Order.new .GoodTillCancel 4 .Sell 99 12) = .ok (ts,
        if (Order.new .GoodTillCancel 4 .Sell 99 12).orderType = OrderType.FillAndKill
        then bm.without (Order.new .GoodTillCancel 4 .Sell 99 12).orderId else bm) ∧
      restingQty (queued exampleBook.bids_) +
          (if (Order.new .GoodTillCancel 4 .Sell 99 12).side = Side.Buy
            then (Order.new .GoodTillCancel 4 .Sell 99 12).remainingQuantity else 0)
        = restingQty (queued bm.bids_) + tradedQty ts ∧
      restingQty (queued exampleBook.asks_) +
          (if (Order.new .GoodTillCancel 4 .Sell 99 12).side = Side.Sell
            then (Order.new .GoodTillCancel 4 .Sell 99 12).remainingQuantity else 0)
        = restingQty (queued bm.asks_) + tradedQty ts ∧
      ∀ t ∈ ts, t.bidTrade.quantity = t.askTrade.quantity :=
  ⟨exampleBook_reachable, exampleBook_accepts,
    (conservation exampleBook exampleBook_reachable
      (Order.new .GoodTillCancel 4 .Sell 99 12)).2 exampleBook_accepts⟩

/-! ## Further contracts -/

/-- C11. No empty price level: in every book reachable from the empty book by
`AddOrder`, `CancelOrder` and `MatchOrder`, every price that is a key of the bid
map or of the ask map maps to a non-empty queue. -/
theorem no_empty_price_level (b : Orderbook) (hb : Reachable b) :
    (∀ p ∈ levelKeys b.bids_, queueAt b.bids_ p ≠ []) ∧
    (∀ p ∈ levelKeys b.asks_, queueAt b.asks_ p ≠ []) ∧
    (∀ l ∈ b.bids_, l.2 ≠ []) ∧ (∀ l ∈ b.asks_, l.2 ≠ []) := by
  obtain ⟨⟨hs, _, _⟩, hne, _, _⟩ := hb.inv
  have key : ∀ levels : Levels, (levelKeys levels).Nodup → (∀ l ∈ levels, l.2 ≠ []) →
      ∀ p ∈ levelKeys levels, queueAt levels p ≠ [] := by
    intro levels hk hl p hp
    obtain ⟨l, hmem, rfl⟩ := List.mem_map.mp hp
    have := ((mem_levelKeys_iff hk l.1 l.2).mp hmem).2
    rw [this]
    exact hl l hmem
  exact ⟨key _ hs.keysNodup.1 hne.1, key _ hs.keysNodup.2 hne.2, hne.1, hne.2⟩

theorem no_empty_price_level_witness :
    Reachable exampleBook ∧
    (∀ p ∈ levelKeys exampleBook.bids_, queueAt exampleBook.bids_ p ≠ []) ∧
    (∀ p ∈ levelKeys exampleBook.asks_, queueAt exampleBook.asks_ p ≠ []) ∧
    (∀ l ∈ exampleBook.bids_, l.2 ≠ []) ∧ (∀ l ∈ exampleBook.asks_, l.2 ≠ []) :=
  ⟨exampleBook_reachable, no_empty_price_level exampleBook exampleBook_reachable⟩

/-- C15. Modify of an unknown id is a no-op: on every book, `MatchOrder` with a
request whose order id is not in the registry returns no trade and leaves the
queues, the registry and `Size` unchanged. -/
theorem modify_unknown_id_noop (b : Orderbook) (m : OrderModify)
    (habs : b.orders_.contains m.orderId = false) :
    ∃ b1, MatchOrder b m = .ok ([], b1) ∧ b1.bids_ = b.bids_ ∧ b1.asks_ = b.asks_ ∧
      b1.orders_ = b.orders_ ∧ Size b1 = Size b := by
  refine ⟨b, ?_, rfl, rfl, rfl, rfl⟩
  have hlk : b.orders_.lookup m.orderId = none := by
    simpa [Registry.contains] using habs
  unfold MatchOrder
  rw [hlk]

theorem modify_unknown_id_noop_witness :
    exampleBook.orders_.contains (OrderModify.mk 8 .Sell 90 50).orderId = false ∧
    ∃ b1, MatchOrder exampleBook (OrderModify.mk 8 .Sell 90 50) = .ok ([], b1) ∧
      b1.bids_ = exampleBook.bids_ ∧ b1.asks_ = exampleBook.asks_ ∧
      b1.orders_ = exampleBook.orders_ ∧ Size b1 = Size exampleBook :=
  ⟨rfl, modify_unknown_id_noop exampleBook (OrderModify.mk 8 .Sell 90 50) rfl⟩

/-- C19. Full match: for every price p, every quantity q (zero included) and
every two distinct ids i and j, on the empty book `AddOrder` of GoodTillCancel
Buy (i, p, q) returns no trade and leaves that order resting alone, and then
`AddOrder` of GoodTillCancel Sell (j, p, q) returns exactly one trade, of
quantity q, whose buy leg names i and whose sell leg names j, after which `Size`
is 0 and both sides are empty.  In particular for i = 1, j = 2, p = 100,
q = 10. -/
theorem full_match (p : Int) (q i j : Nat) (hij : i ≠ j) :
    AddOrder Orderbook.empty (Order.new .GoodTillCancel i .Buy p q)
      = .ok ([], ⟨[(p, [Order.new .GoodTillCancel i .Buy p q])], [],
          [(i, ⟨.Buy, p, .GoodTillCancel⟩)]⟩) ∧
    (∃ b2, AddOrder ⟨[(p, [Order.new .GoodTillCancel i .Buy p q])], [],
          [(i, ⟨.Buy, p, .GoodTillCancel⟩)]⟩ (Order.new .GoodTillCancel j .Sell p q)
        = .ok ([⟨⟨i, p, q⟩, ⟨j, p, q⟩⟩], b2) ∧
      Size b2 = 0 ∧ b2.bids_ = [] ∧ b2.asks_ = []) ∧
    AddOrder Orderbook.empty (Order.new .GoodTillCancel 1 .Buy 100 10)
      = .ok ([], ⟨[(100, [Order.new .GoodTillCancel 1 .Buy 100 10])], [],
          [(1, ⟨.Buy, 100, .GoodTillCancel⟩)]⟩) ∧
    AddOrder ⟨[(100, [Order.new .GoodTillCancel 1 .Buy 100 10])], [],
          [(1, ⟨.Buy, 100, .GoodTillCancel⟩)]⟩ (Order.new .GoodTillCancel 2 .Sell 100 10)
        = .ok ([⟨⟨1, 100, 10⟩, ⟨2, 100, 10⟩⟩], Orderbook.empty) := by
  refine ⟨rfl, ⟨Orderbook.empty, ?_, rfl, rfl, rfl⟩, rfl, rfl⟩
  have hji : (j == i) = false := by simpa using fun e => hij e.symm
  have hij1 : (i != j) = true := by simpa using hij
  have hadd : AddOrder ⟨[(p, [Order.new .GoodTillCancel i .Buy p q])], [],
      [(i, ⟨.Buy, p, .GoodTillCancel⟩)]⟩ (Order.new .GoodTillCancel j .Sell p q)
      = MatchOrders ⟨[(p, [Order.new .GoodTillCancel i .Buy p q])],
          [(p, [Order.new .GoodTillCancel j .Sell p q])],
          [(j, ⟨.Sell, p, .GoodTillCancel⟩), (i, ⟨.Buy, p, .GoodTillCancel⟩)]⟩ := by
    simp [AddOrder, Registry.contains, List.lookup, Order.new, hji, insertOrder, pushOrder]
  rw [hadd]
  simp only [MatchOrders, List.length_cons, List.length_nil]
  rw [matchLoop]
  simp only [lt_self_iff_false, if_false, List.length_cons, List.length_nil, matchLevel_succ]
  simp [Order.new, Order.reduce, Order.IsFilled, matchLevel, Registry.erase, tradeOf,
    eraseLevel, matchLoop, sweepFront, hij1, Orderbook.empty]

theorem full_match_witness :
    (1 : Nat) ≠ 2 ∧
    AddOrder Orderbook.empty (Order.new .GoodTillCancel 1 .Buy 100 10)
      = .ok ([], ⟨[(100, [Order.new .GoodTillCancel 1 .Buy 100 10])], [],
          [(1, ⟨.Buy, 100, .GoodTillCancel⟩)]⟩) ∧
    ∃ b2, AddOrder ⟨[(100, [Order.new .GoodTillCancel 1 .Buy 100 10])], [],
          [(1, ⟨.Buy, 100, .GoodTillCancel⟩)]⟩ (Order.new .GoodTillCancel 2 .Sell 100 10)
        = .ok ([⟨⟨1, 100, 10⟩, ⟨2, 100, 10⟩⟩], b2) ∧
      Size b2 = 0 ∧ b2.bids_ = [] ∧ b2.asks_ = [] :=
  ⟨by decide, (full_match 100 10 1 2 (by decide)).1, (full_match 100 10 1 2 (by decide)).2.1⟩

/-- On a side kept in key order, pushing an order appends it to the queue at
its price and leaves the queue at every other price as it was. -/
theorem queueAt_pushOrder (before : Int → Int → Bool) (R : Int → Int → Prop) (o : Order)
    (hR : ∀ a c, before o.price a = true → R a c → c ≠ o.price) :
    ∀ (levels : Levels), (levelKeys levels).Pairwise R → ∀ k,
      queueAt (pushOrder before o levels) k =
        if k = o.price then queueAt levels k ++ [o] else queueAt levels k := by
  intro levels
  induction levels with
  | nil =>
    intro _ k
    simp only [pushOrder, queueAt_cons]
    by_cases hk : k = o.price
    · simp [hk, queueAt]
    · simp [hk, queueAt]
  | cons l rest ih =>
    intro hs k
    obtain ⟨p, q⟩ := l
    have hs1 : (∀ c ∈ levelKeys rest, R p c) ∧ (levelKeys rest).Pairwise R :=
      List.pairwise_cons.mp hs
    unfold pushOrder
    by_cases hp : p = o.price
    · rw [if_pos hp, queueAt_cons, queueAt_cons]
      by_cases hk : k = p
      · simp [hk, hp]
      · have hk1 : k ≠ o.price := hp ▸ hk
        simp [hk, hk1]
    · rw [if_neg hp]
      by_cases hb : before o.price p = true
      · rw [if_pos hb, queueAt_cons]
        by_cases hk : k = o.price
        · have hnot : o.price ∉ levelKeys ((p, q) :: rest) := by
            intro hmem
            rcases List.mem_cons.mp hmem with h | h
            · exact hp h.symm
            · exact hR p o.price hb (hs1.1 _ h) rfl
          simp [hk, queueAt_eq_nil hnot]
        · simp [hk]
      · rw [if_neg hb, queueAt_cons, queueAt_cons, ih hs1.2 k]
        by_cases hk : k = p
        · have hk1 : k ≠ o.price := fun e => hp (hk ▸ e)
          simp [hk, hk1, hp]
        · simp [hk]

theorem mem_levelKeys_pushOrder_iff (before : Int → Int → Bool) (o : Order) (levels : Levels)
    (k : Int) :
    k ∈ levelKeys (pushOrder before o levels) ↔ k = o.price ∨ k ∈ levelKeys levels := by
  refine ⟨mem_levelKeys_pushOrder, ?_⟩
  induction levels with
  | nil =>
    rintro (h | h)
    · simp [pushOrder, levelKeys, h]
    · simp [levelKeys] at h
  | cons l rest ih =>
    obtain ⟨p, q⟩ := l
    intro h
    unfold pushOrder
    by_cases hp : p = o.price
    · rw [if_pos hp]
      rcases h with h | h
      · simp [levelKeys, h, hp]
      · simpa [levelKeys] using h
    · rw [if_neg hp]
      by_cases hb : before o.price p = true
      · rw [if_pos hb]
        rcases h with h | h
        · simp [levelKeys, h]
        · exact List.mem_cons_of_mem _ h
      · rw [if_neg hb]
        rcases h with h | h
        · exact List.mem_cons_of_mem _ (ih (Or.inl h))
        · rcases List.mem_cons.mp h with h | h
          · simp [levelKeys, h]
          · exact List.mem_cons_of_mem _ (ih (Or.inr h))

theorem insertOrder_levels (b : Orderbook) (o : Order) :
    (insertOrder b o).levels o.side
        = pushOrder (match o.side with
            | .Buy => bidBefore
            | .Sell => askBefore) o (b.levels o.side) ∧
      (insertOrder b o).levels o.side.opposite = b.levels o.side.opposite := by
  unfold insertOrder
  cases o.side with
  | Buy => exact ⟨rfl, rfl⟩
  | Sell => exact ⟨rfl, rfl⟩

theorem queueAt_insertOrder {b : Orderbook} (hs : Sorted b) (o : Order) (k : Int) :
    queueAt ((insertOrder b o).levels o.side) k =
      if k = o.price then queueAt (b.levels o.side) k ++ [o] else queueAt (b.levels o.side) k := by
  unfold insertOrder
  cases o.side with
  | Buy =>
    refine queueAt_pushOrder bidBefore (fun a c => a > c) o ?_ b.bids_ hs.1 k
    intro a c hb hac e
    simp only [bidBefore, gt_iff_lt, decide_eq_true_eq] at hb
    omega
  | Sell =>
    refine queueAt_pushOrder askBefore (fun a c => a < c) o ?_ b.asks_ hs.2 k
    intro a c hb hac e
    simp only [askBefore, decide_eq_true_eq] at hb
    omega

theorem lookup_insertOrder (b : Orderbook) (o : Order) :
    (insertOrder b o).orders_.lookup o.orderId = some ⟨o.side, o.price, o.orderType⟩ ∧
    ∀ id, id ≠ o.orderId → (insertOrder b o).orders_.lookup id = b.orders_.lookup id := by
  have h : (insertOrder b o).orders_ = (o.orderId, entryOf o) :: b.orders_ := by
    unfold insertOrder entryOf
    cases o.side <;> rfl
  rw [h]
  refine ⟨by simp [entryOf], fun id hid => ?_⟩
  rw [List.lookup_cons]
  have : (id == o.orderId) = false := by simpa using hid
  rw [this]

/-- C20. Non-crossing insertion rests at the back: on every reachable book,
`AddOrder` of a GoodTillCancel order with an unregistered id whose price does
not cross the opposite side (`CanMatch` false) returns no trade; `Size` grows by
exactly one, the order is registered, the queue at the order's price on its side
is the former queue (empty when the level did not exist) with the order appended
at the back, the queue at every other price of that side and the whole opposite
side are as before, so that every previously resting order keeps its side,
level, position and remaining quantity, and the registry entries of the other
ids are as before. -/
theorem non_crossing_insertion_rests_at_back (b : Orderbook) (hb : Reachable b) (o : Order)
    (hty : o.orderType = OrderType.GoodTillCancel)
    (hfresh : b.orders_.contains o.orderId = false)
    (hcan : CanMatch b o.side o.price = false) :
    ∃ b1, AddOrder b o = .ok ([], b1) ∧ Size b1 = Size b + 1 ∧
      queueAt (b1.levels o.side) o.price = queueAt (b.levels o.side) o.price ++ [o] ∧
      (∀ p, p ≠ o.price → queueAt (b1.levels o.side) p = queueAt (b.levels o.side) p) ∧
      b1.levels o.side.opposite = b.levels o.side.opposite ∧
      (∀ p, p ∈ levelKeys (b1.levels o.side) ↔
        p = o.price ∨ p ∈ levelKeys (b.levels o.side)) ∧
      b1.orders_.lookup o.orderId = some ⟨o.side, o.price, o.orderType⟩ ∧
      (∀ id, id ≠ o.orderId → b1.orders_.lookup id = b.orders_.lookup id) := by
  have hinv := hb.inv
  have hadd := AddOrder_resting hinv o hfresh hty hcan
  have hq := queueAt_insertOrder hinv.1.1 o
  refine ⟨insertOrder b o, hadd.1, Size_insertOrder b o, ?_, ?_, (insertOrder_levels b o).2,
    ?_, (lookup_insertOrder b o).1, (lookup_insertOrder b o).2⟩
  · rw [hq, if_pos rfl]
  · intro p hp
    rw [hq, if_neg hp]
  · intro p
    rw [(insertOrder_levels b o).1]
    exact mem_levelKeys_pushOrder_iff _ o _ p

theorem non_crossing_insertion_rests_at_back_witness :
    Reachable exampleBook ∧
    (Order.new .GoodTillCancel 5 .Buy 100 8).orderType = OrderType.GoodTillCancel ∧
    exampleBook.orders_.contains (Order.new .GoodTillCancel 5 .Buy 100 8).orderId = false ∧
    CanMatch exampleBook (Order.new .GoodTillCancel 5 .Buy 100 8).side
      (Order.new .GoodTillCancel 5 .Buy 100 8).price = false ∧
    ∃ b1, AddOrder exampleBook (Order.new .GoodTillCancel 5 .Buy 100 8) = .ok ([], b1) ∧
      Size b1 = Size exampleBook + 1 ∧
      queueAt (b1.levels (Order.new .GoodTillCancel 5 .Buy 100 8).side)
          (Order.new .GoodTillCancel 5 .Buy 100 8).price
        = queueAt (exampleBook.levels (Order.new .GoodTillCancel 5 .Buy 100 8).side)
            (Order.new .GoodTillCancel 5 .Buy 100 8).price
          ++ [Order.new .GoodTillCancel 5 .Buy 100 8] ∧
      (∀ p, p ≠ (Order.new .GoodTillCancel 5 .Buy 100 8).price →
        queueAt (b1.levels (Order.new .GoodTillCancel 5 .Buy 100 8).side) p
          = queueAt (exampleBook.levels (Order.new .GoodTillCancel 5 .Buy 100 8).side) p) ∧
      b1.levels (Order.new .GoodTillCancel 5 .Buy 100 8).side.opposite
        = exampleBook.levels (Order.new .GoodTillCancel 5 .Buy 100 8).side.opposite ∧
      (∀ p, p ∈ levelKeys (b1.levels (Order.new .GoodTillCancel 5 .Buy 100 8).side) ↔
        p = (Order.new .GoodTillCancel 5 .Buy 100 8).price ∨
          p ∈ levelKeys (exampleBook.levels (Order.new .GoodTillCancel 5 .Buy 100 8).side)) ∧
      b1.orders_.lookup (Order.new .GoodTillCancel 5 .Buy 100 8).orderId
        = some ⟨(Order.new .GoodTillCancel 5 .Buy 100 8).side,
            (Order.new .GoodTillCancel 5 .Buy 100 8).price,
            (Order.new .GoodTillCancel 5 .Buy 100 8).orderType⟩ ∧
      (∀ id, id ≠ (Order.new .GoodTillCancel 5 .Buy 100 8).orderId →
        b1.orders_.lookup id = exampleBook.orders_.lookup id) :=
  ⟨exampleBook_reachable, rfl, rfl, rfl,
    non_crossing_insertion_rests_at_back exampleBook exampleBook_reachable
      (Order.new .GoodTillCancel 5 .Buy 100 8) rfl rfl rfl⟩

theorem lookup_of_resting {resting : List Order} {orders : Registry}
    (hr : RegistryOK resting orders) {o : Order} (ho : o ∈ resting) :
    orders.lookup o.orderId = some (entryOf o) := by
  have hmem : (o.orderId, entryOf o) ∈ orders := (hr.2.2 _ _).mpr ⟨o, ho, rfl, rfl⟩
  cases hlk : orders.lookup o.orderId with
  | none =>
    rw [List.lookup_eq_none_iff] at hlk
    simpa using hlk _ hmem
  | some e =>
    obtain ⟨o1, ho1, hid1, he1⟩ := (hr.2.2 _ _).mp (mem_of_lookup_eq_some hlk)
    have : o1 = o := List.inj_on_of_nodup_map hr.1 ho1 ho hid1
    rw [← he1, this]

/-- Price-time priority on a book of the invariant: with A before B in a level,
a trade of `AddOrder` names B only if the trades naming A add up to all that A
had remaining and A has left the book, and the trades naming A come first. -/
theorem AddOrder_priority {b : Orderbook} (hinv : Inv b) (p : Int)
    (l1 l2 l3 : List Order) (A B : Order)
    (hlevel : (p, l1 ++ A :: l2 ++ B :: l3) ∈ b.bids_ ∨
      (p, l1 ++ A :: l2 ++ B :: l3) ∈ b.asks_)
    (o : Order) :
    ∃ ts b1, AddOrder b o = .ok (ts, b1) ∧ Inv b1 ∧
      ((∃ t ∈ ts, t.names B.orderId = true) →
        filledQty A.orderId ts = A.remainingQuantity ∧
        b1.orders_.contains A.orderId = false ∧
        ∀ x ∈ b1.resting, x.orderId ≠ A.orderId) ∧
      ∀ (i j : Nat) (hi : i < ts.length) (hj : j < ts.length),
        ts[i].names A.orderId = true → ts[j].names B.orderId = true → i < j := by
  by_cases hacc : Accepted b o
  · obtain ⟨ts, bm, hrun, _, _, _, _, hadd, hi⟩ := AddOrder_accepted_spec hinv hacc
    have hins := insertOrder_consistent hinv.1 hinv.2.1 o hacc.1
    have hsub := queued_sublist_insertOrder b o
    have hA0 : A ∈ b.resting := by
      rcases hlevel with h | h
      · exact List.mem_append_left _ ((level_sublist_queued h).subset (by simp))
      · exact List.mem_append_right _ ((level_sublist_queued h).subset (by simp))
    have hP0 : Priority A.orderId B.orderId A.remainingQuantity (view (insertOrder b o, [])) := by
      left
      refine ⟨?_, by simp [view], A, (insertOrder_resting b o A).mpr (Or.inr hA0), rfl, ?_⟩
      · rcases hlevel with h | h
        · exact Or.inl ((Ahead.of_level h).trans (hsub.1.map _))
        · exact Or.inr ((Ahead.of_level h).trans (hsub.2.map _))
      · simp [view, filledQty, tradedQty]
    have hP := hrun.priority hins.1 hP0
    have hrest : ∀ x ∈ (if o.orderType = OrderType.FillAndKill then bm.without o.orderId
        else bm).resting, x ∈ bm.resting := by
      intro x hx
      by_cases hty : o.orderType = OrderType.FillAndKill
      · rw [if_pos hty, Orderbook.resting_without] at hx
        exact (List.mem_filter.mp hx).1
      · rwa [if_neg hty] at hx
    refine ⟨ts, _, hadd, hi, ?_, ?_⟩
    · rintro ⟨t, ht, htB⟩
      rcases hP with ⟨_, hnc, _⟩ | ⟨hgone, hsum, _⟩
      · rw [hnc t ht] at htB; cases htB
      · have hgone1 : ∀ x ∈ (if o.orderType = OrderType.FillAndKill then bm.without o.orderId
            else bm).resting, x.orderId ≠ A.orderId := fun x hx => hgone x (hrest x hx)
        refine ⟨hsum, ?_, hgone1⟩
        cases hc : Registry.contains
            (if o.orderType = OrderType.FillAndKill then bm.without o.orderId
              else bm).orders_ A.orderId with
        | false => rfl
        | true =>
          obtain ⟨x, hx, hid⟩ := (hi.1.2.2.contains_iff A.orderId).mp hc
          exact absurd hid (hgone1 x hx)
    · rcases hP with ⟨_, hnc, _⟩ | ⟨_, _, ts1, ts2, hts, h1, h2⟩
      · intro i j hi hj _ hjB
        rw [hnc _ (List.getElem_mem hj)] at hjB
        cases hjB
      · exact trades_ordered_of_split hts h1 h2
  · refine ⟨[], b, AddOrder_rejected hacc, hinv, ?_, ?_⟩
    · rintro ⟨t, ht, _⟩; cases ht
    · intro i j hi; cases hi

theorem filter_ne_of_nodup (l1 r : List Order) (X : Order)
    (h : ((l1 ++ X :: r).map (fun o => o.orderId)).Nodup) :
    (l1 ++ X :: r).filter (fun o => o.orderId != X.orderId) = l1 ++ r := by
  rw [List.map_append, List.map_cons] at h
  have h1 := List.nodup_middle.mp h
  rw [← List.map_append, List.nodup_cons] at h1
  have hne : ∀ o ∈ l1 ++ r, o.orderId ≠ X.orderId := fun o ho e =>
    h1.1 (e ▸ List.mem_map_of_mem (fun o => o.orderId) ho)
  rw [List.filter_append, List.filter_cons_of_neg (by simp), ← List.filter_append]
  exact List.filter_eq_self.mpr (fun o ho => by simpa using hne o ho)

theorem Orderbook.resting_of_level {b : Orderbook} {s : Side} {l : Int × OrderPointers}
    (hl : l ∈ b.levels s) : ∀ o ∈ l.2, o ∈ b.resting := by
  intro o ho
  cases s with
  | Buy => exact List.mem_append_left _ (mem_queued.mpr ⟨l, hl, ho⟩)
  | Sell => exact List.mem_append_right _ (mem_queued.mpr ⟨l, hl, ho⟩)

theorem Orderbook.levels_without (b : Orderbook) (id : Nat) (s : Side) :
    (b.without id).levels s = removeId id (b.levels s) := by
  cases s <;> rfl

theorem Inv.level_facts {b : Orderbook} (hinv : Inv b) (s : Side) :
    (levelKeys (b.levels s)).Nodup ∧
    (∀ l ∈ b.levels s, ((l.2).map (fun o => o.orderId)).Nodup) ∧
    (∀ l ∈ b.levels s, ∀ o ∈ l.2, o.side = s ∧ o.price = l.1) := by
  have hids := hinv.1.2.2.1
  rw [Orderbook.resting, List.map_append, List.nodup_append] at hids
  cases s with
  | Buy =>
    exact ⟨hinv.1.1.keysNodup.1,
      fun l hl => hids.1.sublist ((level_sublist_queued hl).map _), hinv.1.2.1.1⟩
  | Sell =>
    exact ⟨hinv.1.1.keysNodup.2,
      fun l hl => hids.2.1.sublist ((level_sublist_queued hl).map _), hinv.1.2.1.2⟩

theorem CanMatch_false_of_level {b : Orderbook} (hun : Uncrossed b) {s : Side} {p : Int}
    (hp : p ∈ levelKeys (b.levels s)) : CanMatch b s p = false := by
  rw [CanMatch_eq_false_iff]
  obtain ⟨l, hl, rfl⟩ := List.mem_map.mp hp
  cases s with
  | Buy =>
    exact Or.inl ⟨rfl, fun al hal => hun l hl al (List.mem_of_mem_head? hal)⟩
  | Sell =>
    exact Or.inr ⟨rfl, fun bl hbl => hun bl (List.mem_of_mem_head? hbl) l hl⟩

/-- A modify of a resting order X at the price of a level that holds another
order keeps that price: on a book of the invariant `MatchOrder` returns no
trade, and the book left is the book without X with the replacement inserted. -/
theorem MatchOrder_same_level {b : Orderbook} (hinv : Inv b) (s : Side) (p : Int)
    (l1 r : List Order) (X : Order) (hr : r ≠ [])
    (hlevel : (p, l1 ++ X :: r) ∈ b.levels s) (q : Nat) :
    MatchOrder b ⟨X.orderId, s, p, q⟩
      = .ok ([], insertOrder (b.without X.orderId) (Order.new X.orderType X.orderId s p q)) ∧
    Inv (insertOrder (b.without X.orderId) (Order.new X.orderType X.orderId s p q)) ∧
    queueAt ((insertOrder (b.without X.orderId)
        (Order.new X.orderType X.orderId s p q)).levels s) p
      = l1 ++ r ++ [Order.new X.orderType X.orderId s p q] := by
  have hX : X ∈ b.resting := Orderbook.resting_of_level hlevel X (by simp)
  have hlk := lookup_of_resting hinv.1.2.2 hX
  have hfacts := hinv.level_facts s
  have hcancel := CancelOrder_inv hinv X.orderId
  have hq0 : queueAt (b.levels s) p = l1 ++ X :: r :=
    ((mem_levelKeys_iff hfacts.1 p _).mp hlevel).2
  have hq1 : queueAt ((b.without X.orderId).levels s) p = l1 ++ r := by
    rw [Orderbook.levels_without, queueAt_removeId _ _ hfacts.1, hq0]
    exact filter_ne_of_nodup l1 r X (hfacts.2.1 _ hlevel)
  have hkey : p ∈ levelKeys ((b.without X.orderId).levels s) := by
    by_contra hnot
    rw [queueAt_eq_nil hnot] at hq1
    have : r = [] := (List.append_eq_nil.mp hq1.symm).2
    exact hr this
  have hcan : CanMatch (b.without X.orderId) s p = false :=
    CanMatch_false_of_level hcancel.2.2.2.1 hkey
  have hfresh : (b.without X.orderId).orders_.contains X.orderId = false := by
    simp [Registry.contains, Orderbook.without, Registry.lookup_erase_self]
  have hadd := AddOrder_resting hcancel.2 (Order.new X.orderType X.orderId s p q) hfresh
    (hinv.2.2.2 X hX) hcan
  refine ⟨?_, hadd.2, ?_⟩
  · unfold MatchOrder
    rw [hlk]
    simp only [hcancel.1]
    exact hadd.1
  · have := queueAt_insertOrder hcancel.2.1.1 (Order.new X.orderType X.orderId s p q) p
    simp only [Order.new] at this ⊢
    rw [this, if_pos True.intro, hq1]

/-- C16. Modify loses time priority: on every reachable book in which X rests
ahead of Y in the level at price p of a side, `MatchOrder` on X's id with that
side, price p and any new quantity returns no trade and leaves, at level p, the
former queue without X and with the replacement (X's id, X's order type,
remaining quantity the new quantity) at the back, behind Y; in any later
`AddOrder` a trade names X only if Y has been filled completely and has left the
book, and the trades naming Y come first.  In particular: after Buy id 1 at 100
for 10, Buy id 2 at 100 for 5 and the modify of id 1 to 100 for 3, a Sell of 4
at 100 produces one trade of quantity 4 against order 2 and leaves order 2 with
1 remaining ahead of order 1 with 3 remaining. -/
theorem modify_loses_time_priority (b : Orderbook) (hb : Reachable b) (s : Side) (p : Int)
    (l1 l2 l3 : List Order) (X Y : Order)
    (hlevel : (p, l1 ++ X :: l2 ++ Y :: l3) ∈ b.levels s) (q : Nat) :
    (∃ b1, MatchOrder b ⟨X.orderId, s, p, q⟩ = .ok ([], b1) ∧
      queueAt (b1.levels s) p
        = l1 ++ l2 ++ Y :: l3 ++ [Order.new X.orderType X.orderId s p q] ∧
      ∀ o : Order, ∃ ts b2, AddOrder b1 o = .ok (ts, b2) ∧
        ((∃ t ∈ ts, t.names X.orderId = true) →
          filledQty Y.orderId ts = Y.remainingQuantity ∧
          b2.orders_.contains Y.orderId = false ∧
          ∀ x ∈ b2.resting, x.orderId ≠ Y.orderId) ∧
        ∀ (i j : Nat) (hi : i < ts.length) (hj : j < ts.length),
          ts[i].names Y.orderId = true → ts[j].names X.orderId = true → i < j) ∧
    MatchOrder priorityBook ⟨1, .Buy, 100, 3⟩
      = .ok ([], ⟨[(100, [Order.new .GoodTillCancel 2 .Buy 100 5,
                          Order.new .GoodTillCancel 1 .Buy 100 3])], [],
          [(1, ⟨.Buy, 100, .GoodTillCancel⟩), (2, ⟨.Buy, 100, .GoodTillCancel⟩)]⟩) ∧
    AddOrder ⟨[(100, [Order.new .GoodTillCancel 2 .Buy 100 5,
                      Order.new .GoodTillCancel 1 .Buy 100 3])], [],
          [(1, ⟨.Buy, 100, .GoodTillCancel⟩), (2, ⟨.Buy, 100, .GoodTillCancel⟩)]⟩
        (Order.new .GoodTillCancel 3 .Sell 100 4)
      = .ok ([⟨⟨2, 100, 4⟩, ⟨3, 100, 4⟩⟩],
          ⟨[(100, [⟨.GoodTillCancel, 2, .Buy, 100, 5, 1⟩,
                   Order.new .GoodTillCancel 1 .Buy 100 3])], [],
            [(1, ⟨.Buy, 100, .GoodTillCancel⟩), (2, ⟨.Buy, 100, .GoodTillCancel⟩)]⟩) := by
  refine ⟨?_, rfl, rfl⟩
  have hinv := hb.inv
  have hlevel1 : (p, l1 ++ X :: (l2 ++ Y :: l3)) ∈ b.levels s := by
    simpa using hlevel
  obtain ⟨hm, hinv1, hq⟩ := MatchOrder_same_level hinv s p l1 (l2 ++ Y :: l3) X (by simp)
    hlevel1 q
  have hq1 : queueAt ((insertOrder (b.without X.orderId)
      (Order.new X.orderType X.orderId s p q)).levels s) p
      = l1 ++ l2 ++ Y :: l3 ++ [Order.new X.orderType X.orderId s p q] := by
    rw [hq]; simp
  refine ⟨_, hm, hq1, fun o => ?_⟩
  have hkeys := (hinv1.level_facts s).1
  have hmem : (p, l1 ++ l2 ++ Y :: l3 ++ Order.new X.orderType X.orderId s p q :: [])
      ∈ (insertOrder (b.without X.orderId) (Order.new X.orderType X.orderId s p q)).levels s := by
    rw [mem_levelKeys_iff hkeys]
    refine ⟨?_, hq1⟩
    by_contra hnot
    rw [queueAt_eq_nil hnot] at hq1
    simp at hq1
  have hside : (p, l1 ++ l2 ++ Y :: l3 ++ Order.new X.orderType X.orderId s p q :: [])
        ∈ (insertOrder (b.without X.orderId) (Order.new X.orderType X.orderId s p q)).bids_ ∨
      (p, l1 ++ l2 ++ Y :: l3 ++ Order.new X.orderType X.orderId s p q :: [])
        ∈ (insertOrder (b.without X.orderId) (Order.new X.orderType X.orderId s p q)).asks_ := by
    cases s with
    | Buy => exact Or.inl hmem
    | Sell => exact Or.inr hmem
  obtain ⟨ts, b2, h1, _, h3, h4⟩ := AddOrder_priority hinv1 p (l1 ++ l2) l3 []
    Y (Order.new X.orderType X.orderId s p q) hside o
  exact ⟨ts, b2, h1, h3, h4⟩

theorem modify_loses_time_priority_witness :
    Reachable priorityBook ∧
    (100, [] ++ Order.new .GoodTillCancel 1 .Buy 100 10 :: [] ++
        Order.new .GoodTillCancel 2 .Buy 100 5 :: []) ∈ priorityBook.levels .Buy ∧
    ∃ b1, MatchOrder priorityBook
        ⟨(Order.new .GoodTillCancel 1 .Buy 100 10).orderId, .Buy, 100, 3⟩ = .ok ([], b1) ∧
      queueAt (b1.levels .Buy) 100
        = [] ++ [] ++ Order.new .GoodTillCancel 2 .Buy 100 5 :: [] ++
          [Order.new (Order.new .GoodTillCancel 1 .Buy 100 10).orderType
            (Order.new .GoodTillCancel 1 .Buy 100 10).orderId .Buy 100 3] ∧
      ∀ o : Order, ∃ ts b2, AddOrder b1 o = .ok (ts, b2) ∧
        ((∃ t ∈ ts, t.names (Order.new .GoodTillCancel 1 .Buy 100 10).orderId = true) →
          filledQty (Order.new .GoodTillCancel 2 .Buy 100 5).orderId ts
            = (Order.new .GoodTillCancel 2 .Buy 100 5).remainingQuantity ∧
          b2.orders_.contains (Order.new .GoodTillCancel 2 .Buy 100 5).orderId = false ∧
          ∀ x ∈ b2.resting, x.orderId ≠ (Order.new .GoodTillCancel 2 .Buy 100 5).orderId) ∧
        ∀ (i j : Nat) (hi : i < ts.length) (hj : j < ts.length),
          ts[i].names (Order.new .GoodTillCancel 2 .Buy 100 5).orderId = true →
          ts[j].names (Order.new .GoodTillCancel 1 .Buy 100 10).orderId = true → i < j :=
  ⟨priorityBook_reachable, by decide,
    (modify_loses_time_priority priorityBook priorityBook_reachable .Buy 100 [] [] []
      (Order.new .GoodTillCancel 1 .Buy 100 10) (Order.new .GoodTillCancel 2 .Buy 100 5)
      (by decide) 3).1⟩

/-! ### Snapshot -/

theorem foldl_mod_sum (m : Nat) (l : List Order) (acc : Nat) :
    l.foldl (fun runningSum order => (runningSum + order.remainingQuantity) % m) acc % m
      = (acc + restingQty l) % m := by
  induction l generalizing acc with
  | nil => simp [restingQty]
  | cons o l ih =>
    rw [List.foldl_cons, ih, restingQty_cons, Nat.mod_add_mod]
    congr 1
    omega

theorem CreateLevelInfos_eq (w : Nat) (price : Int) (orders : OrderPointers) :
    CreateLevelInfos w price orders = ⟨price, restingQty orders % 2 ^ w⟩ := by
  unfold CreateLevelInfos
  congr 1
  have h := foldl_mod_sum (2 ^ w) orders 0
  rw [Nat.zero_add] at h
  rw [← h]
  cases orders using List.reverseRecOn with
  | nil => simp [Nat.zero_mod]
  | append_singleton l o _ =>
    rw [List.foldl_append]
    simp only [List.foldl_cons, List.foldl_nil, Nat.mod_mod]

theorem overflowBook_reachable : Reachable overflowBook :=
  Reachable.add (Order.new .GoodTillCancel 2 .Buy 100 2147483648) []
    (Reachable.add (Order.new .GoodTillCancel 1 .Buy 100 2147483648) [] Reachable.empty rfl) rfl

/-- C17 (amended). Snapshot aggregates: for every book and every width of the
quantity type, `GetOrderInfos` returns exactly one entry per bid level and one
per ask level, in the order of the levels, each carrying the price of its level
and the sum of the remaining quantities of the orders of that level reduced
modulo 2 to the width, hence the sum itself whenever the sum is representable.
In particular after Buy id 1 (99, 10), Buy id 2 (100, 5), Sell id 3 (101, 7) the
bids are [(100, 5), (99, 10)] and the asks are [(101, 7)]. -/
theorem snapshot_aggregates (w : Nat) (b : Orderbook) :
    (GetOrderInfos w b).bids_ = b.bids_.map (fun l => ⟨l.1, restingQty l.2 % 2 ^ w⟩) ∧
    (GetOrderInfos w b).asks_ = b.asks_.map (fun l => ⟨l.1, restingQty l.2 % 2 ^ w⟩) ∧
    ((∀ l ∈ b.bids_ ++ b.asks_, restingQty l.2 < 2 ^ w) →
      (GetOrderInfos w b).bids_ = b.bids_.map (fun l => ⟨l.1, restingQty l.2⟩) ∧
      (GetOrderInfos w b).asks_ = b.asks_.map (fun l => ⟨l.1, restingQty l.2⟩)) ∧
    (GetOrderInfos 32 exampleBook).bids_ = [⟨100, 5⟩, ⟨99, 10⟩] ∧
    (GetOrderInfos 32 exampleBook).asks_ = [⟨101, 7⟩] := by
  have h1 : (GetOrderInfos w b).bids_ = b.bids_.map (fun l => ⟨l.1, restingQty l.2 % 2 ^ w⟩) := by
    simp only [GetOrderInfos, CreateLevelInfos_eq]
  have h2 : (GetOrderInfos w b).asks_ = b.asks_.map (fun l => ⟨l.1, restingQty l.2 % 2 ^ w⟩) := by
    simp only [GetOrderInfos, CreateLevelInfos_eq]
  refine ⟨h1, h2, fun hfit => ⟨?_, ?_⟩, rfl, rfl⟩
  · rw [h1]
    refine List.map_congr_left (fun l hl => ?_)
    rw [Nat.mod_eq_of_lt (hfit l (List.mem_append_left _ hl))]
  · rw [h2]
    refine List.map_congr_left (fun l hl => ?_)
    rw [Nat.mod_eq_of_lt (hfit l (List.mem_append_right _ hl))]

theorem snapshot_aggregates_witness :
    (∀ l ∈ exampleBook.bids_ ++ exampleBook.asks_, restingQty l.2 < 2 ^ 32) ∧
    (GetOrderInfos 32 exampleBook).bids_
      = exampleBook.bids_.map (fun l => ⟨l.1, restingQty l.2⟩) ∧
    (GetOrderInfos 32 exampleBook).asks_
      = exampleBook.asks_.map (fun l => ⟨l.1, restingQty l.2⟩) :=
  ⟨by decide, (snapshot_aggregates 32 exampleBook).2.2.1 (by decide)⟩

/-- C17, as stated, fails when the sum of a level does not fit the quantity
type: with a 32-bit quantity, on the reachable book holding two buy orders of
2147483648 each at price 100 (each quantity representable), the snapshot entry
of level 100 carries quantity 0, while the remaining quantities of the level add
up to 4294967296. -/
theorem snapshot_sum_overflow_counterexample :
    Reachable overflowBook ∧
    (∀ o ∈ overflowBook.resting, o.remainingQuantity < 2 ^ 32) ∧
    (GetOrderInfos 32 overflowBook).bids_ = [⟨100, 0⟩] ∧
    restingQty (queueAt overflowBook.bids_ 100) = 4294967296 :=
  ⟨overflowBook_reachable, by decide, by decide, by decide⟩

theorem halfRangeBook_reachable (w : Nat) : Reachable (halfRangeBook w) :=
  Reachable.add (Order.new .GoodTillCancel 2 .Buy 100 (2 ^ (w - 1))) []
    (Reachable.add (Order.new .GoodTillCancel 1 .Buy 100 (2 ^ (w - 1))) [] Reachable.empty rfl)
    rfl

/-- Whatever the width of the quantity type, two resting orders of half its
range at one price make the snapshot quantity of that price wrap to 0. -/
theorem snapshot_wraps_at_any_width (w : Nat) (hw : 0 < w) :
    Reachable (halfRangeBook w) ∧
    (∀ o ∈ (halfRangeBook w).resting, o.remainingQuantity < 2 ^ w) ∧
    (GetOrderInfos w (halfRangeBook w)).bids_ = [⟨100, 0⟩] ∧
    restingQty (queueAt (halfRangeBook w).bids_ 100) = 2 ^ w := by
  have hpow : 2 ^ (w - 1) + 2 ^ (w - 1) = 2 ^ w := by
    obtain ⟨k, rfl⟩ : ∃ k, w = k + 1 := ⟨w - 1, by omega⟩
    simp only [Nat.add_sub_cancel, Nat.pow_succ]
    omega
  have hlt : 2 ^ (w - 1) < 2 ^ w := by
    have : 0 < 2 ^ (w - 1) := Nat.pow_pos (by decide)
    omega
  have hsum : restingQty (queueAt (halfRangeBook w).bids_ 100) = 2 ^ w := by
    simp [halfRangeBook, queueAt, restingQty, Order.new, hpow]
  refine ⟨halfRangeBook_reachable w, ?_, ?_, hsum⟩
  · intro o ho
    simp only [halfRangeBook, Orderbook.resting, queued, List.append_nil, List.mem_cons,
      List.mem_singleton, List.not_mem_nil, or_false] at ho
    rcases ho with rfl | rfl
    · exact hlt
    · exact hlt
  · simp [GetOrderInfos, CreateLevelInfos_eq, halfRangeBook, restingQty, Order.new, hpow]

theorem GetOrderInfos_prices (w : Nat) (b : Orderbook) :
    (GetOrderInfos w b).bids_.map (fun e => e.price_) = levelKeys b.bids_ ∧
    (GetOrderInfos w b).asks_.map (fun e => e.price_) = levelKeys b.asks_ := by
  simp [GetOrderInfos, CreateLevelInfos, levelKeys, List.map_map, Function.comp_def]

/-- C18. Snapshot order: for every reachable book (and every width of the
quantity type), the prices of the bid sequence returned by `GetOrderInfos` are
the bid levels of the book and strictly decrease, and the prices of the ask
sequence are the ask levels and strictly increase: best first on both sides, no
price repeated within a side. -/
theorem snapshot_order (w : Nat) (b : Orderbook) (hb : Reachable b) :
    ((GetOrderInfos w b).bids_.map (fun e => e.price_)).Pairwise (fun a c => a > c) ∧
    ((GetOrderInfos w b).asks_.map (fun e => e.price_)).Pairwise (fun a c => a < c) ∧
    (GetOrderInfos w b).bids_.map (fun e => e.price_) = levelKeys b.bids_ ∧
    (GetOrderInfos w b).asks_.map (fun e => e.price_) = levelKeys b.asks_ := by
  have hs := hb.inv.1.1
  have hp := GetOrderInfos_prices w b
  refine ⟨?_, ?_, hp.1, hp.2⟩
  · rw [hp.1]; exact hs.1
  · rw [hp.2]; exact hs.2

theorem snapshot_order_witness :
    Reachable exampleBook ∧
    ((GetOrderInfos 32 exampleBook).bids_.map (fun e => e.price_)).Pairwise
      (fun a c => a > c) ∧
    ((GetOrderInfos 32 exampleBook).asks_.map (fun e => e.price_)).Pairwise
      (fun a c => a < c) ∧
    (GetOrderInfos 32 exampleBook).bids_.map (fun e => e.price_) = levelKeys exampleBook.bids_ ∧
    (GetOrderInfos 32 exampleBook).asks_.map (fun e => e.price_) = levelKeys exampleBook.asks_ :=
  ⟨exampleBook_reachable, snapshot_order 32 exampleBook exampleBook_reachable⟩

/-! ### Price priority in the trade sequence -/

theorem Micro.pricePriority_step {s s1 : Orderbook × Trades} (h : Micro s s1)
    (hs : Sorted s.1) (ht : Tagged s.1) (hP : PricePriority s) : PricePriority s1 := by
  obtain ⟨h1, h2, h3, h4⟩ := hP
  cases h with
  | trade bp ap bid ask bq aq rb ra orders ts hcross =>
    have hbp : bid.price = bp :=
      (ht.1 (bp, bid :: bq) (List.mem_cons_self _ _) bid (List.mem_cons_self _ _)).2
    have hap : ask.price = ap :=
      (ht.2 (ap, ask :: aq) (List.mem_cons_self _ _) ask (List.mem_cons_self _ _)).2
    have hbmax : ∀ k ∈ levelKeys ((bp, bid :: bq) :: rb), k ≤ bp := by
      intro k hk
      rcases List.mem_cons.mp hk with rfl | hk
      · exact le_rfl
      · exact le_of_lt ((List.pairwise_cons.mp hs.1).1 k hk)
    have hamin : ∀ k ∈ levelKeys ((ap, ask :: aq) :: ra), ap ≤ k := by
      intro k hk
      rcases List.mem_cons.mp hk with rfl | hk
      · exact le_rfl
      · exact le_of_lt ((List.pairwise_cons.mp hs.2).1 k hk)
    have hkb : bp ∈ levelKeys ((bp, bid :: bq) :: rb) := List.mem_cons_self _ _
    have hka : ap ∈ levelKeys ((ap, ask :: aq) :: ra) := List.mem_cons_self _ _
    refine ⟨?_, ?_, ?_, ?_⟩
    · simp only [List.map_append, List.map_cons, List.map_nil]
      refine List.pairwise_append.mpr ⟨h1, List.pairwise_singleton _ _, ?_⟩
      intro a ha c hc
      obtain ⟨t, ht1, rfl⟩ := List.mem_map.mp ha
      rw [List.mem_singleton.mp hc]
      simp only [tradeOf, hbp]
      exact h3 t ht1 bp hkb
    · simp only [List.map_append, List.map_cons, List.map_nil]
      refine List.pairwise_append.mpr ⟨h2, List.pairwise_singleton _ _, ?_⟩
      intro a ha c hc
      obtain ⟨t, ht1, rfl⟩ := List.mem_map.mp ha
      rw [List.mem_singleton.mp hc]
      simp only [tradeOf, hap]
      exact h4 t ht1 ap hka
    · intro t ht1 k hk
      rcases List.mem_append.mp ht1 with ht1 | ht1
      · exact h3 t ht1 k hk
      · rw [List.mem_singleton.mp ht1]
        simp only [tradeOf, hbp]
        exact hbmax k hk
    · intro t ht1 k hk
      rcases List.mem_append.mp ht1 with ht1 | ht1
      · exact h4 t ht1 k hk
      · rw [List.mem_singleton.mp ht1]
        simp only [tradeOf, hap]
        exact hamin k hk
  | popBid bp bid bq rb asks orders ts hfilled => exact ⟨h1, h2, h3, h4⟩
  | popAsk ap ask aq bids ra orders ts hfilled => exact ⟨h1, h2, h3, h4⟩
  | dropBid bp rb asks orders ts =>
    exact ⟨h1, h2, fun t ht1 k hk => h3 t ht1 k (List.mem_cons_of_mem _ hk), h4⟩
  | dropAsk ap bids ra orders ts =>
    exact ⟨h1, h2, h3, fun t ht1 k hk => h4 t ht1 k (List.mem_cons_of_mem _ hk)⟩

theorem Run.pricePriority {s s1 : Orderbook × Trades} (h : Run s s1)
    (hc : Consistent s.1) (hP : PricePriority s) : PricePriority s1 := by
  have key : Consistent s1.1 ∧ PricePriority s1 := by
    refine Run.preserves (P := fun s => Consistent s.1 ∧ PricePriority s) ?_ h ⟨hc, hP⟩
    intro s2 s3 hm hs
    exact ⟨hm.keeps_consistent hs.1, hm.pricePriority_step hs.1.1 hs.1.2.1 hs.2⟩
  exact key.2

theorem AddOrder_pricePriority {b : Orderbook} (hinv : Inv b) (o : Order) :
    ∃ ts b1, AddOrder b o = .ok (ts, b1) ∧
      (ts.map (fun t => t.bidTrade.price)).Pairwise (fun a c => a ≥ c) ∧
      (ts.map (fun t => t.askTrade.price)).Pairwise (fun a c => a ≤ c) ∧
      (∀ t ∈ ts, ∀ k ∈ levelKeys b1.bids_, k ≤ t.bidTrade.price) ∧
      (∀ t ∈ ts, ∀ k ∈ levelKeys b1.asks_, t.askTrade.price ≤ k) := by
  by_cases hacc : Accepted b o
  · obtain ⟨ts, bm, hrun, _, _, _, _, hadd, _⟩ := AddOrder_accepted_spec hinv hacc
    have hins := insertOrder_consistent hinv.1 hinv.2.1 o hacc.1
    have hP := hrun.pricePriority hins.1 (by simp [PricePriority])
    have hkeys : (∀ k ∈ levelKeys (if o.orderType = OrderType.FillAndKill
          then bm.without o.orderId else bm).bids_, k ∈ levelKeys bm.bids_) ∧
        (∀ k ∈ levelKeys (if o.orderType = OrderType.FillAndKill
          then bm.without o.orderId else bm).asks_, k ∈ levelKeys bm.asks_) := by
      by_cases hty : o.orderType = OrderType.FillAndKill
      · simp only [if_pos hty, Orderbook.without]
        exact ⟨fun k hk => (levelKeys_removeId_sublist _ _).subset hk,
          fun k hk => (levelKeys_removeId_sublist _ _).subset hk⟩
      · simp only [if_neg hty]
        exact ⟨fun k hk => hk, fun k hk => hk⟩
    exact ⟨ts, _, hadd, hP.1, hP.2.1, fun t ht k hk => hP.2.2.1 t ht k (hkeys.1 k hk),
      fun t ht k hk => hP.2.2.2 t ht k (hkeys.2 k hk)⟩
  · exact ⟨[], b, AddOrder_rejected hacc, by simp, by simp, by simp, by simp⟩

/-- C14. Price priority in the trade sequence: on every reachable book and for
every incoming order, `AddOrder` returns, the buy-leg prices of the returned
trades form a non-increasing sequence and the sell-leg prices a non-decreasing
sequence (in particular the buy-leg prices for an incoming sell order and the
sell-leg prices for an incoming buy order), and no level left in the book is
priced better than a level a returned trade was made at: a better level is
exhausted before a worse one is touched. -/
theorem price_priority_in_trades (b : Orderbook) (hb : Reachable b) (o : Order) :
    ∃ ts b1, AddOrder b o = .ok (ts, b1) ∧
      (ts.map (fun t => t.bidTrade.price)).Pairwise (fun a c => a ≥ c) ∧
      (ts.map (fun t => t.askTrade.price)).Pairwise (fun a c => a ≤ c) ∧
      (∀ t ∈ ts, ∀ k ∈ levelKeys b1.bids_, k ≤ t.bidTrade.price) ∧
      (∀ t ∈ ts, ∀ k ∈ levelKeys b1.asks_, t.askTrade.price ≤ k) := by
  obtain ⟨ts, b1, h1, h2, h3, h4, h5⟩ := AddOrder_pricePriority hb.inv o
  exact ⟨ts, b1, h1, h2, h3, h4, h5⟩

theorem price_priority_in_trades_witness :
    Reachable exampleBook ∧
    ∃ ts b1, AddOrder exampleBook (Order.new .GoodTillCancel 4 .Sell 99 12) = .ok (ts, b1) ∧
      (ts.map (fun t => t.bidTrade.price)).Pairwise (fun a c => a ≥ c) ∧
      (ts.map (fun t => t.askTrade.price)).Pairwise (fun a c => a ≤ c) ∧
      (∀ t ∈ ts, ∀ k ∈ levelKeys b1.bids_, k ≤ t.bidTrade.price) ∧
      (∀ t ∈ ts, ∀ k ∈ levelKeys b1.asks_, t.askTrade.price ≤ k) :=
  ⟨exampleBook_reachable,
    price_priority_in_trades exampleBook exampleBook_reachable
      (Order.new .GoodTillCancel 4 .Sell 99 12)⟩

/-! ### Trade contents -/

theorem filledQty_append_other {id : Nat} {bid ask : Order} (ts : Trades)
    (h1 : bid.orderId ≠ id) (h2 : ask.orderId ≠ id) :
    filledQty id (ts ++ [tradeOf bid ask]) = filledQty id ts := by
  rw [filledQty_append, tradeOf_names_false h1 h2]
  simp

theorem StemsFrom.reduce_bid {l0 : List Order} {ts : Trades} {bid : Order} (ask : Order)
    (h : StemsFrom l0 ts bid) :
    StemsFrom l0 (ts ++ [tradeOf bid ask])
      (bid.reduce (min bid.remainingQuantity ask.remainingQuantity)) := by
  obtain ⟨y, hy, hid, he, hsum⟩ := h
  refine ⟨y, hy, hid, he, ?_⟩
  rw [Order.reduce_orderId, filledQty_append, tradeOf_names]
  simp only [beq_self_eq_true, Bool.true_or, if_true, tradeOf, Order.reduce_remaining]
  omega

theorem StemsFrom.reduce_ask {l0 : List Order} {ts : Trades} (bid : Order) {ask : Order}
    (h : StemsFrom l0 ts ask) :
    StemsFrom l0 (ts ++ [tradeOf bid ask])
      (ask.reduce (min bid.remainingQuantity ask.remainingQuantity)) := by
  obtain ⟨y, hy, hid, he, hsum⟩ := h
  refine ⟨y, hy, hid, he, ?_⟩
  rw [Order.reduce_orderId, filledQty_append, tradeOf_names]
  simp only [beq_self_eq_true, Bool.or_true, if_true, tradeOf, Order.reduce_remaining]
  omega

theorem StemsFrom.other {l0 : List Order} {ts : Trades} {x bid ask : Order}
    (h : StemsFrom l0 ts x) (h1 : bid.orderId ≠ x.orderId) (h2 : ask.orderId ≠ x.orderId) :
    StemsFrom l0 (ts ++ [tradeOf bid ask]) x := by
  obtain ⟨y, hy, hid, he, hsum⟩ := h
  exact ⟨y, hy, hid, he, by rw [filledQty_append_other ts h1 h2]; exact hsum⟩

theorem FlatStep.accounted_step {b0 : Orderbook} {v v1 : View} (h : FlatStep v v1)
    (hN : ((v.bidQ ++ v.askQ).map (fun o => o.orderId)).Nodup)
    (hA : Accounted b0 v) : Accounted b0 v1 := by
  cases h with
  | trade bid ask bt at_ orders ts =>
    simp only [Accounted] at hN hA ⊢
    obtain ⟨_, hrest⟩ := nodup_fronts hN
    refine ⟨fun x hx => ?_, fun x hx => ?_⟩
    · rcases List.mem_cons.mp hx with rfl | hx
      · exact (hA.1 bid (List.mem_cons_self _ _)).reduce_bid ask
      · have h3 := hrest x (List.mem_append_left _ hx)
        exact (hA.1 x (List.mem_cons_of_mem _ hx)).other (fun e => h3.1 e.symm)
          (fun e => h3.2 e.symm)
    · rcases List.mem_cons.mp hx with rfl | hx
      · exact (hA.2 ask (List.mem_cons_self _ _)).reduce_ask bid
      · have h3 := hrest x (List.mem_append_right _ hx)
        exact (hA.2 x (List.mem_cons_of_mem _ hx)).other (fun e => h3.1 e.symm)
          (fun e => h3.2 e.symm)
  | popBid bid bt asks orders ts hfilled =>
    exact ⟨fun x hx => hA.1 x (List.mem_cons_of_mem _ hx), hA.2⟩
  | popAsk ask bids at_ orders ts hfilled =>
    exact ⟨hA.1, fun x hx => hA.2 x (List.mem_cons_of_mem _ hx)⟩
  | stay v => exact hA

theorem append_singleton_eq_cases {pre post ts : Trades} {t t1 : Trade}
    (h : ts ++ [t] = pre ++ t1 :: post) :
    (post = [] ∧ pre = ts ∧ t1 = t) ∨ ∃ post1, post = post1 ++ [t] ∧ ts = pre ++ t1 :: post1 := by
  rcases List.eq_nil_or_concat post with rfl | ⟨post1, t2, rfl⟩
  · left
    have h1 : ts ++ [t] = pre ++ [t1] := h
    obtain ⟨h2, h3⟩ := List.append_inj' h1 rfl
    exact ⟨rfl, h2.symm, (List.cons.inj h3).1.symm⟩
  · right
    have h1 : ts ++ [t] = (pre ++ t1 :: post1) ++ [t2] := by
      rw [h]; simp
    obtain ⟨h2, h3⟩ := List.append_inj' h1 rfl
    have h4 : t = t2 := (List.cons.inj h3).1
    exact ⟨post1, by rw [h4, List.concat_eq_append], h2⟩

theorem Micro.tradesOK_step {b0 : Orderbook} {s s1 : Orderbook × Trades} (h : Micro s s1)
    (ht : Tagged s.1) (hA : Accounted b0 (view s)) (hT : TradesOK b0 s.2) :
    TradesOK b0 s1.2 := by
  cases h with
  | trade bp ap bid ask bq aq rb ra orders ts hcross =>
    intro pre t1 post hdec
    rcases append_singleton_eq_cases hdec with ⟨_, rfl, rfl⟩ | ⟨post1, _, hts⟩
    · have hb := ht.1 (bp, bid :: bq) (List.mem_cons_self _ _) bid (List.mem_cons_self _ _)
      have ha := ht.2 (ap, ask :: aq) (List.mem_cons_self _ _) ask (List.mem_cons_self _ _)
      refine ⟨bid, ask, rfl, ?_, hb.1, ha.1, ?_, ?_⟩
      · rw [hb.2, ha.2]; exact hcross
      · exact hA.1 bid (by simp [view])
      · exact hA.2 ask (by simp [view])
    · exact hT pre t1 post1 hts
  | popBid bp bid bq rb asks orders ts hfilled => exact hT
  | popAsk ap ask aq bids ra orders ts hfilled => exact hT
  | dropBid bp rb asks orders ts => exact hT
  | dropAsk ap bids ra orders ts => exact hT

theorem Run.tradesOK {b0 : Orderbook} {s s1 : Orderbook × Trades} (h : Run s s1)
    (hc : Consistent s.1) (hA : Accounted b0 (view s)) (hT : TradesOK b0 s.2) :
    TradesOK b0 s1.2 := by
  have key : Consistent s1.1 ∧ Accounted b0 (view s1) ∧ TradesOK b0 s1.2 := by
    refine Run.preserves
      (P := fun s => Consistent s.1 ∧ Accounted b0 (view s) ∧ TradesOK b0 s.2) ?_ h
      ⟨hc, hA, hT⟩
    intro s2 s3 hm hs
    exact ⟨hm.keeps_consistent hs.1, hm.flat.accounted_step hs.1.2.2.1 hs.2.1,
      hm.tradesOK_step hs.1.2.1 hs.2.1 hs.2.2⟩
  exact key.2.2

theorem Accounted.initial (b0 : Orderbook) : Accounted b0 (view (b0, [])) := by
  refine ⟨fun x hx => ⟨x, hx, rfl, rfl, ?_⟩, fun x hx => ⟨x, hx, rfl, rfl, ?_⟩⟩
  · simp [view, filledQty, tradedQty]
  · simp [view, filledQty, tradedQty]

theorem TradesOK.nil (b0 : Orderbook) : TradesOK b0 [] := by
  intro pre t post h
  cases pre <;> cases h

theorem AddOrder_tradesOK {b : Orderbook} (hinv : Inv b) (o : Order) :
    ∃ ts b1, AddOrder b o = .ok (ts, b1) ∧ TradesOK (insertOrder b o) ts := by
  by_cases hacc : Accepted b o
  · obtain ⟨ts, bm, hrun, _, _, _, _, hadd, _⟩ := AddOrder_accepted_spec hinv hacc
    have hins := insertOrder_consistent hinv.1 hinv.2.1 o hacc.1
    exact ⟨ts, _, hadd,
      hrun.tradesOK hins.1 (Accounted.initial _) (TradesOK.nil _)⟩
  · exact ⟨[], b, AddOrder_rejected hacc, TradesOK.nil _⟩

theorem TradesOK.legs {b0 : Orderbook} {ts : Trades} (h : TradesOK b0 ts) :
    ∀ t ∈ ts, t.bidTrade.quantity = t.askTrade.quantity ∧ t.askTrade.price ≤ t.bidTrade.price := by
  intro t ht
  obtain ⟨pre, post, rfl⟩ := List.append_of_mem ht
  obtain ⟨bid, ask, rfl, hp, _⟩ := h pre t post rfl
  exact ⟨rfl, hp⟩

/-- C13. Trade contents: on every reachable book `AddOrder` and `MatchOrder`
return, and every trade they return is the match of a buy order of the bid side
with a sell order of the ask side as these stood just before the match
(`TradesOK`, counted from the book right after the incoming order, or the
replacement order of a modify, was inserted): the buy leg carries the id and
the own limit price of the bid, the sell leg the id and the own limit price of
the ask, both legs carry the minimum of the two remaining quantities, and the
buy-leg price is greater than or equal to the sell-leg price.  A modify of an
unknown id returns no trade. -/
theorem trade_contents (b : Orderbook) (hb : Reachable b) :
    (∀ o : Order, ∃ ts b1, AddOrder b o = .ok (ts, b1) ∧
      TradesOK (insertOrder b o) ts ∧
      ∀ t ∈ ts, t.bidTrade.quantity = t.askTrade.quantity ∧
        t.askTrade.price ≤ t.bidTrade.price) ∧
    (∀ m : OrderModify, ∃ ts b1, MatchOrder b m = .ok (ts, b1) ∧
      (b.orders_.lookup m.orderId = none → ts = []) ∧
      (∀ e, b.orders_.lookup m.orderId = some e →
        TradesOK (insertOrder (b.without m.orderId) (m.ToOrderPointer e.orderType)) ts) ∧
      ∀ t ∈ ts, t.bidTrade.quantity = t.askTrade.quantity ∧
        t.askTrade.price ≤ t.bidTrade.price) := by
  have hinv := hb.inv
  refine ⟨fun o => ?_, fun m => ?_⟩
  · obtain ⟨ts, b1, h1, h2⟩ := AddOrder_tradesOK hinv o
    exact ⟨ts, b1, h1, h2, h2.legs⟩
  · cases hlk : b.orders_.lookup m.orderId with
    | none =>
      refine ⟨[], b, ?_, fun _ => rfl, fun e he => (by cases he), fun t ht => (by cases ht)⟩
      unfold MatchOrder
      rw [hlk]
    | some e =>
      have hc := CancelOrder_inv hinv m.orderId
      obtain ⟨ts, b1, h1, h2⟩ := AddOrder_tradesOK hc.2 (m.ToOrderPointer e.orderType)
      refine ⟨ts, b1, ?_, fun h => (by cases h), fun e1 he1 => ?_, h2.legs⟩
      · unfold MatchOrder
        rw [hlk]
        simp only [hc.1]
        exact h1
      · cases he1
        exact h2

theorem trade_contents_witness :
    Reachable exampleBook ∧
    (∃ b1, AddOrder exampleBook (Order.new .GoodTillCancel 4 .Sell 99 12)
      = .ok ([⟨⟨2, 100, 5⟩, ⟨4, 99, 5⟩⟩, ⟨⟨1, 99, 7⟩, ⟨4, 99, 7⟩⟩], b1)) ∧
    (∃ ts b1, AddOrder exampleBook (Order.new .GoodTillCancel 4 .Sell 99 12) = .ok (ts, b1) ∧
      TradesOK (insertOrder exampleBook (Order.new .GoodTillCancel 4 .Sell 99 12)) ts ∧
      ∀ t ∈ ts, t.bidTrade.quantity = t.askTrade.quantity ∧
        t.askTrade.price ≤ t.bidTrade.price) ∧
    (∃ ts b1, MatchOrder exampleBook ⟨3, .Sell, 100, 7⟩ = .ok (ts, b1) ∧
      (exampleBook.orders_.lookup 3 = none → ts = []) ∧
      (∀ e, exampleBook.orders_.lookup 3 = some e →
        TradesOK (insertOrder (exampleBook.without 3)
          ((OrderModify.mk 3 .Sell 100 7).ToOrderPointer e.orderType)) ts) ∧
      ∀ t ∈ ts, t.bidTrade.quantity = t.askTrade.quantity ∧
        t.askTrade.price ≤ t.bidTrade.price) :=
  ⟨exampleBook_reachable, ⟨_, rfl⟩,
    (trade_contents exampleBook exampleBook_reachable).1
      (Order.new .GoodTillCancel 4 .Sell 99 12),
    (trade_contents exampleBook exampleBook_reachable).2 ⟨3, .Sell, 100, 7⟩⟩

/-! ### Filled orders do not rest -/

theorem matchLevel_positive :
    ∀ (fuel : Nat) (bids asks : OrderPointers) (orders : Registry) (trades : Trades)
      (r : LevelMatch), matchLevel fuel bids asks orders trades = .ok r →
      (∀ x ∈ bids, 0 < x.remainingQuantity) → (∀ x ∈ asks, 0 < x.remainingQuantity) →
      (∀ x ∈ r.bids, 0 < x.remainingQuantity) ∧ (∀ x ∈ r.asks, 0 < x.remainingQuantity) := by
  intro fuel
  induction fuel with
  | zero =>
    intro bids asks orders trades r hr hb ha
    cases bids with
    | nil =>
      simp only [matchLevel, Except.ok.injEq] at hr
      subst hr
      exact ⟨by simp, ha⟩
    | cons bid bids =>
      cases asks with
      | nil =>
        simp only [matchLevel, Except.ok.injEq] at hr
        subst hr
        exact ⟨hb, by simp⟩
      | cons ask asks => simp [matchLevel] at hr
  | succ fuel ih =>
    intro bids asks orders trades r hr hb ha
    cases bids with
    | nil =>
      simp only [matchLevel, Except.ok.injEq] at hr
      subst hr
      exact ⟨by simp, ha⟩
    | cons bid bids =>
      cases asks with
      | nil =>
        simp only [matchLevel, Except.ok.injEq] at hr
        subst hr
        exact ⟨hb, by simp⟩
      | cons ask asks =>
        rw [matchLevel_succ] at hr
        refine ih _ _ _ _ r hr ?_ ?_
        · intro x hx
          split at hx
          · exact hb x (List.mem_cons_of_mem _ hx)
          · rename_i hnf
            rcases List.mem_cons.mp hx with rfl | hx
            · simp only [Order.IsFilled, beq_iff_eq] at hnf
              omega
            · exact hb x (List.mem_cons_of_mem _ hx)
        · intro x hx
          split at hx
          · exact ha x (List.mem_cons_of_mem _ hx)
          · rename_i hnf
            rcases List.mem_cons.mp hx with rfl | hx
            · simp only [Order.IsFilled, beq_iff_eq] at hnf
              omega
            · exact ha x (List.mem_cons_of_mem _ hx)

theorem mem_queued_eraseLevel {p : Int} {levels : Levels} {x : Order}
    (h : x ∈ queued (eraseLevel p levels)) : x ∈ queued levels := by
  obtain ⟨l, hl, hx⟩ := mem_queued.mp h
  exact mem_queued.mpr ⟨l, (List.mem_filter.mp hl).1, hx⟩

theorem matchLoop_positive :
    ∀ (fuel : Nat) (b : Orderbook) (trades : Trades) (ts : Trades) (b1 : Orderbook),
      matchLoop fuel b trades = .ok (ts, b1) → Positive b → Positive b1 := by
  intro fuel
  induction fuel with
  | zero =>
    intro b trades ts b1 h hpos
    obtain ⟨bids_, asks_, orders_⟩ := b
    unfold matchLoop at h
    split at h
    · split at h
      · cases h; exact hpos
      · cases h
    · cases h; exact hpos
  | succ fuel ih =>
    intro b trades ts b1 h hpos
    obtain ⟨bids_, asks_, orders_⟩ := b
    unfold matchLoop at h
    split at h
    · rename_i bp bids rb ap asks ra hb ha
      simp only at hb ha
      subst hb ha
      split at h
      · cases h; exact hpos
      · simp only at h
        split at h
        · cases h
        · rename_i r hr
          have hposb : ∀ x ∈ bids, 0 < x.remainingQuantity := fun x hx =>
            hpos x (by simp [Orderbook.resting, hx])
          have hposa : ∀ x ∈ asks, 0 < x.remainingQuantity := fun x hx =>
            hpos x (by simp [Orderbook.resting, hx])
          have hlev := matchLevel_positive _ _ _ _ _ r hr hposb hposa
          refine ih _ _ ts b1 h ?_
          intro x hx
          simp only [Orderbook.resting, List.mem_append] at hx
          have hb1 : ∀ x ∈ queued ((bp, r.bids) :: rb), 0 < x.remainingQuantity := by
            intro x hx
            simp only [queued_cons, List.mem_append] at hx
            rcases hx with hx | hx
            · exact hlev.1 x hx
            · exact hpos x (by simp [Orderbook.resting, hx])
          have ha1 : ∀ x ∈ queued ((ap, r.asks) :: ra), 0 < x.remainingQuantity := by
            intro x hx
            simp only [queued_cons, List.mem_append] at hx
            rcases hx with hx | hx
            · exact hlev.2 x hx
            · exact hpos x (by simp [Orderbook.resting, hx])
          rcases hx with hx | hx
          · split at hx
            · exact hb1 x (mem_queued_eraseLevel hx)
            · exact hb1 x hx
          · split at hx
            · exact ha1 x (mem_queued_eraseLevel hx)
            · exact ha1 x hx
    · cases h; exact hpos

theorem Positive.without_positive {b : Orderbook} (h : Positive b) (id : Nat) :
    Positive (b.without id) := by
  intro o ho
  rw [Orderbook.resting_without] at ho
  exact h o (List.mem_filter.mp ho).1

theorem AddOrder_positive {b : Orderbook} (hinv : Inv b) (hpos : Positive b) (o : Order)
    (ho : 0 < o.remainingQuantity) :
    ∃ ts b1, AddOrder b o = .ok (ts, b1) ∧ Inv b1 ∧ Positive b1 := by
  by_cases hacc : Accepted b o
  · obtain ⟨ts, bm, _, _, _, _, hloop, hadd, hi⟩ := AddOrder_accepted_spec hinv hacc
    have hins : Positive (insertOrder b o) := by
      intro x hx
      rcases (insertOrder_resting b o x).mp hx with rfl | hx
      · exact ho
      · exact hpos x hx
    have hbm := matchLoop_positive _ _ _ _ _ hloop hins
    refine ⟨ts, _, hadd, hi, ?_⟩
    split
    · exact hbm.without_positive _
    · exact hbm
  · exact ⟨[], b, AddOrder_rejected hacc, hinv, hpos⟩

theorem ReachablePositive.facts {b : Orderbook} (h : ReachablePositive b) :
    Reachable b ∧ Positive b := by
  induction h with
  | empty => exact ⟨Reachable.empty, by simp [Positive, Orderbook.resting, Orderbook.empty]⟩
  | add o ts _ ho hadd ih =>
    refine ⟨Reachable.add o ts ih.1 hadd, ?_⟩
    obtain ⟨ts1, b2, h1, _, h3⟩ := AddOrder_positive ih.1.inv ih.2 o ho
    rw [h1] at hadd
    cases hadd
    exact h3
  | cancel id _ hcancel ih =>
    refine ⟨Reachable.cancel id ih.1 hcancel, ?_⟩
    rw [(CancelOrder_inv ih.1.inv id).1] at hcancel
    cases hcancel
    exact ih.2.without_positive id
  | @modify b0 b1 m ts _ hm hmod ih =>
    refine ⟨Reachable.modify m ts ih.1 hmod, ?_⟩
    unfold MatchOrder at hmod
    cases hlk : b0.orders_.lookup m.orderId with
    | none =>
      rw [hlk] at hmod
      cases hmod
      exact ih.2
    | some e =>
      rw [hlk] at hmod
      have hc := CancelOrder_inv ih.1.inv m.orderId
      simp only [hc.1] at hmod
      obtain ⟨ts1, b2, h1, _, h3⟩ := AddOrder_positive hc.2 (ih.2.without_positive m.orderId)
        (m.ToOrderPointer e.orderType) hm
      rw [h1] at hmod
      cases hmod
      exact h3

theorem exampleBook_reachablePositive : ReachablePositive exampleBook :=
  ReachablePositive.add (Order.new .GoodTillCancel 3 .Sell 101 7) []
    (ReachablePositive.add (Order.new .GoodTillCancel 2 .Buy 100 5) []
      (ReachablePositive.add (Order.new .GoodTillCancel 1 .Buy 99 10) []
        ReachablePositive.empty (by decide) rfl)
      (by decide) rfl)
    (by decide) rfl

/-- C12, as amended. No filled order rests: in every book reachable from the
empty book by `AddOrder`, `CancelOrder` and `MatchOrder` calls in which every
submitted order has a positive remaining quantity and every modify request
carries a positive quantity, every order of every price-level queue of both
sides has a positive remaining quantity (it is not filled), and every id of
the registry is the id of a resting order with a positive remaining quantity. -/
theorem no_filled_order_rests (b : Orderbook) (hb : ReachablePositive b) :
    Reachable b ∧
    (∀ l ∈ b.bids_, ∀ o ∈ l.2, 0 < o.remainingQuantity ∧ o.IsFilled = false) ∧
    (∀ l ∈ b.asks_, ∀ o ∈ l.2, 0 < o.remainingQuantity ∧ o.IsFilled = false) ∧
    ∀ id, b.orders_.contains id = true →
      ∃ o ∈ b.resting, o.orderId = id ∧ 0 < o.remainingQuantity := by
  obtain ⟨hr, hpos⟩ := hb.facts
  have key : ∀ o ∈ b.resting, 0 < o.remainingQuantity ∧ o.IsFilled = false := by
    intro o ho
    have h := hpos o ho
    refine ⟨h, ?_⟩
    simp only [Order.IsFilled, beq_eq_false_iff_ne, ne_eq]
    omega
  refine ⟨hr, ?_, ?_, ?_⟩
  · intro l hl o ho
    exact key o (List.mem_append_left _ (mem_queued.mpr ⟨l, hl, ho⟩))
  · intro l hl o ho
    exact key o (List.mem_append_right _ (mem_queued.mpr ⟨l, hl, ho⟩))
  · intro id hid
    obtain ⟨o, ho, hoid⟩ := (hr.inv.1.2.2.contains_iff id).mp hid
    exact ⟨o, ho, hoid, hpos o ho⟩

theorem no_filled_order_rests_witness :
    ReachablePositive exampleBook ∧ Reachable exampleBook ∧
    (∀ l ∈ exampleBook.bids_, ∀ o ∈ l.2, 0 < o.remainingQuantity ∧ o.IsFilled = false) ∧
    (∀ l ∈ exampleBook.asks_, ∀ o ∈ l.2, 0 < o.remainingQuantity ∧ o.IsFilled = false) ∧
    ∀ id, exampleBook.orders_.contains id = true →
      ∃ o ∈ exampleBook.resting, o.orderId = id ∧ 0 < o.remainingQuantity :=
  ⟨exampleBook_reachablePositive, no_filled_order_rests exampleBook exampleBook_reachablePositive⟩

/-- C12, as stated, fails: `AddOrder` of a GoodTillCancel Buy order of quantity
0 (id 1 at 100) on the empty book returns no trade and leaves that order, whose
remaining quantity is 0, in the queue of the bid level 100 and in the registry;
so a reachable book holds a filled order. -/
theorem zero_quantity_order_rests_counterexample :
    AddOrder Orderbook.empty (Order.new .GoodTillCancel 1 .Buy 100 0)
      = .ok ([], ⟨[(100, [Order.new .GoodTillCancel 1 .Buy 100 0])], [],
          [(1, ⟨.Buy, 100, .GoodTillCancel⟩)]⟩) ∧
    (Order.new .GoodTillCancel 1 .Buy 100 0).remainingQuantity = 0 ∧
    (Order.new .GoodTillCancel 1 .Buy 100 0).IsFilled = true ∧
    ¬ (∀ b : Orderbook, Reachable b →
        (∀ l ∈ b.bids_ ++ b.asks_, ∀ o ∈ l.2, o.remainingQuantity ≠ 0) ∧
        ∀ id, b.orders_.contains id = true →
          ∀ o ∈ b.resting, o.orderId = id → o.remainingQuantity ≠ 0) := by
  refine ⟨rfl, rfl, rfl, fun h => ?_⟩
  have hr : Reachable (⟨[(100, [Order.new .GoodTillCancel 1 .Buy 100 0])], [],
      [(1, ⟨.Buy, 100, .GoodTillCancel⟩)]⟩ : Orderbook) :=
    Reachable.add (Order.new .GoodTillCancel 1 .Buy 100 0) [] Reachable.empty rfl
  exact (h _ hr).1 (100, [Order.new .GoodTillCancel 1 .Buy 100 0]) (by simp)
    (Order.new .GoodTillCancel 1 .Buy 100 0) (by simp) rfl

/-! ### No invalid-state error -/

theorem lookup_of_mem_levels {levels : Levels} (hk : (levelKeys levels).Nodup) {p : Int}
    {q : OrderPointers} (h : (p, q) ∈ levels) : levels.lookup p = some q := by
  induction levels with
  | nil => cases h
  | cons l rest ih =>
    obtain ⟨k, q0⟩ := l
    have hk1 : k ∉ levelKeys rest ∧ (levelKeys rest).Nodup := List.nodup_cons.mp hk
    rw [List.lookup_cons]
    rcases List.mem_cons.mp h with heq | hmem
    · cases heq
      simp
    · have hne : p ≠ k := fun e => hk1.1 (e ▸ List.mem_map_of_mem Prod.fst hmem)
      have hb : (p == k) = false := by simpa using hne
      rw [hb]
      exact ih hk1.2 hmem

theorem Inv.registered_found {b : Orderbook} (hinv : Inv b) {id : Nat} {e : OrderEntry}
    (hlk : b.orders_.lookup id = some e) :
    ∃ q, (b.levels e.side).lookup e.price = some q ∧ ∃ o ∈ q, o.orderId = id := by
  obtain ⟨o, ho, hid, he⟩ := (hinv.1.2.2.2.2 id e).mp (mem_of_lookup_eq_some hlk)
  subst he
  rcases List.mem_append.mp ho with hq | hq
  · obtain ⟨l, hl, hol⟩ := mem_queued.mp hq
    have ht := hinv.1.2.1.1 l hl o hol
    refine ⟨l.2, ?_, o, hol, hid⟩
    have : (entryOf o).side = Side.Buy := ht.1
    rw [this]
    have hp : (entryOf o).price = l.1 := ht.2
    rw [hp]
    exact lookup_of_mem_levels hinv.1.1.keysNodup.1 hl
  · obtain ⟨l, hl, hol⟩ := mem_queued.mp hq
    have ht := hinv.1.2.1.2 l hl o hol
    refine ⟨l.2, ?_, o, hol, hid⟩
    have : (entryOf o).side = Side.Sell := ht.1
    rw [this]
    have hp : (entryOf o).price = l.1 := ht.2
    rw [hp]
    exact lookup_of_mem_levels hinv.1.1.keysNodup.2 hl

theorem MatchOrders_sweeps {b0 : Orderbook} (hc : Consistent b0) (hne : NoEmptyLevel b0)
    (hf : FakAtFront b0) :
    ∃ ts bm b2 b3, matchLoop (b0.bids_.length + b0.asks_.length) b0 [] = .ok (ts, bm) ∧
      NoEmptyLevel bm ∧ sweepFront bm bm.bids_ = .ok b2 ∧ NoEmptyLevel b2 ∧
      sweepFront b2 b2.asks_ = .ok b3 ∧ MatchOrders b0 = .ok (ts, b3) := by
  obtain ⟨ts, bm, _, hc1, hne1, _, _, hloop, hm, _⟩ := MatchOrders_spec hc hne hf
  have hs1 := sweep_consistent hc1 hne1 (queued bm.bids_)
  have e1 := sweepFront_eq hc1 hne1 bm.bids_ hne1.1
  have e2 := sweepFront_eq hs1.1 hs1.2 (sweep bm (queued bm.bids_)).asks_ hs1.2.2
  exact ⟨ts, bm, _, _, hloop, hne1, e1, hs1.2, e2, hm⟩

/-- C24. No invalid-state error is reachable: on every reachable book,
`CancelOrder` returns for every id, and for a registered id the level at the
registered price exists on the registered side and holds an order of that id;
`AddOrder` and `MatchOrder` return for every argument; in `MatchOrders` after an
accepted insertion the loops return a book without empty level, and both
FillAndKill sweeps read the front of a non-empty level and return; and `Fill`
with the minimum of the two remaining quantities never fails. -/
theorem no_invalid_state_error (b : Orderbook) (hb : Reachable b) :
    (∀ id, ∃ b1, CancelOrder b id = .ok b1) ∧
    (∀ id e, b.orders_.lookup id = some e →
      ∃ q, (b.levels e.side).lookup e.price = some q ∧ ∃ o ∈ q, o.orderId = id) ∧
    (∀ o, ∃ ts b1, AddOrder b o = .ok (ts, b1)) ∧
    (∀ m, ∃ ts b1, MatchOrder b m = .ok (ts, b1)) ∧
    (∀ o, Accepted b o →
      ∃ ts bm b2 b3,
        matchLoop ((insertOrder b o).bids_.length + (insertOrder b o).asks_.length)
          (insertOrder b o) [] = .ok (ts, bm) ∧
        NoEmptyLevel bm ∧ sweepFront bm bm.bids_ = .ok b2 ∧ NoEmptyLevel b2 ∧
        sweepFront b2 b2.asks_ = .ok b3 ∧ AddOrder b o = .ok (ts, b3)) ∧
    (∀ bid ask : Order, ∃ bid1 ask1,
      bid.Fill (min bid.remainingQuantity ask.remainingQuantity) = .ok bid1 ∧
      ask.Fill (min bid.remainingQuantity ask.remainingQuantity) = .ok ask1) := by
  have hinv := hb.inv
  refine ⟨fun id => ⟨_, (CancelOrder_inv hinv id).1⟩, fun id e h => hinv.registered_found h,
    fun o => ?_, fun m => ?_, fun o hacc => ?_, fun bid ask => ?_⟩
  · obtain ⟨ts, b1, h, _⟩ := AddOrder_inv hinv o
    exact ⟨ts, b1, h⟩
  · obtain ⟨ts, b1, h, _⟩ := MatchOrder_inv hinv m
    exact ⟨ts, b1, h⟩
  · have hins := insertOrder_consistent hinv.1 hinv.2.1 o hacc.1
    obtain ⟨ts, bm, b2, b3, h1, h2, h3, h4, h5, h6⟩ :=
      MatchOrders_sweeps hins.1 hins.2 (insertOrder_fakAtFront hinv hacc)
    exact ⟨ts, bm, b2, b3, h1, h2, h3, h4, h5, by rw [AddOrder_accepted hacc, h6]⟩
  · exact ⟨_, _, Order.Fill_min_left bid ask, Order.Fill_min_right bid ask⟩

theorem no_invalid_state_error_witness :
    Reachable exampleBook ∧
    (∀ id, ∃ b1, CancelOrder exampleBook id = .ok b1) ∧
    (∀ id e, exampleBook.orders_.lookup id = some e →
      ∃ q, (exampleBook.levels e.side).lookup e.price = some q ∧ ∃ o ∈ q, o.orderId = id) ∧
    (∀ o, ∃ ts b1, AddOrder exampleBook o = .ok (ts, b1)) ∧
    (∀ m, ∃ ts b1, MatchOrder exampleBook m = .ok (ts, b1)) ∧
    (∀ o, Accepted exampleBook o →
      ∃ ts bm b2 b3,
        matchLoop ((insertOrder exampleBook o).bids_.length
            + (insertOrder exampleBook o).asks_.length)
          (insertOrder exampleBook o) [] = .ok (ts, bm) ∧
        NoEmptyLevel bm ∧ sweepFront bm bm.bids_ = .ok b2 ∧ NoEmptyLevel b2 ∧
        sweepFront b2 b2.asks_ = .ok b3 ∧ AddOrder exampleBook o = .ok (ts, b3)) ∧
    (∀ bid ask : Order, ∃ bid1 ask1,
      bid.Fill (min bid.remainingQuantity ask.remainingQuantity) = .ok bid1 ∧
      ask.Fill (min bid.remainingQuantity ask.remainingQuantity) = .ok ask1) :=
  ⟨exampleBook_reachable, no_invalid_state_error exampleBook exampleBook_reachable⟩

/-! ### Termination of matching -/

theorem matchLevel_count :
    ∀ (fuel : Nat) (bids asks : OrderPointers) (orders : Registry) (trades : Trades)
      (r : LevelMatch), matchLevel fuel bids asks orders trades = .ok r →
      r.trades.length + (r.bids.length + r.asks.length)
        ≤ trades.length + (bids.length + asks.length) := by
  intro fuel
  induction fuel with
  | zero =>
    intro bids asks orders trades r hr
    cases bids with
    | nil =>
      simp only [matchLevel, Except.ok.injEq] at hr
      subst hr
      exact le_rfl
    | cons bid bids =>
      cases asks with
      | nil =>
        simp only [matchLevel, Except.ok.injEq] at hr
        subst hr
        exact le_rfl
      | cons ask asks => simp [matchLevel] at hr
  | succ fuel ih =>
    intro bids asks orders trades r hr
    cases bids with
    | nil =>
      simp only [matchLevel, Except.ok.injEq] at hr
      subst hr
      exact le_rfl
    | cons bid bids =>
      cases asks with
      | nil =>
        simp only [matchLevel, Except.ok.injEq] at hr
        subst hr
        exact le_rfl
      | cons ask asks =>
        rw [matchLevel_succ] at hr
        have h := ih _ _ _ _ r hr
        have hmin : bid.remainingQuantity
              - min bid.remainingQuantity ask.remainingQuantity = 0 ∨
            ask.remainingQuantity - min bid.remainingQuantity ask.remainingQuantity = 0 := by
          omega
        simp only [List.length_append, List.length_cons, List.length_nil] at h ⊢
        rcases hmin with h0 | h0
        · rw [if_pos (by simp [Order.IsFilled, Order.reduce, h0])] at h
          have : (if (ask.reduce (min bid.remainingQuantity ask.remainingQuantity)).IsFilled
              = true then asks
              else ask.reduce (min bid.remainingQuantity ask.remainingQuantity) :: asks).length
              ≤ asks.length + 1 := by
            split <;> simp
          omega
        · rw [if_pos (by simp [Order.IsFilled, Order.reduce, h0] :
            (ask.reduce (min bid.remainingQuantity ask.remainingQuantity)).IsFilled = true)] at h
          have : (if (bid.reduce (min bid.remainingQuantity ask.remainingQuantity)).IsFilled
              = true then bids
              else bid.reduce (min bid.remainingQuantity ask.remainingQuantity) :: bids).length
              ≤ bids.length + 1 := by
            split <;> simp
          omega

theorem length_queued_eraseLevel (p : Int) (levels : Levels) :
    (queued (eraseLevel p levels)).length ≤ (queued levels).length := by
  unfold eraseLevel
  induction levels with
  | nil => simp
  | cons l rest ih =>
    rw [List.filter_cons]
    split
    · simp only [queued_cons, List.length_append]
      omega
    · simp only [queued_cons, List.length_append]
      omega

theorem matchLoop_count :
    ∀ (fuel : Nat) (b : Orderbook) (trades : Trades) (ts : Trades) (b1 : Orderbook),
      matchLoop fuel b trades = .ok (ts, b1) →
      ts.length + b1.resting.length ≤ trades.length + b.resting.length := by
  intro fuel
  induction fuel with
  | zero =>
    intro b trades ts b1 h
    obtain ⟨bids_, asks_, orders_⟩ := b
    unfold matchLoop at h
    split at h
    · split at h
      · cases h; exact le_rfl
      · cases h
    · cases h; exact le_rfl
  | succ fuel ih =>
    intro b trades ts b1 h
    obtain ⟨bids_, asks_, orders_⟩ := b
    unfold matchLoop at h
    split at h
    · rename_i bp bids rb ap asks ra hb ha
      simp only at hb ha
      subst hb ha
      split at h
      · cases h; exact le_rfl
      · simp only at h
        split at h
        · cases h
        · rename_i r hr
          have hlev := matchLevel_count _ _ _ _ _ r hr
          have hrec := ih _ _ ts b1 h
          have hb1 : (queued (if r.bids.isEmpty = true then eraseLevel bp ((bp, r.bids) :: rb)
              else (bp, r.bids) :: rb)).length ≤ r.bids.length + (queued rb).length := by
            split
            · have := length_queued_eraseLevel bp ((bp, r.bids) :: rb)
              simpa using this
            · simp
          have ha1 : (queued (if r.asks.isEmpty = true then eraseLevel ap ((ap, r.asks) :: ra)
              else (ap, r.asks) :: ra)).length ≤ r.asks.length + (queued ra).length := by
            split
            · have := length_queued_eraseLevel ap ((ap, r.asks) :: ra)
              simpa using this
            · simp
          simp only [Orderbook.resting, List.length_append, queued_cons] at hrec ⊢
          omega
    · cases h; exact le_rfl

theorem CancelOrder_ne_fuel (b : Orderbook) (id : Nat) : CancelOrder b id ≠ .error .fuel := by
  unfold CancelOrder
  have key : ∀ (p : Int) (levels : Levels), cancelInLevels id p levels ≠ .error .fuel := by
    intro p levels
    unfold cancelInLevels
    cases levels.lookup p with
    | none => simp
    | some q =>
      simp only
      split
      · split <;> simp
      · simp
  cases b.orders_.lookup id with
  | none => simp
  | some e =>
    simp only
    split
    · have := key e.price b.asks_
      cases h : cancelInLevels id e.price b.asks_ with
      | error f =>
        rw [h] at this
        intro hc
        cases hc
        exact this rfl
      | ok l => simp
    · have := key e.price b.bids_
      cases h : cancelInLevels id e.price b.bids_ with
      | error f =>
        rw [h] at this
        intro hc
        cases hc
        exact this rfl
      | ok l => simp

theorem sweepFront_ne_fuel (b : Orderbook) (levels : Levels) :
    sweepFront b levels ≠ .error .fuel := by
  unfold sweepFront
  split
  · simp
  · simp
  · split
    · exact CancelOrder_ne_fuel b _
    · simp

/-- C23. Matching terminates: on every book the loops of `MatchOrders` return
within their step budget, so `MatchOrders` never runs out of steps; every
iteration of the inner loop fills the front bid or the front ask completely and
removes it, so the two queues together lose at least one order; the number of
trades returned is at most the number of orders resting when `MatchOrders`
starts.  On a consistent book without empty level on which only front orders may
be FillAndKill orders (every reachable book, and every reachable book after the
insertion of an accepted order) `MatchOrders` returns its trades and a book. -/
theorem matching_terminates (b : Orderbook) :
    (∃ ts bm, matchLoop (b.bids_.length + b.asks_.length) b [] = .ok (ts, bm) ∧
      ts.length + bm.resting.length ≤ b.resting.length) ∧
    MatchOrders b ≠ .error .fuel ∧
    (∀ ts b1, MatchOrders b = .ok (ts, b1) → ts.length ≤ b.resting.length) ∧
    (∀ (fuel : Nat) (bid ask : Order) (bids asks : OrderPointers) (orders : Registry)
        (trades : Trades),
      ∃ bids1 asks1 orders1 t,
        matchLevel (fuel + 1) (bid :: bids) (ask :: asks) orders trades
          = matchLevel fuel bids1 asks1 orders1 (trades ++ [t]) ∧
        (bids1 = bids ∨ asks1 = asks) ∧
        bids1.length + asks1.length < (bid :: bids).length + (ask :: asks).length) ∧
    (Consistent b → NoEmptyLevel b → FakAtFront b →
      ∃ ts b1, MatchOrders b = .ok (ts, b1) ∧ ts.length ≤ b.resting.length) ∧
    (Reachable b → (∃ ts b1, MatchOrders b = .ok (ts, b1) ∧ ts.length ≤ b.resting.length) ∧
      ∀ o, Accepted b o → ∃ ts b1, MatchOrders (insertOrder b o) = .ok (ts, b1) ∧
        ts.length ≤ (insertOrder b o).resting.length) := by
  obtain ⟨⟨ts, bm⟩, hloop⟩ := matchLoop_total (b.bids_.length + b.asks_.length) b [] le_rfl
  have hcount := matchLoop_count _ _ _ _ _ hloop
  simp only [List.length_nil, Nat.zero_add] at hcount
  have hbound : ∀ ts1 b1, MatchOrders b = .ok (ts1, b1) → ts1.length ≤ b.resting.length := by
    intro ts1 b1 h
    unfold MatchOrders at h
    rw [hloop] at h
    simp only at h
    split at h
    · cases h
    · split at h
      · cases h
      · cases h
        omega
  have hret : Consistent b → NoEmptyLevel b → FakAtFront b →
      ∃ ts b1, MatchOrders b = .ok (ts, b1) ∧ ts.length ≤ b.resting.length := by
    intro hc hne hf
    obtain ⟨ts1, bm1, b2, b3, _, _, _, _, _, hm⟩ := MatchOrders_sweeps hc hne hf
    exact ⟨ts1, b3, hm, hbound ts1 b3 hm⟩
  refine ⟨⟨ts, bm, hloop, hcount⟩, ?_, hbound, ?_, hret, ?_⟩
  · unfold MatchOrders
    rw [hloop]
    simp only
    cases h1 : sweepFront bm bm.bids_ with
    | error f =>
      simp only
      intro hc
      cases hc
      exact sweepFront_ne_fuel _ _ h1
    | ok b2 =>
      simp only
      cases h2 : sweepFront b2 b2.asks_ with
      | error f =>
        simp only
        intro hc
        cases hc
        exact sweepFront_ne_fuel _ _ h2
      | ok b3 => simp
  · intro fuel bid ask bids asks orders trades
    refine ⟨_, _, _, _, matchLevel_succ fuel bid ask bids asks orders trades, ?_, ?_⟩
    · have hmin : bid.remainingQuantity
            - min bid.remainingQuantity ask.remainingQuantity = 0 ∨
          ask.remainingQuantity - min bid.remainingQuantity ask.remainingQuantity = 0 := by
        omega
      rcases hmin with h0 | h0
      · left
        simp [Order.IsFilled, Order.reduce, h0]
      · right
        simp [Order.IsFilled, Order.reduce, h0]
    · have hmin : bid.remainingQuantity
            - min bid.remainingQuantity ask.remainingQuantity = 0 ∨
          ask.remainingQuantity - min bid.remainingQuantity ask.remainingQuantity = 0 := by
        omega
      simp only [List.length_cons]
      rcases hmin with h0 | h0
      · rw [if_pos (by simp [Order.IsFilled, Order.reduce, h0])]
        split <;> first | omega | (simp only [List.length_cons]; omega)
      · rw [if_pos (by simp [Order.IsFilled, Order.reduce, h0] :
          (ask.reduce (min bid.remainingQuantity ask.remainingQuantity)).IsFilled = true)]
        split <;> first | omega | (simp only [List.length_cons]; omega)
  · intro hr
    have hinv := hr.inv
    refine ⟨hret hinv.1 hinv.2.1 hinv.2.2.2.toFakAtFront, fun o hacc => ?_⟩
    have hins := insertOrder_consistent hinv.1 hinv.2.1 o hacc.1
    obtain ⟨ts1, bm1, b2, b3, hl1, _, _, _, _, hm⟩ :=
      MatchOrders_sweeps hins.1 hins.2 (insertOrder_fakAtFront hinv hacc)
    have hc1 := matchLoop_count _ _ _ _ _ hl1
    simp only [List.length_nil, Nat.zero_add] at hc1
    exact ⟨ts1, b3, hm, by omega⟩

theorem matching_terminates_witness :
    Reachable exampleBook ∧
    Accepted exampleBook (Order.new .GoodTillCancel 4 .Sell 99 12) ∧
    (∃ b1, MatchOrders (insertOrder exampleBook (Order.new .GoodTillCancel 4 .Sell 99 12))
      = .ok ([⟨⟨2, 100, 5⟩, ⟨4, 99, 5⟩⟩, ⟨⟨1, 99, 7⟩, ⟨4, 99, 7⟩⟩], b1)) ∧
    (insertOrder exampleBook (Order.new .GoodTillCancel 4 .Sell 99 12)).resting.length = 4 ∧
    ((∃ ts b1, MatchOrders exampleBook = .ok (ts, b1) ∧
        ts.length ≤ exampleBook.resting.length) ∧
      ∀ o, Accepted exampleBook o →
        ∃ ts b1, MatchOrders (insertOrder exampleBook o) = .ok (ts, b1) ∧
          ts.length ≤ (insertOrder exampleBook o).resting.length) :=
  ⟨exampleBook_reachable, exampleBook_accepts, ⟨_, rfl⟩, rfl,
    (matching_terminates exampleBook).2.2.2.2.2 exampleBook_reachable⟩

/-! ### Trades of positive orders -/

theorem matchLevel_positive_trades :
    ∀ (fuel : Nat) (bids asks : OrderPointers) (orders : Registry) (trades : Trades)
      (r : LevelMatch), matchLevel fuel bids asks orders trades = .ok r →
      (∀ x ∈ bids, 0 < x.remainingQuantity) → (∀ x ∈ asks, 0 < x.remainingQuantity) →
      (∀ t ∈ trades, t.positive) → ∀ t ∈ r.trades, t.positive := by
  intro fuel
  induction fuel with
  | zero =>
    intro bids asks orders trades r hr hb ha ht
    cases bids with
    | nil =>
      simp only [matchLevel, Except.ok.injEq] at hr
      subst hr
      exact ht
    | cons bid bids =>
      cases asks with
      | nil =>
        simp only [matchLevel, Except.ok.injEq] at hr
        subst hr
        exact ht
      | cons ask asks => simp [matchLevel] at hr
  | succ fuel ih =>
    intro bids asks orders trades r hr hb ha ht
    cases bids with
    | nil =>
      simp only [matchLevel, Except.ok.injEq] at hr
      subst hr
      exact ht
    | cons bid bids =>
      cases asks with
      | nil =>
        simp only [matchLevel, Except.ok.injEq] at hr
        subst hr
        exact ht
      | cons ask asks =>
        rw [matchLevel_succ] at hr
        have hbid := hb bid (List.mem_cons_self _ _)
        have hask := ha ask (List.mem_cons_self _ _)
        refine ih _ _ _ _ r hr ?_ ?_ ?_
        · intro x hx
          split at hx
          · exact hb x (List.mem_cons_of_mem _ hx)
          · rename_i hnf
            rcases List.mem_cons.mp hx with rfl | hx
            · simp only [Order.IsFilled, beq_iff_eq] at hnf
              omega
            · exact hb x (List.mem_cons_of_mem _ hx)
        · intro x hx
          split at hx
          · exact ha x (List.mem_cons_of_mem _ hx)
          · rename_i hnf
            rcases List.mem_cons.mp hx with rfl | hx
            · simp only [Order.IsFilled, beq_iff_eq] at hnf
              omega
            · exact ha x (List.mem_cons_of_mem _ hx)
        · intro t htm
          rcases List.mem_append.mp htm with htm | htm
          · exact ht t htm
          · rw [List.mem_singleton] at htm
            subst htm
            simp only [Trade.positive, tradeOf]
            omega

theorem Positive.afterLevel {bp ap : Int} {bids asks rbids rasks : OrderPointers}
    {rb ra : Levels} {orders : Registry}
    (hpos : Positive ⟨(bp, bids) :: rb, (ap, asks) :: ra, orders⟩)
    (hlev : (∀ x ∈ rbids, 0 < x.remainingQuantity) ∧ (∀ x ∈ rasks, 0 < x.remainingQuantity))
    (orders1 : Registry) :
    Positive ⟨if rbids.isEmpty then eraseLevel bp ((bp, rbids) :: rb) else (bp, rbids) :: rb,
      if rasks.isEmpty then eraseLevel ap ((ap, rasks) :: ra) else (ap, rasks) :: ra,
      orders1⟩ := by
  intro x hx
  simp only [Orderbook.resting, List.mem_append] at hx
  have hb1 : ∀ x ∈ queued ((bp, rbids) :: rb), 0 < x.remainingQuantity := by
    intro x hx
    simp only [queued_cons, List.mem_append] at hx
    rcases hx with hx | hx
    · exact hlev.1 x hx
    · exact hpos x (by simp [Orderbook.resting, hx])
  have ha1 : ∀ x ∈ queued ((ap, rasks) :: ra), 0 < x.remainingQuantity := by
    intro x hx
    simp only [queued_cons, List.mem_append] at hx
    rcases hx with hx | hx
    · exact hlev.2 x hx
    · exact hpos x (by simp [Orderbook.resting, hx])
  rcases hx with hx | hx
  · split at hx
    · exact hb1 x (mem_queued_eraseLevel hx)
    · exact hb1 x hx
  · split at hx
    · exact ha1 x (mem_queued_eraseLevel hx)
    · exact ha1 x hx

theorem matchLoop_positive_trades :
    ∀ (fuel : Nat) (b : Orderbook) (trades : Trades) (ts : Trades) (b1 : Orderbook),
      matchLoop fuel b trades = .ok (ts, b1) → Positive b →
      (∀ t ∈ trades, t.positive) → ∀ t ∈ ts, t.positive := by
  intro fuel
  induction fuel with
  | zero =>
    intro b trades ts b1 h hpos ht
    obtain ⟨bids_, asks_, orders_⟩ := b
    unfold matchLoop at h
    split at h
    · split at h
      · cases h; exact ht
      · cases h
    · cases h; exact ht
  | succ fuel ih =>
    intro b trades ts b1 h hpos ht
    obtain ⟨bids_, asks_, orders_⟩ := b
    unfold matchLoop at h
    split at h
    · rename_i bp bids rb ap asks ra hb ha
      simp only at hb ha
      subst hb ha
      split at h
      · cases h; exact ht
      · rename_i hlt
        simp only at h
        split at h
        · cases h
        · rename_i r hr
          have hposb : ∀ x ∈ bids, 0 < x.remainingQuantity := fun x hx =>
            hpos x (by simp [Orderbook.resting, hx])
          have hposa : ∀ x ∈ asks, 0 < x.remainingQuantity := fun x hx =>
            hpos x (by simp [Orderbook.resting, hx])
          have htr := matchLevel_positive_trades _ _ _ _ _ r hr hposb hposa ht
          refine ih _ _ ts b1 h ?_ htr
          exact Positive.afterLevel hpos
            (matchLevel_positive _ _ _ _ _ r hr hposb hposa) r.orders
    · cases h; exact ht

theorem AddOrder_positive_trades {b : Orderbook} (hinv : Inv b) (hpos : Positive b) (o : Order)
    (ho : 0 < o.remainingQuantity) :
    ∃ ts b1, AddOrder b o = .ok (ts, b1) ∧ ∀ t ∈ ts, t.positive := by
  by_cases hacc : Accepted b o
  · obtain ⟨ts, bm, _, _, _, _, hloop, hadd, _⟩ := AddOrder_accepted_spec hinv hacc
    have hins : Positive (insertOrder b o) := by
      intro x hx
      rcases (insertOrder_resting b o x).mp hx with rfl | hx
      · exact ho
      · exact hpos x hx
    exact ⟨ts, _, hadd, matchLoop_positive_trades _ _ _ _ _ hloop hins (by simp)⟩
  · exact ⟨[], b, AddOrder_rejected hacc, by simp⟩

/-- C26. Trades are never empty for positive orders: in every book reachable
from the empty book by `AddOrder`, `CancelOrder` and `MatchOrder` calls in which
every submitted order and every replacement of a modify has a positive quantity,
every resting order has a positive remaining quantity, and every trade returned
by `AddOrder` of an order of positive quantity, and by `MatchOrder` with a
positive quantity, carries a positive quantity on both legs. -/
theorem positive_orders_positive_trades (b : Orderbook) (hb : ReachablePositive b) :
    (∀ o ∈ b.resting, 0 < o.remainingQuantity) ∧
    (∀ o : Order, 0 < o.remainingQuantity →
      ∃ ts b1, AddOrder b o = .ok (ts, b1) ∧
        ∀ t ∈ ts, 0 < t.bidTrade.quantity ∧ 0 < t.askTrade.quantity) ∧
    (∀ m : OrderModify, 0 < m.quantity →
      ∃ ts b1, MatchOrder b m = .ok (ts, b1) ∧
        ∀ t ∈ ts, 0 < t.bidTrade.quantity ∧ 0 < t.askTrade.quantity) := by
  obtain ⟨hr, hpos⟩ := hb.facts
  have hinv := hr.inv
  refine ⟨hpos, fun o ho => AddOrder_positive_trades hinv hpos o ho, fun m hm => ?_⟩
  unfold MatchOrder
  cases hlk : b.orders_.lookup m.orderId with
  | none => exact ⟨[], b, rfl, by simp⟩
  | some e =>
    have hc := CancelOrder_inv hinv m.orderId
    simp only [hc.1]
    exact AddOrder_positive_trades hc.2 (hpos.without_positive m.orderId)
      (m.ToOrderPointer e.orderType) hm

theorem positive_orders_positive_trades_witness :
    ReachablePositive exampleBook ∧
    (∃ b1, AddOrder exampleBook (Order.new .GoodTillCancel 4 .Sell 99 12)
      = .ok ([⟨⟨2, 100, 5⟩, ⟨4, 99, 5⟩⟩, ⟨⟨1, 99, 7⟩, ⟨4, 99, 7⟩⟩], b1)) ∧
    (∀ o ∈ exampleBook.resting, 0 < o.remainingQuantity) ∧
    (∀ o : Order, 0 < o.remainingQuantity →
      ∃ ts b1, AddOrder exampleBook o = .ok (ts, b1) ∧
        ∀ t ∈ ts, 0 < t.bidTrade.quantity ∧ 0 < t.askTrade.quantity) ∧
    (∀ m : OrderModify, 0 < m.quantity →
      ∃ ts b1, MatchOrder exampleBook m = .ok (ts, b1) ∧
        ∀ t ∈ ts, 0 < t.bidTrade.quantity ∧ 0 < t.askTrade.quantity) :=
  ⟨exampleBook_reachablePositive, ⟨_, rfl⟩,
    positive_orders_positive_trades exampleBook exampleBook_reachablePositive⟩

/-! ### Executed quantity -/

theorem Order.reduce_zero (o : Order) : o.reduce 0 = o := by
  cases o
  simp [Order.reduce]

theorem Order.reduce_reduce (o : Order) (a c : Nat) : (o.reduce a).reduce c = o.reduce (a + c) := by
  cases o
  simp [Order.reduce, Nat.sub_sub]

theorem matchLevel_nil_left (fuel : Nat) (asks : OrderPointers) (orders : Registry)
    (trades : Trades) : matchLevel fuel [] asks orders trades = .ok ⟨[], asks, orders, trades⟩ := by
  cases fuel <;> simp [matchLevel]

theorem matchLevel_nil_right (fuel : Nat) (bids : OrderPointers) (orders : Registry)
    (trades : Trades) : matchLevel fuel bids [] orders trades = .ok ⟨bids, [], orders, trades⟩ := by
  cases fuel <;> cases bids <;> simp [matchLevel]

theorem restingQty_nil : restingQty [] = 0 := rfl

theorem restingQty_append (l1 l2 : List Order) :
    restingQty (l1 ++ l2) = restingQty l1 + restingQty l2 := by
  simp [restingQty]

theorem levelLiquidity_nil (test : Int → Bool) : levelLiquidity [] test = 0 := rfl

theorem levelLiquidity_cons (l : Int × OrderPointers) (rest : Levels) (test : Int → Bool) :
    levelLiquidity (l :: rest) test
      = (if test l.1 then restingQty l.2 else 0) + levelLiquidity rest test := by
  unfold levelLiquidity
  rw [List.filter_cons]
  split
  · rw [queued_cons, restingQty_append]
  · omega

theorem levelLiquidity_eq_zero {levels : Levels} {test : Int → Bool}
    (h : ∀ k ∈ levelKeys levels, test k = false) : levelLiquidity levels test = 0 := by
  unfold levelLiquidity
  rw [List.filter_eq_nil_iff.mpr]
  · rfl
  · intro l hl
    have := h l.1 (List.mem_map_of_mem Prod.fst hl)
    simp [this]

theorem liquidity_by_level {levels : Levels} (test : Int → Bool)
    (h : ∀ l ∈ levels, ∀ x ∈ l.2, x.price = l.1) :
    restingQty ((queued levels).filter (fun x => test x.price)) = levelLiquidity levels test := by
  induction levels with
  | nil => rfl
  | cons l rest ih =>
    rw [levelLiquidity_cons, queued_cons, List.filter_append, restingQty_append,
      ih (fun l1 hl1 => h l1 (List.mem_cons_of_mem _ hl1))]
    congr 1
    have hl := h l (List.mem_cons_self _ _)
    by_cases ht : test l.1 = true
    · rw [if_pos ht, List.filter_eq_self.mpr]
      intro x hx
      rw [hl x hx]; exact ht
    · rw [if_neg ht, List.filter_eq_nil_iff.mpr]
      · rfl
      · intro x hx
        rw [hl x hx]; exact ht

/-- The inner loop on a best bid level that holds one order of positive
remaining quantity: the order trades the minimum of its remaining quantity and
the total of the ask queue, and stays, alone, exactly when it exceeds that
total. -/
theorem matchLevel_single_bid :
    ∀ (fuel : Nat) (o : Order) (asks : OrderPointers) (orders : Registry) (trades : Trades)
      (res : LevelMatch), 0 < o.remainingQuantity →
      matchLevel fuel [o] asks orders trades = .ok res →
      tradedQty res.trades = tradedQty trades + min o.remainingQuantity (restingQty asks) ∧
      (restingQty asks < o.remainingQuantity →
        res.bids = [o.reduce (restingQty asks)] ∧ res.asks = []) ∧
      (o.remainingQuantity ≤ restingQty asks → res.bids = []) := by
  intro fuel
  induction fuel with
  | zero =>
    intro o asks orders trades res ho h
    cases asks with
    | nil =>
      rw [matchLevel_nil_right] at h
      cases h
      simp only [restingQty_nil, Nat.min_zero, Nat.add_zero, Order.reduce_zero, true_and,
        and_true, implies_true]
      intro hle
      omega
    | cons ask asks => simp [matchLevel] at h
  | succ fuel ih =>
    intro o asks orders trades res ho h
    cases asks with
    | nil =>
      rw [matchLevel_nil_right] at h
      cases h
      simp only [restingQty_nil, Nat.min_zero, Nat.add_zero, Order.reduce_zero, true_and,
        and_true, implies_true]
      intro hle
      omega
    | cons ask asks =>
      rw [matchLevel_succ] at h
      simp only at h
      rw [restingQty_cons]
      by_cases hlt : ask.remainingQuantity < o.remainingQuantity
      · have hmin : min o.remainingQuantity ask.remainingQuantity = ask.remainingQuantity := by
          omega
        rw [hmin] at h
        have h1 : (o.reduce ask.remainingQuantity).IsFilled = false := by
          simp only [Order.IsFilled, Order.reduce_remaining, beq_eq_false_iff_ne, ne_eq]
          omega
        have h2 : (ask.reduce ask.remainingQuantity).IsFilled = true := by
          simp [Order.IsFilled, Order.reduce_remaining]
        simp only [h1, h2, if_true, Bool.false_eq_true, if_false] at h
        have hrec := ih (o.reduce ask.remainingQuantity) asks _ _ res
          (by rw [Order.reduce_remaining]; omega) h
        rw [Order.reduce_remaining, tradedQty_append, Order.reduce_reduce] at hrec
        have htq : (tradeOf o ask).bidTrade.quantity = ask.remainingQuantity := by
          simp only [tradeOf]; omega
        rw [htq] at hrec
        refine ⟨by omega, fun hS => hrec.2.1 (by omega), fun hS => hrec.2.2 (by omega)⟩
      · have hmin : min o.remainingQuantity ask.remainingQuantity = o.remainingQuantity := by
          omega
        rw [hmin] at h
        have h1 : (o.reduce o.remainingQuantity).IsFilled = true := by
          simp [Order.IsFilled, Order.reduce_remaining]
        simp only [h1, if_true] at h
        rw [matchLevel_nil_left] at h
        cases h
        simp only
        rw [tradedQty_append]
        have htq : (tradeOf o ask).bidTrade.quantity = o.remainingQuantity := by
          simp only [tradeOf]; omega
        rw [htq]
        refine ⟨by omega, fun hS => by omega, fun _ => trivial⟩

/-- The inner loop on a best ask level that holds one order of positive
remaining quantity: the mirror image of `matchLevel_single_bid`. -/
theorem matchLevel_single_ask :
    ∀ (fuel : Nat) (o : Order) (bids : OrderPointers) (orders : Registry) (trades : Trades)
      (res : LevelMatch), 0 < o.remainingQuantity →
      matchLevel fuel bids [o] orders trades = .ok res →
      tradedQty res.trades = tradedQty trades + min o.remainingQuantity (restingQty bids) ∧
      (restingQty bids < o.remainingQuantity →
        res.asks = [o.reduce (restingQty bids)] ∧ res.bids = []) ∧
      (o.remainingQuantity ≤ restingQty bids → res.asks = []) := by
  intro fuel
  induction fuel with
  | zero =>
    intro o bids orders trades res ho h
    cases bids with
    | nil =>
      rw [matchLevel_nil_left] at h
      cases h
      simp only [restingQty_nil, Nat.min_zero, Nat.add_zero, Order.reduce_zero, true_and,
        and_true, implies_true]
      intro hle
      omega
    | cons bid bids => simp [matchLevel] at h
  | succ fuel ih =>
    intro o bids orders trades res ho h
    cases bids with
    | nil =>
      rw [matchLevel_nil_left] at h
      cases h
      simp only [restingQty_nil, Nat.min_zero, Nat.add_zero, Order.reduce_zero, true_and,
        and_true, implies_true]
      intro hle
      omega
    | cons bid bids =>
      rw [matchLevel_succ] at h
      simp only at h
      rw [restingQty_cons]
      by_cases hlt : bid.remainingQuantity < o.remainingQuantity
      · have hmin : min bid.remainingQuantity o.remainingQuantity = bid.remainingQuantity := by
          omega
        rw [hmin] at h
        have h1 : (o.reduce bid.remainingQuantity).IsFilled = false := by
          simp only [Order.IsFilled, Order.reduce_remaining, beq_eq_false_iff_ne, ne_eq]
          omega
        have h2 : (bid.reduce bid.remainingQuantity).IsFilled = true := by
          simp [Order.IsFilled, Order.reduce_remaining]
        simp only [h1, h2, if_true, Bool.false_eq_true, if_false] at h
        have hrec := ih (o.reduce bid.remainingQuantity) bids _ _ res
          (by rw [Order.reduce_remaining]; omega) h
        rw [Order.reduce_remaining, tradedQty_append, Order.reduce_reduce] at hrec
        have htq : (tradeOf bid o).bidTrade.quantity = bid.remainingQuantity := by
          simp only [tradeOf]; omega
        rw [htq] at hrec
        refine ⟨by omega, fun hS => hrec.2.1 (by omega), fun hS => hrec.2.2 (by omega)⟩
      · have hmin : min bid.remainingQuantity o.remainingQuantity = o.remainingQuantity := by
          omega
        rw [hmin] at h
        have h1 : (o.reduce o.remainingQuantity).IsFilled = true := by
          simp [Order.IsFilled, Order.reduce_remaining]
        simp only [h1, if_true] at h
        rw [matchLevel_nil_right] at h
        cases h
        simp only
        rw [tradedQty_append]
        have htq : (tradeOf bid o).bidTrade.quantity = o.remainingQuantity := by
          simp only [tradeOf]; omega
        rw [htq]
        refine ⟨by omega, fun hS => by omega, fun _ => trivial⟩

theorem levelKeys_eraseLevel_subset (p : Int) (levels : Levels) :
    ∀ k ∈ levelKeys (eraseLevel p levels), k ∈ levelKeys levels := by
  intro k hk
  obtain ⟨l, hl, rfl⟩ := List.mem_map.mp hk
  exact List.mem_map_of_mem Prod.fst (List.mem_filter.mp hl).1

/-- The outer loop on a book whose best bid level holds one order of positive
remaining quantity, every other bid being priced below every ask: the order
trades the minimum of its remaining quantity and the total of the ask levels
priced at or below its level; it stays, with the rest, and no such ask level
remains, exactly when it exceeds that total; otherwise its level is gone. -/
theorem matchLoop_single_bid :
    ∀ (fuel : Nat) (p : Int) (o : Order) (rb asks : Levels) (orders : Registry)
      (trades ts : Trades) (b1 : Orderbook),
      0 < o.remainingQuantity → p ∉ levelKeys rb →
      (∀ k ∈ levelKeys rb, ∀ a ∈ levelKeys asks, k < a) →
      (levelKeys asks).Pairwise (fun a c => a < c) →
      matchLoop fuel ⟨(p, [o]) :: rb, asks, orders⟩ trades = .ok (ts, b1) →
      tradedQty ts = tradedQty trades
        + min o.remainingQuantity (levelLiquidity asks (fun k => decide (k ≤ p))) ∧
      (levelLiquidity asks (fun k => decide (k ≤ p)) < o.remainingQuantity →
        b1.bids_ = (p, [o.reduce (levelLiquidity asks (fun k => decide (k ≤ p)))]) :: rb ∧
        ∀ l ∈ b1.asks_, p < l.1) ∧
      (o.remainingQuantity ≤ levelLiquidity asks (fun k => decide (k ≤ p)) →
        b1.bids_ = rb) := by
  have hbase : ∀ (fuel : Nat) (p : Int) (o : Order) (rb asks : Levels) (orders : Registry)
      (trades ts : Trades) (b1 : Orderbook), 0 < o.remainingQuantity →
      (∀ k ∈ levelKeys asks, p < k) →
      matchLoop fuel ⟨(p, [o]) :: rb, asks, orders⟩ trades = .ok (ts, b1) →
      tradedQty ts = tradedQty trades
        + min o.remainingQuantity (levelLiquidity asks (fun k => decide (k ≤ p))) ∧
      (levelLiquidity asks (fun k => decide (k ≤ p)) < o.remainingQuantity →
        b1.bids_ = (p, [o.reduce (levelLiquidity asks (fun k => decide (k ≤ p)))]) :: rb ∧
        ∀ l ∈ b1.asks_, p < l.1) ∧
      (o.remainingQuantity ≤ levelLiquidity asks (fun k => decide (k ≤ p)) →
        b1.bids_ = rb) := by
    intro fuel p o rb asks orders trades ts b1 ho hall h
    have hnc : NoCross ⟨(p, [o]) :: rb, asks, orders⟩ := by
      intro bl hbl al hal
      simp only [List.head?_cons, Option.mem_def, Option.some.injEq] at hbl
      subst hbl
      exact hall al.1 (List.mem_map_of_mem Prod.fst (List.mem_of_mem_head? hal))
    rw [matchLoop_of_noCross fuel _ trades hnc] at h
    cases h
    have hL : levelLiquidity asks (fun k => decide (k ≤ p)) = 0 :=
      levelLiquidity_eq_zero (fun k hk => by
        have := hall k hk
        simp only [decide_eq_false_iff_not, not_le]
        exact this)
    rw [hL]
    refine ⟨by simp, fun _ => ⟨by rw [Order.reduce_zero], fun l hl =>
      hall l.1 (List.mem_map_of_mem Prod.fst hl)⟩, fun hle => by omega⟩
  intro fuel
  induction fuel with
  | zero =>
    intro p o rb asks orders trades ts b1 ho hp hrb hs h
    by_cases hall : ∀ k ∈ levelKeys asks, p < k
    · exact hbase 0 p o rb asks orders trades ts b1 ho hall h
    · cases asks with
      | nil => exact absurd (fun k hk => by cases hk) hall
      | cons al ra =>
        obtain ⟨ap, aq⟩ := al
        by_cases hlt : p < ap
        · refine absurd (fun k hk => ?_) hall
          simp only [levelKeys, List.map_cons, List.mem_cons] at hk
          rcases hk with rfl | hk
          · exact hlt
          · have := (List.pairwise_cons.mp hs).1 k hk
            omega
        · rw [matchLoop] at h
          simp [hlt] at h
  | succ fuel ih =>
    intro p o rb asks orders trades ts b1 ho hp hrb hs h
    by_cases hall : ∀ k ∈ levelKeys asks, p < k
    · exact hbase (fuel + 1) p o rb asks orders trades ts b1 ho hall h
    · cases asks with
      | nil => exact absurd (fun k hk => by cases hk) hall
      | cons al ra =>
        obtain ⟨ap, aq⟩ := al
        by_cases hlt : p < ap
        · refine absurd (fun k hk => ?_) hall
          simp only [levelKeys, List.map_cons, List.mem_cons] at hk
          rcases hk with rfl | hk
          · exact hlt
          · have := (List.pairwise_cons.mp hs).1 k hk
            omega
        · have hs1 := List.pairwise_cons.mp hs
          have hap : ap ∉ levelKeys ra := fun hm => by
            have := hs1.1 ap hm
            omega
          rw [matchLoop] at h
          simp only [hlt, if_false] at h
          split at h
          · cases h
          · rename_i r hr
            have hlev := matchLevel_single_bid _ o aq orders trades r ho hr
            rw [levelLiquidity_cons]
            have hdec : decide (ap ≤ p) = true := by
              simp only [decide_eq_true_eq]; omega
            simp only [hdec, if_true]
            by_cases hS : restingQty aq < o.remainingQuantity
            · obtain ⟨hb, ha⟩ := hlev.2.1 hS
              rw [hb, ha] at h
              simp only [List.isEmpty_cons, List.isEmpty_nil, Bool.false_eq_true, if_false,
                if_true] at h
              rw [eraseLevel_head ap [] ra hap] at h
              have hrec := ih p (o.reduce (restingQty aq)) rb ra r.orders r.trades ts b1
                (by rw [Order.reduce_remaining]; omega) hp
                (fun k hk a ha1 => hrb k hk a (List.mem_cons_of_mem _ ha1)) hs1.2 h
              rw [Order.reduce_remaining, Order.reduce_reduce] at hrec
              refine ⟨by omega, fun hL => hrec.2.1 (by omega), fun hL => hrec.2.2 (by omega)⟩
            · have hb := hlev.2.2 (by omega)
              rw [hb] at h
              simp only [List.isEmpty_nil, if_true] at h
              rw [eraseLevel_head p [] rb hp] at h
              have hnc : NoCross ⟨rb,
                  if r.asks.isEmpty = true then eraseLevel ap ((ap, r.asks) :: ra)
                  else (ap, r.asks) :: ra, r.orders⟩ := by
                intro bl hbl al hal
                have hk := List.mem_map_of_mem Prod.fst (List.mem_of_mem_head? hbl)
                have hal1 := List.mem_map_of_mem Prod.fst (List.mem_of_mem_head? hal)
                have hal2 : al.1 ∈ levelKeys ((ap, r.asks) :: ra) := by
                  simp only at hal1
                  split at hal1
                  · exact levelKeys_eraseLevel_subset ap ((ap, r.asks) :: ra) _ hal1
                  · exact hal1
                exact hrb bl.1 hk al.1 hal2
              rw [matchLoop_of_noCross fuel _ _ hnc] at h
              cases h
              refine ⟨by omega, fun hL => by omega, fun _ => rfl⟩
/-- The outer loop on a book whose best ask level holds one order of positive
remaining quantity, every other ask being priced above every bid: the mirror
image of `matchLoop_single_bid`. -/
theorem matchLoop_single_ask :
    ∀ (fuel : Nat) (p : Int) (o : Order) (bids ra : Levels) (orders : Registry)
      (trades ts : Trades) (b1 : Orderbook),
      0 < o.remainingQuantity → p ∉ levelKeys ra →
      (∀ k ∈ levelKeys ra, ∀ c ∈ levelKeys bids, c < k) →
      (levelKeys bids).Pairwise (fun a c => a > c) →
      matchLoop fuel ⟨bids, (p, [o]) :: ra, orders⟩ trades = .ok (ts, b1) →
      tradedQty ts = tradedQty trades
        + min o.remainingQuantity (levelLiquidity bids (fun k => decide (p ≤ k))) ∧
      (levelLiquidity bids (fun k => decide (p ≤ k)) < o.remainingQuantity →
        b1.asks_ = (p, [o.reduce (levelLiquidity bids (fun k => decide (p ≤ k)))]) :: ra ∧
        ∀ l ∈ b1.bids_, l.1 < p) ∧
      (o.remainingQuantity ≤ levelLiquidity bids (fun k => decide (p ≤ k)) →
        b1.asks_ = ra) := by
  have hbase : ∀ (fuel : Nat) (p : Int) (o : Order) (bids ra : Levels) (orders : Registry)
      (trades ts : Trades) (b1 : Orderbook), 0 < o.remainingQuantity →
      (∀ k ∈ levelKeys bids, k < p) →
      matchLoop fuel ⟨bids, (p, [o]) :: ra, orders⟩ trades = .ok (ts, b1) →
      tradedQty ts = tradedQty trades
        + min o.remainingQuantity (levelLiquidity bids (fun k => decide (p ≤ k))) ∧
      (levelLiquidity bids (fun k => decide (p ≤ k)) < o.remainingQuantity →
        b1.asks_ = (p, [o.reduce (levelLiquidity bids (fun k => decide (p ≤ k)))]) :: ra ∧
        ∀ l ∈ b1.bids_, l.1 < p) ∧
      (o.remainingQuantity ≤ levelLiquidity bids (fun k => decide (p ≤ k)) →
        b1.asks_ = ra) := by
    intro fuel p o bids ra orders trades ts b1 ho hall h
    have hnc : NoCross ⟨bids, (p, [o]) :: ra, orders⟩ := by
      intro bl hbl al hal
      simp only [List.head?_cons, Option.mem_def, Option.some.injEq] at hal
      subst hal
      exact hall bl.1 (List.mem_map_of_mem Prod.fst (List.mem_of_mem_head? hbl))
    rw [matchLoop_of_noCross fuel _ trades hnc] at h
    cases h
    have hL : levelLiquidity bids (fun k => decide (p ≤ k)) = 0 :=
      levelLiquidity_eq_zero (fun k hk => by
        have := hall k hk
        simp only [decide_eq_false_iff_not, not_le]
        exact this)
    rw [hL]
    refine ⟨by simp, fun _ => ⟨by rw [Order.reduce_zero], fun l hl =>
      hall l.1 (List.mem_map_of_mem Prod.fst hl)⟩, fun hle => by omega⟩
  intro fuel
  induction fuel with
  | zero =>
    intro p o bids ra orders trades ts b1 ho hp hra hs h
    by_cases hall : ∀ k ∈ levelKeys bids, k < p
    · exact hbase 0 p o bids ra orders trades ts b1 ho hall h
    · cases bids with
      | nil => exact absurd (fun k hk => by cases hk) hall
      | cons bl rb =>
        obtain ⟨bp, bq⟩ := bl
        by_cases hlt : bp < p
        · refine absurd (fun k hk => ?_) hall
          simp only [levelKeys, List.map_cons, List.mem_cons] at hk
          rcases hk with rfl | hk
          · exact hlt
          · have := (List.pairwise_cons.mp hs).1 k hk
            omega
        · rw [matchLoop] at h
          simp [hlt] at h
  | succ fuel ih =>
    intro p o bids ra orders trades ts b1 ho hp hra hs h
    by_cases hall : ∀ k ∈ levelKeys bids, k < p
    · exact hbase (fuel + 1) p o bids ra orders trades ts b1 ho hall h
    · cases bids with
      | nil => exact absurd (fun k hk => by cases hk) hall
      | cons bl rb =>
        obtain ⟨bp, bq⟩ := bl
        by_cases hlt : bp < p
        · refine absurd (fun k hk => ?_) hall
          simp only [levelKeys, List.map_cons, List.mem_cons] at hk
          rcases hk with rfl | hk
          · exact hlt
          · have := (List.pairwise_cons.mp hs).1 k hk
            omega
        · have hs1 := List.pairwise_cons.mp hs
          have hbp : bp ∉ levelKeys rb := fun hm => by
            have := hs1.1 bp hm
            omega
          rw [matchLoop] at h
          simp only [hlt, if_false] at h
          split at h
          · cases h
          · rename_i r hr
            have hlev := matchLevel_single_ask _ o bq orders trades r ho hr
            rw [levelLiquidity_cons]
            have hdec : decide (p ≤ bp) = true := by
              simp only [decide_eq_true_eq]; omega
            simp only [hdec, if_true]
            by_cases hS : restingQty bq < o.remainingQuantity
            · obtain ⟨ha, hb⟩ := hlev.2.1 hS
              rw [hb, ha] at h
              simp only [List.isEmpty_cons, List.isEmpty_nil, Bool.false_eq_true, if_false,
                if_true] at h
              rw [eraseLevel_head bp [] rb hbp] at h
              have hrec := ih p (o.reduce (restingQty bq)) rb ra r.orders r.trades ts b1
                (by rw [Order.reduce_remaining]; omega) hp
                (fun k hk c hc => hra k hk c (List.mem_cons_of_mem _ hc)) hs1.2 h
              rw [Order.reduce_remaining, Order.reduce_reduce] at hrec
              refine ⟨by omega, fun hL => hrec.2.1 (by omega), fun hL => hrec.2.2 (by omega)⟩
            · have ha := hlev.2.2 (by omega)
              rw [ha] at h
              simp only [List.isEmpty_nil, if_true] at h
              rw [eraseLevel_head p [] ra hp] at h
              have hnc : NoCross ⟨if r.bids.isEmpty = true then eraseLevel bp ((bp, r.bids) :: rb)
                  else (bp, r.bids) :: rb, ra, r.orders⟩ := by
                intro bl hbl al hal
                have hk := List.mem_map_of_mem Prod.fst (List.mem_of_mem_head? hal)
                have hbl1 := List.mem_map_of_mem Prod.fst (List.mem_of_mem_head? hbl)
                have hbl2 : bl.1 ∈ levelKeys ((bp, r.bids) :: rb) := by
                  simp only at hbl1
                  split at hbl1
                  · exact levelKeys_eraseLevel_subset bp ((bp, r.bids) :: rb) _ hbl1
                  · exact hbl1
                exact hra al.1 hk bl.1 hbl2
              rw [matchLoop_of_noCross fuel _ _ hnc] at h
              cases h
              refine ⟨by omega, fun hL => by omega, fun _ => rfl⟩

theorem AddOrder_executed_buy {b : Orderbook} (hinv : Inv b) (o : Order)
    (hside : o.side = Side.Buy) (hty : o.orderType = OrderType.GoodTillCancel)
    (hfresh : b.orders_.contains o.orderId = false) (hq : 0 < o.remainingQuantity) :
    ∃ ts b1, AddOrder b o = .ok (ts, b1) ∧
      tradedQty ts = min o.remainingQuantity
        (levelLiquidity b.asks_ (fun k => decide (k ≤ o.price))) ∧
      (levelLiquidity b.asks_ (fun k => decide (k ≤ o.price)) < o.remainingQuantity →
        o.reduce (levelLiquidity b.asks_ (fun k => decide (k ≤ o.price)))
          ∈ queueAt b1.bids_ o.price ∧
        ∀ l ∈ b1.asks_, o.price < l.1) ∧
      (o.remainingQuantity ≤ levelLiquidity b.asks_ (fun k => decide (k ≤ o.price)) →
        ∀ x ∈ b1.resting, x.orderId ≠ o.orderId) := by
  have hlk : b.orders_.lookup o.orderId = none := by
    simpa [Registry.contains] using hfresh
  have hnot := hinv.1.2.2.not_resting hlk
  cases hcan : CanMatch b o.side o.price with
  | false =>
    have hadd := AddOrder_resting hinv o hfresh hty hcan
    have hall : ∀ k ∈ levelKeys b.asks_, o.price < k := by
      rcases (CanMatch_eq_false_iff b o.side o.price).mp hcan with ⟨_, hprice⟩ | ⟨hs, _⟩
      · intro k hk
        have hsorted := hinv.1.1.2
        cases hasks : b.asks_ with
        | nil => rw [hasks] at hk; cases hk
        | cons al ra =>
          rw [hasks] at hk hsorted hprice
          have h0 := hprice al (by simp)
          simp only [levelKeys, List.map_cons, List.mem_cons] at hk
          rcases hk with rfl | hk
          · exact h0
          · have := (List.pairwise_cons.mp hsorted).1 k hk
            omega
      · rw [hside] at hs; cases hs
    have hL : levelLiquidity b.asks_ (fun k => decide (k ≤ o.price)) = 0 :=
      levelLiquidity_eq_zero (fun k hk => by
        have := hall k hk
        simp only [decide_eq_false_iff_not, not_le]
        exact this)
    rw [hL]
    refine ⟨[], insertOrder b o, hadd.1, by simp [tradedQty], fun _ => ⟨?_, ?_⟩,
      fun hle => by omega⟩
    · have hqa := queueAt_insertOrder hinv.1.1 o o.price
      rw [hside] at hqa
      simp only [Orderbook.levels, if_true] at hqa
      rw [Order.reduce_zero, hqa]
      simp
    · intro l hl
      have hasks : (insertOrder b o).asks_ = b.asks_ := by
        unfold insertOrder
        rw [hside]
      rw [hasks] at hl
      exact hall l.1 (List.mem_map_of_mem Prod.fst hl)
  | true =>
    rw [hside] at hcan
    have hacc : Accepted b o := ⟨hlk, fun h => by rw [hty] at h; cases h.1⟩
    obtain ⟨ts, bm, hrun, _, _, _, hloop, hadd, _⟩ := AddOrder_accepted_spec hinv hacc
    rw [if_neg (by rw [hty]; intro h; cases h)] at hadd
    obtain ⟨ap, aq, ra, hasks, hap⟩ : ∃ ap aq ra, b.asks_ = (ap, aq) :: ra ∧ ap ≤ o.price := by
      unfold CanMatch at hcan
      simp only at hcan
      cases hasks : b.asks_ with
      | nil => rw [hasks] at hcan; cases hcan
      | cons al ra =>
        obtain ⟨ap, aq⟩ := al
        rw [hasks] at hcan
        simp only [ge_iff_le, decide_eq_true_eq] at hcan
        exact ⟨ap, aq, ra, rfl, hcan⟩
    have hbelow : ∀ k ∈ levelKeys b.bids_, k < o.price := by
      intro k hk
      obtain ⟨l, hl, rfl⟩ := List.mem_map.mp hk
      have := hinv.2.2.1 l hl (ap, aq) (by rw [hasks]; simp)
      simp only at this
      omega
    have hbids : (insertOrder b o).bids_ = (o.price, [o]) :: b.bids_ := by
      have hpush := pushOrder_best bidBefore o b.bids_ (fun k hk => by
        have := hbelow k hk
        refine ⟨by omega, ?_⟩
        simp only [bidBefore, gt_iff_lt, decide_eq_true_eq]
        exact this)
      unfold insertOrder
      rw [hside]
      simp only [hpush]
    have hasks1 : (insertOrder b o).asks_ = b.asks_ := by
      unfold insertOrder
      rw [hside]
    have hshape : insertOrder b o
        = ⟨(o.price, [o]) :: b.bids_, b.asks_, (insertOrder b o).orders_⟩ := by
      rw [← hbids, ← hasks1]
    rw [hshape] at hloop
    have hmain := matchLoop_single_bid _ o.price o b.bids_ b.asks_ _ [] ts bm hq
      (fun hm => by have := hbelow _ hm; omega)
      (fun k hk a ha => by
        obtain ⟨l, hl, rfl⟩ := List.mem_map.mp hk
        obtain ⟨l1, hl1, rfl⟩ := List.mem_map.mp ha
        exact hinv.2.2.1 l hl l1 hl1)
      hinv.1.1.2 hloop
    refine ⟨ts, bm, hadd, by simpa [tradedQty] using hmain.1, fun hL => ?_, fun hle => ?_⟩
    · obtain ⟨h1, h2⟩ := hmain.2.1 hL
      refine ⟨?_, h2⟩
      rw [h1, queueAt_cons, if_pos rfl]
      simp
    · have h1 := hmain.2.2 hle
      intro x hx
      rcases List.mem_append.mp hx with hx | hx
      · rw [h1] at hx
        exact hnot x (List.mem_append_left _ hx)
      · obtain ⟨y, hy, hid, _⟩ := hrun.descends.2 x hx
        simp only [hasks1] at hy
        rw [← hid]
        exact hnot y (List.mem_append_right _ hy)

theorem AddOrder_executed_sell {b : Orderbook} (hinv : Inv b) (o : Order)
    (hside : o.side = Side.Sell) (hty : o.orderType = OrderType.GoodTillCancel)
    (hfresh : b.orders_.contains o.orderId = false) (hq : 0 < o.remainingQuantity) :
    ∃ ts b1, AddOrder b o = .ok (ts, b1) ∧
      tradedQty ts = min o.remainingQuantity
        (levelLiquidity b.bids_ (fun k => decide (o.price ≤ k))) ∧
      (levelLiquidity b.bids_ (fun k => decide (o.price ≤ k)) < o.remainingQuantity →
        o.reduce (levelLiquidity b.bids_ (fun k => decide (o.price ≤ k)))
          ∈ queueAt b1.asks_ o.price ∧
        ∀ l ∈ b1.bids_, l.1 < o.price) ∧
      (o.remainingQuantity ≤ levelLiquidity b.bids_ (fun k => decide (o.price ≤ k)) →
        ∀ x ∈ b1.resting, x.orderId ≠ o.orderId) := by
  have hlk : b.orders_.lookup o.orderId = none := by
    simpa [Registry.contains] using hfresh
  have hnot := hinv.1.2.2.not_resting hlk
  cases hcan : CanMatch b o.side o.price with
  | false =>
    have hadd := AddOrder_resting hinv o hfresh hty hcan
    have hall : ∀ k ∈ levelKeys b.bids_, k < o.price := by
      rcases (CanMatch_eq_false_iff b o.side o.price).mp hcan with ⟨hs, _⟩ | ⟨_, hprice⟩
      · rw [hside] at hs; cases hs
      · intro k hk
        have hsorted := hinv.1.1.1
        cases hbids : b.bids_ with
        | nil => rw [hbids] at hk; cases hk
        | cons bl rb =>
          rw [hbids] at hk hsorted hprice
          have h0 := hprice bl (by simp)
          simp only [levelKeys, List.map_cons, List.mem_cons] at hk
          rcases hk with rfl | hk
          · exact h0
          · have := (List.pairwise_cons.mp hsorted).1 k hk
            omega
    have hL : levelLiquidity b.bids_ (fun k => decide (o.price ≤ k)) = 0 :=
      levelLiquidity_eq_zero (fun k hk => by
        have := hall k hk
        simp only [decide_eq_false_iff_not, not_le]
        exact this)
    rw [hL]
    refine ⟨[], insertOrder b o, hadd.1, by simp [tradedQty], fun _ => ⟨?_, ?_⟩,
      fun hle => by omega⟩
    · have hqa := queueAt_insertOrder hinv.1.1 o o.price
      rw [hside] at hqa
      simp only [Orderbook.levels, if_true] at hqa
      rw [Order.reduce_zero, hqa]
      simp
    · intro l hl
      have hbids : (insertOrder b o).bids_ = b.bids_ := by
        unfold insertOrder
        rw [hside]
      rw [hbids] at hl
      exact hall l.1 (List.mem_map_of_mem Prod.fst hl)
  | true =>
    rw [hside] at hcan
    have hacc : Accepted b o := ⟨hlk, fun h => by rw [hty] at h; cases h.1⟩
    obtain ⟨ts, bm, hrun, _, _, _, hloop, hadd, _⟩ := AddOrder_accepted_spec hinv hacc
    rw [if_neg (by rw [hty]; intro h; cases h)] at hadd
    obtain ⟨bp, bq, rb, hbids, hbp⟩ : ∃ bp bq rb, b.bids_ = (bp, bq) :: rb ∧ o.price ≤ bp := by
      unfold CanMatch at hcan
      simp only at hcan
      cases hbids : b.bids_ with
      | nil => rw [hbids] at hcan; cases hcan
      | cons bl rb =>
        obtain ⟨bp, bq⟩ := bl
        rw [hbids] at hcan
        simp only [decide_eq_true_eq] at hcan
        exact ⟨bp, bq, rb, rfl, hcan⟩
    have habove : ∀ k ∈ levelKeys b.asks_, o.price < k := by
      intro k hk
      obtain ⟨l, hl, rfl⟩ := List.mem_map.mp hk
      have := hinv.2.2.1 (bp, bq) (by rw [hbids]; simp) l hl
      simp only at this
      omega
    have hasks : (insertOrder b o).asks_ = (o.price, [o]) :: b.asks_ := by
      have hpush := pushOrder_best askBefore o b.asks_ (fun k hk => by
        have := habove k hk
        refine ⟨by omega, ?_⟩
        simp only [askBefore, decide_eq_true_eq]
        exact this)
      unfold insertOrder
      rw [hside]
      simp only [hpush]
    have hbids1 : (insertOrder b o).bids_ = b.bids_ := by
      unfold insertOrder
      rw [hside]
    have hshape : insertOrder b o
        = ⟨b.bids_, (o.price, [o]) :: b.asks_, (insertOrder b o).orders_⟩ := by
      rw [← hbids1, ← hasks]
    rw [hshape] at hloop
    have hmain := matchLoop_single_ask _ o.price o b.bids_ b.asks_ _ [] ts bm hq
      (fun hm => by have := habove _ hm; omega)
      (fun k hk c hc => by
        obtain ⟨l, hl, rfl⟩ := List.mem_map.mp hk
        obtain ⟨l1, hl1, rfl⟩ := List.mem_map.mp hc
        exact hinv.2.2.1 l1 hl1 l hl)
      hinv.1.1.1 hloop
    refine ⟨ts, bm, hadd, by simpa [tradedQty] using hmain.1, fun hL => ?_, fun hle => ?_⟩
    · obtain ⟨h1, h2⟩ := hmain.2.1 hL
      refine ⟨?_, h2⟩
      rw [h1, queueAt_cons, if_pos rfl]
      simp
    · have h1 := hmain.2.2 hle
      intro x hx
      rcases List.mem_append.mp hx with hx | hx
      · obtain ⟨y, hy, hid, _⟩ := hrun.descends.1 x hx
        simp only [hbids1] at hy
        rw [← hid]
        exact hnot y (List.mem_append_left _ hy)
      · rw [h1] at hx
        exact hnot x (List.mem_append_right _ hx)

theorem crossingLiquidity_buy {b : Orderbook} (ht : Tagged b) (p : Int) :
    crossingLiquidity b Side.Buy p = levelLiquidity b.asks_ (fun k => decide (k ≤ p)) :=
  liquidity_by_level (fun k => decide (k ≤ p)) (fun l hl x hx => (ht.2 l hl x hx).2)

theorem crossingLiquidity_sell {b : Orderbook} (ht : Tagged b) (p : Int) :
    crossingLiquidity b Side.Sell p = levelLiquidity b.bids_ (fun k => decide (p ≤ k)) :=
  liquidity_by_level (fun k => decide (p ≤ k)) (fun l hl x hx => (ht.1 l hl x hx).2)

/-- C25. Executed quantity is the available crossing liquidity: on every
reachable book, `AddOrder` of a GoodTillCancel order o with an unregistered id
and a positive quantity q returns trades whose quantities add up to min(q, L),
where L is the total remaining quantity of the resting orders of the opposite
side that o can be matched with (asks priced at or below the limit of a buy,
bids priced at or above the limit of a sell); both legs of every trade carry
the same quantity.  When q > L, o rests afterwards in the level of its price on
its side with remaining quantity q − L, and no order of the opposite side that o
can be matched with remains; otherwise o does not rest: no resting order has its
id and its id is not registered. -/
theorem executed_quantity (b : Orderbook) (hb : Reachable b) (o : Order)
    (hty : o.orderType = OrderType.GoodTillCancel)
    (hfresh : b.orders_.contains o.orderId = false) (hq : 0 < o.remainingQuantity) :
    ∃ ts b1, AddOrder b o = .ok (ts, b1) ∧
      tradedQty ts = min o.remainingQuantity (crossingLiquidity b o.side o.price) ∧
      (∀ t ∈ ts, t.bidTrade.quantity = t.askTrade.quantity) ∧
      (crossingLiquidity b o.side o.price < o.remainingQuantity →
        (∃ x ∈ queueAt (b1.levels o.side) o.price,
          x = o.reduce (crossingLiquidity b o.side o.price) ∧ x.orderId = o.orderId ∧
          x.remainingQuantity = o.remainingQuantity - crossingLiquidity b o.side o.price) ∧
        ∀ x ∈ queued (b1.levels o.side.opposite), crossesAt o.side o.price x.price = false) ∧
      (o.remainingQuantity ≤ crossingLiquidity b o.side o.price →
        (∀ x ∈ b1.resting, x.orderId ≠ o.orderId) ∧
        b1.orders_.contains o.orderId = false) := by
  have hinv := hb.inv
  obtain ⟨ts0, b0, hadd0, hinv1⟩ := AddOrder_inv hinv o
  obtain ⟨ts2, b2, hadd2, hok2⟩ := AddOrder_tradesOK hinv o
  have hgone : (∀ x ∈ b0.resting, x.orderId ≠ o.orderId) →
      b0.orders_.contains o.orderId = false := by
    intro h
    cases hc : b0.orders_.contains o.orderId with
    | false => rfl
    | true =>
      obtain ⟨x, hx, hid⟩ := (hinv1.1.2.2.contains_iff o.orderId).mp hc
      exact absurd hid (h x hx)
  have hlegs : ∀ t ∈ ts0, t.bidTrade.quantity = t.askTrade.quantity := by
    rw [hadd0] at hadd2
    cases hadd2
    exact fun t ht => (hok2.legs t ht).1
  cases hside : o.side with
  | Buy =>
    obtain ⟨ts, b1, hadd, h1, h2, h3⟩ := AddOrder_executed_buy hinv o hside hty hfresh hq
    rw [hadd0] at hadd
    cases hadd
    rw [crossingLiquidity_buy hinv.1.2.1]
    refine ⟨ts0, b0, hadd0, h1, hlegs, fun hL => ?_, fun hle => ⟨h3 hle, hgone (h3 hle)⟩⟩
    obtain ⟨h4, h5⟩ := h2 hL
    refine ⟨⟨_, h4, rfl, rfl, rfl⟩, fun x hx => ?_⟩
    obtain ⟨l, hl, hxl⟩ := mem_queued.mp hx
    have hp := (hinv1.1.2.1.2 l hl x hxl).2
    have := h5 l hl
    simp only [crossesAt, decide_eq_false_iff_not, not_le]
    omega
  | Sell =>
    obtain ⟨ts, b1, hadd, h1, h2, h3⟩ := AddOrder_executed_sell hinv o hside hty hfresh hq
    rw [hadd0] at hadd
    cases hadd
    rw [crossingLiquidity_sell hinv.1.2.1]
    refine ⟨ts0, b0, hadd0, h1, hlegs, fun hL => ?_, fun hle => ⟨h3 hle, hgone (h3 hle)⟩⟩
    obtain ⟨h4, h5⟩ := h2 hL
    refine ⟨⟨_, h4, rfl, rfl, rfl⟩, fun x hx => ?_⟩
    obtain ⟨l, hl, hxl⟩ := mem_queued.mp hx
    have hp := (hinv1.1.2.1.1 l hl x hxl).2
    have := h5 l hl
    simp only [crossesAt, decide_eq_false_iff_not, not_le]
    omega

theorem executed_quantity_witness :
    Reachable exampleBook ∧
    exampleBook.orders_.contains (Order.new .GoodTillCancel 5 .Buy 101 10).orderId = false ∧
    crossingLiquidity exampleBook .Buy 101 = 7 ∧
    (∃ b1, AddOrder exampleBook (Order.new .GoodTillCancel 5 .Buy 101 10)
      = .ok ([⟨⟨5, 101, 7⟩, ⟨3, 101, 7⟩⟩], b1) ∧
      queueAt b1.bids_ 101 = [⟨.GoodTillCancel, 5, .Buy, 101, 10, 3⟩] ∧ b1.asks_ = []) ∧
    ∃ ts b1, AddOrder exampleBook (Order.new .GoodTillCancel 5 .Buy 101 10) = .ok (ts, b1) ∧
      tradedQty ts = min (Order.new .GoodTillCancel 5 .Buy 101 10).remainingQuantity
        (crossingLiquidity exampleBook (Order.new .GoodTillCancel 5 .Buy 101 10).side
          (Order.new .GoodTillCancel 5 .Buy 101 10).price) ∧
      (∀ t ∈ ts, t.bidTrade.quantity = t.askTrade.quantity) ∧
      (crossingLiquidity exampleBook (Order.new .GoodTillCancel 5 .Buy 101 10).side
          (Order.new .GoodTillCancel 5 .Buy 101 10).price
          < (Order.new .GoodTillCancel 5 .Buy 101 10).remainingQuantity →
        (∃ x ∈ queueAt (b1.levels (Order.new .GoodTillCancel 5 .Buy 101 10).side)
            (Order.new .GoodTillCancel 5 .Buy 101 10).price,
          x = (Order.new .GoodTillCancel 5 .Buy 101 10).reduce
              (crossingLiquidity exampleBook (Order.new .GoodTillCancel 5 .Buy 101 10).side
                (Order.new .GoodTillCancel 5 .Buy 101 10).price) ∧
          x.orderId = (Order.new .GoodTillCancel 5 .Buy 101 10).orderId ∧
          x.remainingQuantity = (Order.new .GoodTillCancel 5 .Buy 101 10).remainingQuantity
            - crossingLiquidity exampleBook (Order.new .GoodTillCancel 5 .Buy 101 10).side
                (Order.new .GoodTillCancel 5 .Buy 101 10).price) ∧
        ∀ x ∈ queued (b1.levels (Order.new .GoodTillCancel 5 .Buy 101 10).side.opposite),
          crossesAt (Order.new .GoodTillCancel 5 .Buy 101 10).side
            (Order.new .GoodTillCancel 5 .Buy 101 10).price x.price = false) ∧
      ((Order.new .GoodTillCancel 5 .Buy 101 10).remainingQuantity
          ≤ crossingLiquidity exampleBook (Order.new .GoodTillCancel 5 .Buy 101 10).side
              (Order.new .GoodTillCancel 5 .Buy 101 10).price →
        (∀ x ∈ b1.resting, x.orderId ≠ (Order.new .GoodTillCancel 5 .Buy 101 10).orderId) ∧
        b1.orders_.contains (Order.new .GoodTillCancel 5 .Buy 101 10).orderId = false) :=
  ⟨exampleBook_reachable, rfl, by decide, ⟨_, rfl, rfl, rfl⟩,
    executed_quantity exampleBook exampleBook_reachable
      (Order.new .GoodTillCancel 5 .Buy 101 10) rfl rfl (by decide)⟩

/-! ### Feed translation -/

theorem toPrice_fits {priceBits : Nat} (hbits : 0 < priceBits) {n : Int}
    (h : FitsPrice priceBits n) : toPrice priceBits n = n := by
  obtain ⟨k, rfl⟩ : ∃ k, priceBits = k + 1 := ⟨priceBits - 1, by omega⟩
  unfold FitsPrice at h
  unfold toPrice
  simp only [Nat.add_sub_cancel] at h ⊢
  have hpos : (0 : Int) < 2 ^ k := by positivity
  have hdouble : (2 : Int) ^ (k + 1) = 2 ^ k + 2 ^ k := by
    rw [pow_succ]; ring
  rw [hdouble, Int.emod_eq_of_lt (by omega) (by omega)]
  omega

theorem toQuantity_fits {quantityBits : Nat} {q : Nat} (h : q < 2 ^ quantityBits) :
    toQuantity quantityBits (q : Int) = q := by
  unfold toQuantity
  have h1 : (q : Int) < 2 ^ quantityBits := by exact_mod_cast h
  rw [Int.emod_eq_of_lt (by omega) h1]
  simp

theorem addYesLevels_quoted (priceBits quantityBits : Nat) (hbits : 0 < priceBits) :
    ∀ (yes : List (Int × Nat)) (b : Orderbook) (id : Nat),
      (∀ l ∈ yes, FitsPrice priceBits l.1 ∧ l.2 < 2 ^ quantityBits) →
      addYesLevels priceBits quantityBits (yes.map quotedLevel) b id
        = (addAll b (specYesOrders id yes)).map (fun b1 => (b1, id + yes.length, none)) := by
  intro yes
  induction yes with
  | nil =>
    intro b id _
    rfl
  | cons l rest ih =>
    intro b id hfit
    have hl := hfit l (List.mem_cons_self _ _)
    simp only [List.map_cons, addYesLevels, quotedLevel, Json.size, List.length_cons,
      List.length_nil, ge_iff_le, Nat.reduceAdd, le_refl, if_true, Json.atIndex,
      List.getD_cons_zero, List.getD_cons_succ, Except.bind, Json.toNumber,
      toPrice_fits hbits hl.1, toQuantity_fits hl.2, specYesOrders, addAll]
    cases hadd : AddOrder b (Order.new .GoodTillCancel id .Buy l.1 l.2) with
    | error e => rfl
    | ok r =>
      obtain ⟨ts, b1⟩ := r
      simp only
      rw [ih b1 (id + 1) (fun l1 hl1 => hfit l1 (List.mem_cons_of_mem _ hl1))]
      have : id + 1 + rest.length = id + (rest.length + 1) := by omega
      rw [this]

theorem addNoLevels_quoted (priceBits quantityBits : Nat) (hbits : 0 < priceBits) :
    ∀ (no : List (Int × Nat)) (b : Orderbook) (id : Nat),
      (∀ l ∈ no, FitsPrice priceBits l.1 ∧ FitsPrice priceBits (100 - l.1) ∧
        l.2 < 2 ^ quantityBits) →
      addNoLevels priceBits quantityBits (no.map quotedLevel) b id
        = (addAll b (specNoOrders id no)).map (fun b1 => (b1, id + no.length, none)) := by
  intro no
  induction no with
  | nil =>
    intro b id _
    rfl
  | cons l rest ih =>
    intro b id hfit
    have hl := hfit l (List.mem_cons_self _ _)
    simp only [List.map_cons, addNoLevels, quotedLevel, Json.size, List.length_cons,
      List.length_nil, ge_iff_le, Nat.reduceAdd, le_refl, if_true, Json.atIndex,
      List.getD_cons_zero, List.getD_cons_succ, Except.bind, Json.toNumber,
      toPrice_fits hbits hl.1, toPrice_fits hbits hl.2.1, toQuantity_fits hl.2.2,
      specNoOrders, addAll]
    cases hadd : AddOrder b (Order.new .GoodTillCancel id .Sell (100 - l.1) l.2) with
    | error e => rfl
    | ok r =>
      obtain ⟨ts, b1⟩ := r
      simp only
      rw [ih b1 (id + 1) (fun l1 hl1 => hfit l1 (List.mem_cons_of_mem _ hl1))]
      have : id + 1 + rest.length = id + (rest.length + 1) := by omega
      rw [this]

theorem addAll_append (os1 os2 : List Order) :
    ∀ b : Orderbook, addAll b (os1 ++ os2) = (addAll b os1).bind (fun b1 => addAll b1 os2) := by
  induction os1 with
  | nil => intro b; rfl
  | cons o rest ih =>
    intro b
    simp only [List.cons_append, addAll]
    cases AddOrder b o with
    | error e => rfl
    | ok r => exact ih r.2

theorem addAll_reachable : ∀ (os : List Order) (b : Orderbook), Reachable b →
    ∃ b1, addAll b os = .ok b1 ∧ Reachable b1 := by
  intro os
  induction os with
  | nil => exact fun b hb => ⟨b, rfl, hb⟩
  | cons o rest ih =>
    intro b hb
    obtain ⟨ts, b1, hadd, _⟩ := AddOrder_inv hb.inv o
    obtain ⟨b2, h2, hr2⟩ := ih b1 (Reachable.add o ts hb hadd)
    exact ⟨b2, by simp only [addAll, hadd, h2], hr2⟩

theorem specYesOrders_ids (firstId : Nat) (yes : List (Int × Nat)) :
    (specYesOrders firstId yes).map (fun o => o.orderId) = List.range' firstId yes.length := by
  induction yes generalizing firstId with
  | nil => rfl
  | cons l rest ih =>
    simp only [specYesOrders, List.map_cons, List.length_cons, List.range'_succ, ih]
    rfl

theorem specNoOrders_ids (firstId : Nat) (no : List (Int × Nat)) :
    (specNoOrders firstId no).map (fun o => o.orderId) = List.range' firstId no.length := by
  induction no generalizing firstId with
  | nil => rfl
  | cons l rest ih =>
    simp only [specNoOrders, List.map_cons, List.length_cons, List.range'_succ, ih]
    rfl

theorem parseAndAddOrders_quoted (priceBits quantityBits : Nat) (hbits : 0 < priceBits)
    (orderbookData : Json) (yes no : List (Int × Nat))
    (hyes : orderbookData.contains "yes" = true ∧
      orderbookData.atKey "yes" = .array (yes.map quotedLevel))
    (hno : orderbookData.contains "no" = true ∧
      orderbookData.atKey "no" = .array (no.map quotedLevel))
    (hfy : ∀ l ∈ yes, FitsPrice priceBits l.1 ∧ l.2 < 2 ^ quantityBits)
    (hfn : ∀ l ∈ no, FitsPrice priceBits l.1 ∧ FitsPrice priceBits (100 - l.1) ∧
      l.2 < 2 ^ quantityBits)
    (b : Orderbook) (id : Nat) :
    parseAndAddOrders priceBits quantityBits orderbookData b id
      = (addAll b (specFeedOrders id yes no)).map
          (fun b1 => ⟨true, "", b1, id + yes.length + no.length⟩) := by
  unfold parseAndAddOrders specFeedOrders
  simp only [hyes.1, hyes.2, hno.1, hno.2, if_true, Json.elements]
  rw [addYesLevels_quoted priceBits quantityBits hbits yes b id hfy, addAll_append]
  cases h1 : addAll b (specYesOrders id yes) with
  | error e => rfl
  | ok b1 =>
    simp only [Except.map, Except.bind]
    rw [addNoLevels_quoted priceBits quantityBits hbits no b1 (id + yes.length) hfn]
    cases h2 : addAll b1 (specNoOrders (id + yes.length) no) with
    | error e => rfl
    | ok b2 => rfl

/-- C21. Feed translation: for every response whose `orderbook` object has a
`yes` array and a `no` array of [price, quantity] pairs of whole numbers that
fit the types `Price` and `Quantity` (for a `no` level also 100 minus the
price), `populateOrderbook` calls `parseAndAddOrders` with the id counter at 1,
and on every book the call has the effect of `AddOrder` of the orders of
`specFeedOrders`, one after the other: one GoodTillCancel Buy order per `yes`
pair at the quoted price and quantity, then one GoodTillCancel Sell order per
`no` pair at 100 minus the price and the quoted quantity, with the ids 1, 2,
3, ... in this order; it returns true, clears the diagnostic and leaves the
counter behind the last id.  On a reachable book all these `AddOrder` calls
return. -/
theorem feed_translation (priceBits quantityBits : Nat) (hbits : 0 < priceBits)
    (marketData orderbookData : Json) (yes no : List (Int × Nat))
    (hbook : marketData.contains "orderbook" = true ∧
      marketData.atKey "orderbook" = orderbookData)
    (hyes : orderbookData.contains "yes" = true ∧
      orderbookData.atKey "yes" = .array (yes.map quotedLevel))
    (hno : orderbookData.contains "no" = true ∧
      orderbookData.atKey "no" = .array (no.map quotedLevel))
    (hfy : ∀ l ∈ yes, FitsPrice priceBits l.1 ∧ l.2 < 2 ^ quantityBits)
    (hfn : ∀ l ∈ no, FitsPrice priceBits l.1 ∧ FitsPrice priceBits (100 - l.1) ∧
      l.2 < 2 ^ quantityBits)
    (b : Orderbook) :
    populateOrderbook priceBits quantityBits (.ok marketData) b
      = (addAll b (specFeedOrders 1 yes no)).map (fun b1 => ⟨true, "", b1⟩) ∧
    parseAndAddOrders priceBits quantityBits orderbookData b 1
      = (addAll b (specFeedOrders 1 yes no)).map
          (fun b1 => ⟨true, "", b1, 1 + yes.length + no.length⟩) ∧
    specFeedOrders 1 yes no = specYesOrders 1 yes ++ specNoOrders (1 + yes.length) no ∧
    (specFeedOrders 1 yes no).map (fun o => o.orderId)
      = List.range' 1 (yes.length + no.length) ∧
    (Reachable b → ∃ b1, addAll b (specFeedOrders 1 yes no) = .ok b1 ∧ Reachable b1) := by
  have hparse := parseAndAddOrders_quoted priceBits quantityBits hbits orderbookData yes no
    hyes hno hfy hfn b 1
  refine ⟨?_, hparse, rfl, ?_, fun hb => addAll_reachable _ b hb⟩
  · unfold populateOrderbook
    simp only [hbook.1, hbook.2, not_true_eq_false, if_false, hparse]
    cases addAll b (specFeedOrders 1 yes no) with
    | error e => rfl
    | ok b1 => rfl
  · unfold specFeedOrders
    rw [List.map_append, specYesOrders_ids, specNoOrders_ids]
    have h := List.range'_append 1 yes.length no.length 1
    rw [Nat.one_mul, Nat.add_comm no.length] at h
    exact h

theorem feed_translation_witness :
    (∀ l ∈ [((50 : Int), 10), (40, 5)], FitsPrice 32 l.1 ∧ l.2 < 2 ^ 32) ∧
    (∀ l ∈ [((45 : Int), 7)], FitsPrice 32 l.1 ∧ FitsPrice 32 (100 - l.1) ∧ l.2 < 2 ^ 32) ∧
    specFeedOrders 1 [(50, 10), (40, 5)] [(45, 7)]
      = [Order.new .GoodTillCancel 1 .Buy 50 10, Order.new .GoodTillCancel 2 .Buy 40 5,
         Order.new .GoodTillCancel 3 .Sell 55 7] ∧
    populateOrderbook 32 32 (.ok exampleResponse) Orderbook.empty
      = .ok ⟨true, "",
          ⟨[(50, [Order.new .GoodTillCancel 1 .Buy 50 10]),
            (40, [Order.new .GoodTillCancel 2 .Buy 40 5])],
           [(55, [Order.new .GoodTillCancel 3 .Sell 55 7])],
           [(3, ⟨.Sell, 55, .GoodTillCancel⟩), (2, ⟨.Buy, 40, .GoodTillCancel⟩),
            (1, ⟨.Buy, 50, .GoodTillCancel⟩)]⟩⟩ ∧
    (populateOrderbook 32 32 (.ok exampleResponse) Orderbook.empty
      = (addAll Orderbook.empty (specFeedOrders 1 [(50, 10), (40, 5)] [(45, 7)])).map
          (fun b1 => ⟨true, "", b1⟩) ∧
    parseAndAddOrders 32 32 (exampleResponse.atKey "orderbook") Orderbook.empty 1
      = (addAll Orderbook.empty (specFeedOrders 1 [(50, 10), (40, 5)] [(45, 7)])).map
          (fun b1 => ⟨true, "", b1, 1 + [((50 : Int), 10), (40, 5)].length
            + [((45 : Int), 7)].length⟩) ∧
    specFeedOrders 1 [(50, 10), (40, 5)] [(45, 7)]
      = specYesOrders 1 [(50, 10), (40, 5)]
          ++ specNoOrders (1 + [((50 : Int), 10), (40, 5)].length) [(45, 7)] ∧
    (specFeedOrders 1 [(50, 10), (40, 5)] [(45, 7)]).map (fun o => o.orderId)
      = List.range' 1 ([((50 : Int), 10), (40, 5)].length + [((45 : Int), 7)].length) ∧
    (Reachable Orderbook.empty →
      ∃ b1, addAll Orderbook.empty (specFeedOrders 1 [(50, 10), (40, 5)] [(45, 7)]) = .ok b1 ∧
        Reachable b1)) :=
  have hfy : ∀ l ∈ [((50 : Int), 10), (40, 5)], FitsPrice 32 l.1 ∧ l.2 < 2 ^ 32 := by
    intro l hl
    simp only [List.mem_cons, List.mem_singleton, List.not_mem_nil, or_false] at hl
    rcases hl with rfl | rfl <;> norm_num [FitsPrice]
  have hfn : ∀ l ∈ [((45 : Int), 7)],
      FitsPrice 32 l.1 ∧ FitsPrice 32 (100 - l.1) ∧ l.2 < 2 ^ 32 := by
    intro l hl
    simp only [List.mem_singleton] at hl
    subst hl
    norm_num [FitsPrice]
  ⟨hfy, hfn, rfl, rfl,
    feed_translation 32 32 (by decide) exampleResponse (exampleResponse.atKey "orderbook")
      [(50, 10), (40, 5)] [(45, 7)] ⟨rfl, rfl⟩ ⟨rfl, rfl⟩ ⟨rfl, rfl⟩ hfy hfn Orderbook.empty⟩

/-! ### Feed failure -/

/-- Failures reported before `parseAndAddOrders` is called leave the book as it
was: a failed fetch, and a body that is not an object with the key `orderbook`;
the diagnostic is the message of the exception, or the fixed text. -/
theorem populateOrderbook_early_failure (priceBits quantityBits : Nat) (b : Orderbook) :
    (∀ what : String, populateOrderbook priceBits quantityBits (.error what) b
      = .ok ⟨false, what, b⟩) ∧
    (∀ marketData : Json, marketData.contains "orderbook" = false →
      populateOrderbook priceBits quantityBits (.ok marketData) b
        = .ok ⟨false, "Invalid response: missing orderbook data", b⟩) := by
  refine ⟨fun what => rfl, fun marketData h => ?_⟩
  unfold populateOrderbook
  simp [h]

/-- A level with fewer than two entries is skipped without any failure. -/
theorem short_level_skipped :
    populateOrderbook 32 32
        (.ok (.object [("orderbook", .object [("yes", .array [.array [.number 50]])])]))
        Orderbook.empty
      = .ok ⟨true, "", Orderbook.empty⟩ := by
  rfl

/-- C22, evaluated at a failing input: on the empty book, with the response
body `malformedResponse` (first `yes` level 50 for 10, second `yes` level with
a text in place of the price), `populateOrderbook` returns false with a
non-empty diagnostic, and the book it leaves behind holds the buy order id 1 of
the first level: it is not the book from before the call. -/
theorem feed_failure_partial_population :
    populateOrderbook 32 32 (.ok malformedResponse) Orderbook.empty
      = .ok ⟨false,
          "Error parsing orderbook data: [json.exception.type_error.302] type must be number, but is string",
          ⟨[(50, [Order.new .GoodTillCancel 1 .Buy 50 10])], [],
            [(1, ⟨.Buy, 50, .GoodTillCancel⟩)]⟩⟩ ∧
    Size ⟨[(50, [Order.new .GoodTillCancel 1 .Buy 50 10])], [],
      [(1, ⟨.Buy, 50, .GoodTillCancel⟩)]⟩ = 1 ∧
    Size Orderbook.empty = 0 ∧
    ¬ (∀ (fetched : Except String Json) (b : Orderbook) (r : PopulateOutcome),
        populateOrderbook 32 32 fetched b = .ok r → r.returned = false → r.orderbook = b) := by
  have h : populateOrderbook 32 32 (.ok malformedResponse) Orderbook.empty
      = .ok ⟨false,
          "Error parsing orderbook data: [json.exception.type_error.302] type must be number, but is string",
          ⟨[(50, [Order.new .GoodTillCancel 1 .Buy 50 10])], [],
            [(1, ⟨.Buy, 50, .GoodTillCancel⟩)]⟩⟩ := by
    rfl
  refine ⟨h, rfl, rfl, fun hall => ?_⟩
  have := hall _ _ _ h rfl
  have hsize := congrArg Size this
  cases hsize

end Wagewise
